import Mathlib

/-! suppress-eslint-errors: the directive placement transform.

A shallow embedding of `src/transforms/suppress-eslint-errors.js`.

Conventions of the embedding.

* A JavaScript string is a `List Char` (`Str`).  The string primitives the transform calls
  (`split`, `join`, `trim`, `trimStart`, `trimEnd`, `substr`, `lastIndexOf`) are modelled on
  that representation, with the ECMAScript definition of white space and of line
  terminators.
* The regular expression `eslintDisableRegexp` is modelled by the deterministic matcher that
  a backtracking engine performs on it.
* An array that the transform mutates in place is passed in and returned as a value.
* A comment object can be listed in several comment slots of one node: the parser lists a
  comment in `comments` and in `leadingComments` or `trailingComments`, and the transform
  pushes the comment of `createTrailingComment` on `comments` and on `trailingComments`.
  Every entry of a slot carries the identity `ref` of its object; the entries of one node
  that carry the same identity are one object.  The assignment to `lastComment.value`, made
  through one slot, is therefore written into every entry of the node that is the object
  (`shareRewritten`).  An object shared between two different nodes is not represented.
* `none` as the result of a tree operation stands for a `TypeError` raised on a tree that does
  not have the shape the parser guarantees (for instance an `IfStatement` without consequent).
-/

namespace SuppressEslintErrors

/-! ## JavaScript strings -/

/-- A JavaScript string, as the list of its characters. -/
abbrev Str := List Char

/-- The ECMAScript `LineTerminator` code points: LF, CR, LS and PS.  The regular expression
atom `.` matches every character except these. -/
def isLineTerminator (c : Char) : Bool :=
  c.toNat == 0x0A || c.toNat == 0x0D || c.toNat == 0x2028 || c.toNat == 0x2029

/-- The characters matched by `\s` and removed by `trim`: ECMAScript `WhiteSpace` together
with `LineTerminator`. -/
def isWhiteSpace (c : Char) : Bool :=
  c.toNat == 0x09 || c.toNat == 0x0A || c.toNat == 0x0B || c.toNat == 0x0C || c.toNat == 0x0D ||
  c.toNat == 0x20 || c.toNat == 0xA0 || c.toNat == 0x1680 ||
  (0x2000 ≤ c.toNat && c.toNat ≤ 0x200A) ||
  c.toNat == 0x2028 || c.toNat == 0x2029 || c.toNat == 0x202F || c.toNat == 0x205F ||
  c.toNat == 0x3000 || c.toNat == 0xFEFF

/-- `String.prototype.trimStart`. -/
def trimStart (s : Str) : Str := s.dropWhile isWhiteSpace

/-- `String.prototype.trimEnd`. -/
def trimEnd (s : Str) : Str := (s.reverse.dropWhile isWhiteSpace).reverse

/-- `String.prototype.trim`. -/
def trim (s : Str) : Str := trimEnd (trimStart s)

/-- Puts a character in front of the first piece of a split. -/
def consHead (x : Char) : List Str → List Str
  | [] => [[x]]
  | l :: ls => (x :: l) :: ls

/-- Scanning loop of `split`: `skip` counts the characters of a separator occurrence that are
still to be passed over. -/
def splitAux (sep : Str) : Nat → Str → List Str
  | _, [] => [[]]
  | skip + 1, _ :: xs => splitAux sep skip xs
  | 0, x :: xs =>
    if sep.isPrefixOf (x :: xs) then [] :: splitAux sep (sep.length - 1) xs
    else consHead x (splitAux sep 0 xs)

/-- `s.split(sep)` for a non-empty separator string: the pieces between the successive,
non-overlapping occurrences of `sep`, found from left to right. -/
def split (s sep : Str) : List Str := splitAux sep 0 s

/-- `parts.join(sep)`. -/
def join (sep : Str) : List Str → Str
  | [] => []
  | [a] => a
  | a :: b :: rest => a ++ sep ++ join sep (b :: rest)

/-- Removes the literal `p` from the front of `s`, when `s` starts with it. -/
def stripLiteral (p s : Str) : Option Str :=
  if p.isPrefixOf s then some (s.drop p.length) else none

/-! ## The directive pattern -/

/-- The result of a successful `String.prototype.match`: the matched text `match[0]` and the
two capture groups `match[1]` and `match[2]`. -/
structure RegExpMatch where
  whole : Str
  group1 : Str
  group2 : Str
deriving DecidableEq, Repr

/-- The end of the pattern, `(\s|$)(.*)`, tried on the text `t` that follows the keyword;
`matched` is the text consumed so far.  A white-space character is captured and followed by
the longest run of characters that are not line terminators; otherwise the text must end. -/
def matchAfterKeyword (matched : Str) : Str → Option RegExpMatch
  | [] => some ⟨matched, [], []⟩
  | c :: t =>
    if isWhiteSpace c then
      let rest := t.takeWhile (fun x => !isLineTerminator x)
      some ⟨matched ++ [c] ++ rest, [c], rest⟩
    else none

/-- The pattern `/^\s*eslint-disable(?:-next)?-line(\s|$)(.*)/` applied to `s`.  The leading
`\s*` can only succeed with all the leading white space, since the keyword starts with a
character that is not white space; the optional group is tried first with `-next`, then
without it. -/
def eslintDisableRegexp (s : Str) : Option RegExpMatch :=
  let ws := s.takeWhile isWhiteSpace
  match stripLiteral "eslint-disable".toList (s.dropWhile isWhiteSpace) with
  | none => none
  | some r =>
    let withNext :=
      ((stripLiteral "-next".toList r).bind (stripLiteral "-line".toList)).bind
        (matchAfterKeyword (ws ++ "eslint-disable-next-line".toList))
    match withNext with
    | some m => some m
    | none =>
      (stripLiteral "-line".toList r).bind (matchAfterKeyword (ws ++ "eslint-disable-line".toList))

/-! ## Comments -/

/-- A comment object: its `type` (`CommentLine` and `CommentBlock` from the parser, `Line` from
the builder), its text `value`, the placement flags `leading` and `trailing`, and its identity
`ref` among the comment slots of its node.  Two entries of the slots of one node are the same
object exactly when they carry the same `ref` other than `none`; an entry with `ref = none`
is an object that no other entry lists. -/
structure Comment where
  type : String
  value : Str
  leading : Bool
  trailing : Bool
  ref : Option Nat
deriving DecidableEq, Repr

/-- The local `explanationParts` of `tryRewriteEslintDisable`: the pieces of `match[2]` after
its first `--`. -/
def explanationParts (m : RegExpMatch) : List Str :=
  (split m.group2 "--".toList).tail

/-- The local `disabledRules`: the comma-separated entries, trimmed, of the piece of
`match[2]` before its first `--`. -/
def disabledRules (m : RegExpMatch) : List Str :=
  (split ((split m.group2 "--".toList).headD []) ",".toList).map trim

/-- The local `explanationSuffix`. -/
def explanationSuffix (m : RegExpMatch) : Str :=
  if (explanationParts m).length ≠ 0 then
    " -- ".toList ++ trim (join "--".toList (explanationParts m))
  else []

/-- The local `disable`, `match[0].split(' ')[1]`; a template literal prints a missing
element as the text `undefined`. -/
def disable (m : RegExpMatch) : Str :=
  ((split m.whole " ".toList).get? 1).getD "undefined".toList

/-- The text assigned to `lastComment.value`, with the space appended for a comment of type
`CommentBlock`. -/
def rewrittenValue (lastComment : Comment) (m : RegExpMatch) (ruleId : Str) : Str :=
  let value := " ".toList ++ disable m ++ " ".toList ++ join ", ".toList (disabledRules m) ++
    ", ".toList ++ ruleId ++ explanationSuffix m
  if lastComment.type = "CommentBlock" then value ++ " ".toList else value

/-- The function `tryRewriteEslintDisable(comments, ruleId)`.  The first component is the
returned boolean, the second the `comments` array after the call (the only mutation is the
assignment to `lastComment.value`). -/
def tryRewriteEslintDisable (comments : Option (List Comment)) (ruleId : Str) :
    Bool × Option (List Comment) :=
  match comments with
  | none => (false, none)
  | some cs =>
    match cs.getLast? with
    | none => (false, some cs)
    | some lastComment =>
      match eslintDisableRegexp lastComment.value with
      | none => (false, some cs)
      | some m =>
        if (disabledRules m).length = 0 ∨ ruleId ∈ disabledRules m then (true, some cs)
        else
          (true, some (cs.dropLast ++
            [{ lastComment with value := rewrittenValue lastComment m ruleId }]))

/-- The comment that the call `tryRewriteEslintDisable(comments, ruleId)` assigns a new text
to, after the assignment to `lastComment.value`; `none` when the call returns without that
assignment. -/
def rewrittenComment (comments : Option (List Comment)) (ruleId : Str) : Option Comment :=
  match comments.bind List.getLast? with
  | none => none
  | some lastComment =>
    match eslintDisableRegexp lastComment.value with
    | none => none
    | some m =>
      if (disabledRules m).length = 0 ∨ ruleId ∈ disabledRules m then none
      else some { lastComment with value := rewrittenValue lastComment m ruleId }

/-- Whether a comment array ends in a directive: it has a last comment and the directive
pattern accepts the text of that comment. -/
def endsInDirective (comments : Option (List Comment)) : Bool :=
  match comments.bind List.getLast? with
  | some lastComment => (eslintDisableRegexp lastComment.value).isSome
  | none => false

/-! ## Syntax trees -/

/-- The lines on which the source span `loc` of a node starts and ends. -/
structure Loc where
  startLine : Nat
  endLine : Nat
deriving DecidableEq, Repr

/-- The properties of a node that are not child nodes: its `type`, its optional span `loc`,
the four comment slots (`none` when the property is absent) and, for a `JSXText`, its text
`value`. -/
structure NodeAttrs where
  type : String
  loc : Option Loc
  comments : Option (List Comment)
  leadingComments : Option (List Comment)
  trailingComments : Option (List Comment)
  innerComments : Option (List Comment)
  value : Str
deriving DecidableEq, Repr

/-- An entry of a comment slot after the assignment of `value` to the property `value` of the
object `ref`: the entry shows the new text when it is that object. -/
def Comment.assigned (ref : Option Nat) (value : Str) (c : Comment) : Comment :=
  if ref ≠ none ∧ c.ref = ref then { c with value := value } else c

/-- A comment slot after the assignment of `value` to the property `value` of the object
`ref`. -/
def assignValue (ref : Option Nat) (value : Str) (slot : Option (List Comment)) :
    Option (List Comment) :=
  slot.map (fun cs => cs.map (Comment.assigned ref value))

/-- The properties of a node after a call of `tryRewriteEslintDisable` on one of its comment
slots, where `rewritten` is the comment that the call has assigned a new text to (`none` when
it has made no assignment): the new text is the text of that object in every slot that lists
it. -/
def shareRewritten (a : NodeAttrs) (rewritten : Option Comment) : NodeAttrs :=
  match rewritten with
  | none => a
  | some lastComment =>
    { a with
      comments := assignValue lastComment.ref lastComment.value a.comments
      leadingComments := assignValue lastComment.ref lastComment.value a.leadingComments
      trailingComments := assignValue lastComment.ref lastComment.value a.trailingComments
      innerComments := assignValue lastComment.ref lastComment.value a.innerComments }

/-- An identity that no comment listed in the slots of the node carries: the identity of an
object that is new to the node. -/
def freshRef (a : NodeAttrs) : Nat :=
  ((a.comments.getD [] ++ a.leadingComments.getD [] ++ a.trailingComments.getD [] ++
    a.innerComments.getD []).filterMap Comment.ref).foldr (fun r m => max (r + 1) m) 0

mutual
/-- A syntax node: its own properties and its child fields, in the order in which a traversal
visits them.  A field that is absent (or `null`) does not occur in the list. -/
inductive Node where
  | mk (attrs : NodeAttrs) (fields : List (String × FieldValue))
/-- The value of a child field: one node (`alternate`, `consequent`, `expression`) or an array
of nodes (`body`, `children`). -/
inductive FieldValue where
  | one (n : Node)
  | many (ns : List Node)
end

mutual
/-- Decides the equality of two nodes. -/
def Node.decEq (x y : Node) : Decidable (x = y) :=
  match x, y with
  | .mk a fs, .mk b gs =>
    match decEq a b, fieldsDecEq fs gs with
    | isTrue h1, isTrue h2 => isTrue (by rw [h1, h2])
    | isFalse h1, _ => isFalse (fun e => h1 (by injection e))
    | _, isFalse h2 => isFalse (fun e => h2 (by injection e))
termination_by structural x
/-- Decides the equality of two field lists. -/
def fieldsDecEq (x y : List (String × FieldValue)) : Decidable (x = y) :=
  match x, y with
  | [], [] => isTrue rfl
  | [], _ :: _ => isFalse (fun e => by cases e)
  | _ :: _, [] => isFalse (fun e => by cases e)
  | (n, f) :: fs, (m, g) :: gs =>
    match decEq n m, FieldValue.decEq f g, fieldsDecEq fs gs with
    | isTrue h1, isTrue h2, isTrue h3 => isTrue (by rw [h1, h2, h3])
    | isFalse h1, _, _ => isFalse (fun e => h1 (by injection e with e1 e2; injection e1))
    | _, isFalse h2, _ => isFalse (fun e => h2 (by injection e with e1 e2; injection e1))
    | _, _, isFalse h3 => isFalse (fun e => h3 (by injection e))
termination_by structural x
/-- Decides the equality of two field values. -/
def FieldValue.decEq (x y : FieldValue) : Decidable (x = y) :=
  match x, y with
  | .one a, .one b =>
    match Node.decEq a b with
    | isTrue h => isTrue (by rw [h])
    | isFalse h => isFalse (fun e => h (by injection e))
  | .many as, .many bs =>
    match nodesDecEq as bs with
    | isTrue h => isTrue (by rw [h])
    | isFalse h => isFalse (fun e => h (by injection e))
  | .one _, .many _ => isFalse (fun e => by cases e)
  | .many _, .one _ => isFalse (fun e => by cases e)
termination_by structural x
/-- Decides the equality of two node lists. -/
def nodesDecEq (x y : List Node) : Decidable (x = y) :=
  match x, y with
  | [], [] => isTrue rfl
  | [], _ :: _ => isFalse (fun e => by cases e)
  | _ :: _, [] => isFalse (fun e => by cases e)
  | a :: as, b :: bs =>
    match Node.decEq a b, nodesDecEq as bs with
    | isTrue h1, isTrue h2 => isTrue (by rw [h1, h2])
    | isFalse h1, _ => isFalse (fun e => h1 (by injection e))
    | _, isFalse h2 => isFalse (fun e => h2 (by injection e))
termination_by structural x
end

instance : DecidableEq Node := Node.decEq

instance : DecidableEq FieldValue := FieldValue.decEq

/-- The properties of a node. -/
def Node.attrs : Node → NodeAttrs
  | .mk a _ => a

/-- The child fields of a node. -/
def Node.fields : Node → List (String × FieldValue)
  | .mk _ fs => fs

/-- The property `node.type`. -/
def Node.type (n : Node) : String := n.attrs.type

/-- The property `node.loc`. -/
def Node.loc (n : Node) : Option Loc := n.attrs.loc

/-- The property `node.value` of a text node. -/
def Node.value (n : Node) : Str := n.attrs.value

/-- Replaces the properties of a node, keeping its child fields. -/
def Node.setAttrs (n : Node) (a : NodeAttrs) : Node := .mk a n.fields

/-- Looks a field name up in a field list: the position and value of the first field of that
name; `start` is the position of the head of the list. -/
def findField (name : String) : Nat → List (String × FieldValue) → Option (Nat × FieldValue)
  | _, [] => none
  | start, (k, v) :: rest => if k = name then some (start, v) else findField name (start + 1) rest

/-- The property access `node[name]` for a child field, with the position of the field. -/
def Node.field? (n : Node) (name : String) : Option (Nat × FieldValue) :=
  findField name 0 n.fields

/-- Replaces the value of the field at position `pos` of a field list. -/
def setFieldAt (v : FieldValue) : Nat → List (String × FieldValue) → List (String × FieldValue)
  | _, [] => []
  | 0, (k, _) :: rest => (k, v) :: rest
  | pos + 1, f :: rest => f :: setFieldAt v pos rest

/-- Replaces the value of the field at position `pos` of a node. -/
def Node.setField (n : Node) (pos : Nat) (v : FieldValue) : Node :=
  .mk n.attrs (setFieldAt v pos n.fields)

/-- The place of a child in its parent: the position of the field that holds it and, when
that field is an array, the index in the array. -/
structure Step where
  field : Nat
  index : Option Nat
deriving DecidableEq, Repr

/-- Replaces the child of `parent` found at `step` by `child`. -/
def Node.setChild (parent : Node) (step : Step) (child : Node) : Node :=
  match parent.fields.get? step.field, step.index with
  | some (_, .one _), none => parent.setField step.field (.one child)
  | some (_, .many ns), some i => parent.setField step.field (.many (ns.set i child))
  | _, _ => parent

/-- A path to a node (`NodePath`): the node itself (`path.value`, which is also `path.node`)
and the chain of its ancestors, parent first and root last, each with the place that the
node below it occupies in it.  `path.parent` is the path made of the head of `up` and of the
rest of the chain; it is `null` exactly when `up` is empty. -/
structure NodePath where
  value : Node
  up : List (Step × Node)
deriving DecidableEq

/-- The root of the tree after the node at the end of the chain `up` has been replaced by
`child`: in-place mutations of a node are written back into every ancestor. -/
def rebuild (child : Node) : List (Step × Node) → Node
  | [] => child
  | (step, parent) :: rest => rebuild (parent.setChild step child) rest

mutual
/-- The paths of all proper descendants of a node in the order of a pre-order traversal, as
collected by `find` on the `Node` type below the root path. -/
def Node.descendants (up : List (Step × Node)) (n : Node) : List NodePath :=
  match n with
  | .mk a fs => fieldsDescendants (.mk a fs) up 0 fs
termination_by structural n
/-- The paths below the fields `fs` of `parent`, the first of which has position `pos`. -/
def fieldsDescendants (parent : Node) (up : List (Step × Node)) (pos : Nat)
    (fs : List (String × FieldValue)) : List NodePath :=
  match fs with
  | [] => []
  | (_, v) :: rest =>
    FieldValue.descendants parent up pos v ++ fieldsDescendants parent up (pos + 1) rest
termination_by structural fs
/-- The paths below one field value of `parent`. -/
def FieldValue.descendants (parent : Node) (up : List (Step × Node)) (pos : Nat)
    (v : FieldValue) : List NodePath :=
  match v with
  | .one c => ⟨c, (⟨pos, none⟩, parent) :: up⟩ :: Node.descendants ((⟨pos, none⟩, parent) :: up) c
  | .many cs => nodesDescendants parent up pos 0 cs
termination_by structural v
/-- The paths below the elements `cs` of an array field, the first of which has index `i`. -/
def nodesDescendants (parent : Node) (up : List (Step × Node)) (pos i : Nat)
    (cs : List Node) : List NodePath :=
  match cs with
  | [] => []
  | c :: rest =>
    (⟨c, (⟨pos, some i⟩, parent) :: up⟩ ::
      Node.descendants ((⟨pos, some i⟩, parent) :: up) c) ++
      nodesDescendants parent up pos (i + 1) rest
termination_by structural cs
end

/-- The call `root.find('Node', filter).paths()`: the descendants of the root that satisfy
the filter, in traversal order. -/
def find (root : Node) (filter : Node → Bool) : List NodePath :=
  (Node.descendants [] root).filter (fun p => filter p.value)

/-! ## Builders and parsed templates -/

/-- The builder `api.j.line(value)`: a line comment, with the default placement flags of the
builder.  The transform lists the new object in one slot only. -/
def line (value : Str) : Comment := ⟨"Line", value, true, false, none⟩

/-- A node built without span, comments or children. -/
def bareNode (type : String) (value : Str) : Node :=
  .mk ⟨type, none, none, none, none, none, value⟩ []

/-- The builder `api.j.jsxText(value)`. -/
def jsxText (value : Str) : Node := bareNode "JSXText" value

/-- The builder `api.j.noop()`: a placeholder statement that prints nothing. -/
def noop : Node := bareNode "Noop" []

/-- The function `createJsxComment(api, text)`: the expression container obtained by parsing
a one-line element that holds a block comment in braces, with the text of that comment set
to `text` between two spaces.  The comment is the one object listed both in `innerComments`
and in `comments` of the empty expression. -/
def createJsxComment (text : Str) : Node :=
  let comment : Comment :=
    ⟨"CommentBlock", " ".toList ++ text ++ " ".toList, false, false, some 0⟩
  .mk ⟨"JSXExpressionContainer", some ⟨1, 1⟩, none, none, none, none, []⟩
    [("expression", .one (.mk
      ⟨"JSXEmptyExpression", some ⟨1, 1⟩, some [comment], none, none, some [comment], []⟩ []))]

/-- The function `createTrailingComment(api, text)`: the line comment that the parser attaches
as a trailing comment to a statement followed by a comment line, with its text set to
`text`.  Every call parses anew: `ref` is the identity of the object it returns. -/
def createTrailingComment (text : Str) (ref : Nat) : Comment :=
  ⟨"CommentLine", text, false, true, some ref⟩

/-- The keyword and placement flags of a new ordinary comment. -/
structure CommentPlacement where
  disable : Str
  leading : Bool
  trailing : Bool
deriving DecidableEq, Repr

/-- The constant `inlineComment`. -/
def inlineComment : CommentPlacement := ⟨"eslint-disable-line".toList, false, true⟩

/-- The constant `leadingComment`. -/
def leadingComment : CommentPlacement := ⟨"eslint-disable-next-line".toList, true, false⟩

/-! ## Ordinary comments -/

/-- The function `createNormalComment`, returning the target node after the call: a merge
into the last leading comment, else into the last trailing comment, else a new line comment
pushed on `comments`.  A merge rewrites one object, in every slot of the node that lists
it. -/
def createNormalComment (ruleId commentText : Str) (targetNode : Node) (inline : Bool) : Node :=
  let a := targetNode.attrs
  let leadingResult := tryRewriteEslintDisable a.leadingComments ruleId
  if leadingResult.1 then
    targetNode.setAttrs
      { shareRewritten a (rewrittenComment a.leadingComments ruleId) with
        leadingComments := leadingResult.2 }
  else
    let trailingResult := tryRewriteEslintDisable a.trailingComments ruleId
    if trailingResult.1 then
      targetNode.setAttrs
        { shareRewritten a (rewrittenComment a.trailingComments ruleId) with
          trailingComments := trailingResult.2 }
    else
      let placement := if inline then inlineComment else leadingComment
      let built := line (" ".toList ++ placement.disable ++ " ".toList ++ ruleId ++
        " -- ".toList ++ commentText)
      let comment := { built with leading := placement.leading, trailing := placement.trailing }
      targetNode.setAttrs
        { a with
          comments := some (a.comments.getD [] ++ [comment])
          leadingComments := some (a.leadingComments.getD []) }

/-! ## Array primitives with JavaScript indices -/

/-- The element access `xs[i]` for an integer index: `undefined` out of range. -/
def getAt {α : Type} (xs : List α) (i : Int) : Option α :=
  if i < 0 then none else xs.get? i.toNat

/-- The assignment to a property of `xs[i]`, as the replacement of that element. -/
def setAt {α : Type} (xs : List α) (i : Int) (x : α) : List α :=
  if i < 0 then xs else xs.set i.toNat x

/-- The start position used by `splice` and `substr`: a negative index counts from the
end, and the result is clamped to the length. -/
def relativeStart (length : Nat) (start : Int) : Nat :=
  if start < 0 then (length + start).toNat else min start.toNat length

/-- `xs.splice(start, deleteCount, ...items)`, returning the array after the call. -/
def splice {α : Type} (xs : List α) (start : Int) (deleteCount : Nat) (items : List α) : List α :=
  let k := relativeStart xs.length start
  xs.take k ++ items ++ xs.drop (k + deleteCount)

/-- `s.substr(start, length)`; `length = none` stands for the one-argument call. -/
def substr (s : Str) (start : Int) (length : Option Int) : Str :=
  let k := relativeStart s.length start
  match length with
  | none => s.drop k
  | some n => (s.drop k).take n.toNat

/-- Position of the last occurrence of `c` in the reversed string `r`, counted in the
original string of length `r.length`; `-1` when there is none. -/
def lastIndexOfAux (c : Char) : Str → Int
  | [] => -1
  | x :: r => if x = c then (r.length : Int) else lastIndexOfAux c r

/-- `s.lastIndexOf(c)` for a one-character string `c`. -/
def lastIndexOf (s : Str) (c : Char) : Int := lastIndexOfAux c s.reverse

/-! ## Markup children -/

/-- The loop of `tryRewriteJsxEslintDisable`, entered with `currentIndex = k - 1`. -/
def tryRewriteJsxLoop (children : List Node) (ruleId : Str) : Nat → Option (Bool × List Node)
  | 0 => some (false, children)
  | k + 1 =>
    match children.get? k with
    | none => none
    | some sibling =>
      if sibling.type = "JSXText" ∧ (trim sibling.value).length = 0 then
        tryRewriteJsxLoop children ruleId k
      else if sibling.type = "JSXExpressionContainer" then
        match sibling.field? "expression" with
        | none => none
        | some (_, .many _) => some (false, children)
        | some (pos, .one expression) =>
          if expression.type = "JSXEmptyExpression" then
            let r := tryRewriteEslintDisable expression.attrs.comments ruleId
            if r.1 then
              some (true, children.set k (sibling.setField pos
                (.one (expression.setAttrs
                  { shareRewritten expression.attrs
                      (rewrittenComment expression.attrs.comments ruleId) with
                    comments := r.2 }))))
            else some (false, children)
          else some (false, children)
      else some (false, children)

/-- The function `tryRewriteJsxEslintDisable(children, targetIndex, ruleId)`: the returned
boolean and the `children` array after the call. -/
def tryRewriteJsxEslintDisable (children : List Node) (targetIndex : Int) (ruleId : Str) :
    Option (Bool × List Node) :=
  tryRewriteJsxLoop children ruleId targetIndex.toNat

/-- The fragments pushed for one line of a text value: the callback of `lines.flatMap`, where
`linesLength` is `lines.length`. -/
def segmentLine (linesLength : Nat) (line : Str) (lineIndex : Nat) : List Str :=
  let trimmedLine := trimEnd line
  let result :=
    if trimmedLine.length ≠ 0 then
      if lineIndex = 0 then
        let startTrimmedLine := trimStart trimmedLine
        if startTrimmedLine.length = line.length then [line]
        else
          (if startTrimmedLine.length < trimmedLine.length then
            [substr trimmedLine 0 (some (trimmedLine.length - startTrimmedLine.length : Int))]
          else []) ++
          [startTrimmedLine] ++
          (if trimmedLine.length < line.length then [substr line trimmedLine.length none]
          else [])
      else
        if trimmedLine.length = line.length then [line]
        else [trimmedLine, substr line trimmedLine.length none]
    else []
  result ++ (if lineIndex ≠ linesLength - 1 then ["\n".toList] else [])

/-- The call `lines.flatMap(...)` on the lines from index `lineIndex` on. -/
def segmentLines (linesLength : Nat) : Nat → List Str → List Str
  | _, [] => []
  | lineIndex, line :: rest =>
    segmentLine linesLength line lineIndex ++ segmentLines linesLength (lineIndex + 1) rest

/-- The `segments` computed for the text `value` of a sibling. -/
def segments (value : Str) : List Str :=
  let lines := split value "\n".toList
  segmentLines lines.length 0 lines

/-- Whether the segmentation loop replaces the sibling: a `JSXText` that is not a
white-space-only text starting with a newline. -/
def isSegmented (sibling : Node) : Bool :=
  sibling.type = "JSXText" ∧ ¬ (sibling.value.head? = some '\n' ∧ (trim sibling.value).length = 0)

/-- The segmentation loop over the children, entered with `siblingIndex = k - 1` and running
down to index zero. -/
def segmentLoop : Nat → List Node → List Node
  | 0, children => children
  | k + 1, children =>
    match children.get? k with
    | none => segmentLoop k children
    | some sibling =>
      if isSegmented sibling then
        segmentLoop k (splice children k 1 ((segments sibling.value).map jsxText))
      else segmentLoop k children

/-- The children after the segmentation loop. -/
def segmentChildren (children : List Node) : List Node :=
  segmentLoop children.length children

/-- The call `children.indexOf(targetPath.value)` after the segmentation loop, for a target
that occupies the place `step` in a parent whose `children` field has position `childrenPos`
and held `children` before the loop.  The search is by object identity: the target is found
when it is an element of the array that the loop did not replace, at the index to which the
fragments of the earlier siblings have shifted it; otherwise the result is `-1`. -/
def indexOfTarget (children : List Node) (childrenPos : Nat) (step : Step) : Int :=
  match step.index with
  | none => -1
  | some i =>
    match children.get? i with
    | none => -1
    | some sibling =>
      if step.field = childrenPos ∧ ¬ isSegmented sibling then
        ((segmentChildren (children.take i)).length : Int)
      else -1

/-- The backward scan over the siblings before the target, entered with
`siblingIndex = k - 1`; the result is the final `targetIndex`. -/
def widenLoop (children : List Node) (targetLine : Nat) : Nat → Int → Int
  | 0, targetIndex => targetIndex
  | k + 1, targetIndex =>
    match children.get? k with
    | none => targetIndex
    | some sibling =>
      if sibling.type = "JSXText" then
        if '\n' ∈ sibling.value then targetIndex
        else widenLoop children targetLine k k
      else
        match sibling.loc with
        | some loc =>
          if loc.startLine ≠ targetLine then targetIndex
          else widenLoop children targetLine k k
        | none => widenLoop children targetLine k targetIndex

/-- The insertion index after the backward scan that starts at `targetIndex`. -/
def widen (children : List Node) (targetLine : Nat) (targetIndex : Int) : Int :=
  widenLoop children targetLine targetIndex.toNat targetIndex

/-- The split of the previous sibling: when the sibling before the insertion index is a
text whose run after its last newline is not empty and is white space, the run is cut off and
inserted as a new text at the insertion index, which moves one place to the right.  Returns
the children and the insertion index. -/
def splitPreviousSibling (children : List Node) (targetIndex : Int) : List Node × Int :=
  match getAt children (targetIndex - 1) with
  | none => (children, targetIndex)
  | some previousSibling =>
    if previousSibling.type = "JSXText" then
      let textValue := previousSibling.value
      let lastNewline := lastIndexOf textValue '\n'
      if lastNewline ≠ (textValue.length : Int) - 1 ∧
          (trim (substr textValue (lastNewline + 1) none)).length = 0 then
        let shortened := previousSibling.setAttrs
          { previousSibling.attrs with value := substr textValue 0 (some lastNewline) }
        (splice (setAt children (targetIndex - 1) shortened) targetIndex 0
          [jsxText (substr textValue lastNewline none)], targetIndex + 1)
      else (children, targetIndex)
    else (children, targetIndex)

/-- The directive text of a new markup or trailing comment:
`eslint-disable-next-line <ruleId> -- <commentText>`. -/
def nextLineDirective (ruleId commentText : Str) : Str :=
  "eslint-disable-next-line ".toList ++ ruleId ++ " -- ".toList ++ commentText

/-- The markup-children strategy of `addDisableComment`, on the `children` array of the
parent: segmentation, backward scan, merge into an existing markup comment, else split of the
previous sibling and insertion of a new markup comment followed by a newline text.  Returns
the `children` array after the call. -/
def addDisableCommentJsxChildren (commentText : Str) (targetLine : Nat) (ruleId : Str)
    (children : List Node) (childrenPos : Nat) (step : Step) : Option (List Node) :=
  let segmented := segmentChildren children
  let targetIndex := widen segmented targetLine (indexOfTarget children childrenPos step)
  match tryRewriteJsxEslintDisable segmented targetIndex ruleId with
  | none => none
  | some (true, merged) => some merged
  | some (false, unmerged) =>
    let r := splitPreviousSibling unmerged targetIndex
    some (splice r.1 r.2 0
      [createJsxComment (nextLineDirective ruleId commentText), jsxText "\n".toList])

/-! ## Placement of one directive -/

/-- A message passed to `api.report`. -/
inductive Report where
  | unableToFindNodes (targetLine : Nat) (filePath ruleId : Str)
  | skippingSuppression (ruleId : Str) (targetLine : Nat) (filePath : Str)
deriving DecidableEq, Repr

/-- The ascent loop of `addDisableComment`: `targetPath` moves to its parent as long as there
is a parent and the parent has no span or a span that starts on the target line. -/
def ascend (targetLine : Nat) (value : Node) : List (Step × Node) → NodePath
  | [] => ⟨value, []⟩
  | (step, parent) :: rest =>
    match parent.loc with
    | none => ascend targetLine parent rest
    | some loc =>
      if loc.startLine = targetLine then ascend targetLine parent rest
      else ⟨value, (step, parent) :: rest⟩

/-- The test `parent.alternate === targetPath.value`, by object identity: the target is the
node held by the `alternate` field of its parent. -/
def isAlternate (parent : Node) (step : Step) : Bool :=
  match parent.field? "alternate" with
  | some (pos, .one _) => pos = step.field ∧ step.index = none
  | _ => false

/-- The end of the conditional branch of `addDisableComment`, on the last statement of the
consequent: a merge into its last trailing comment, which rewrites that object in every slot
that lists it, else one new trailing comment, the same object pushed on both `comments` and
`trailingComments`. -/
def annotateLastStatement (commentText ruleId : Str) (lastStatement : Node) : Node :=
  let a := lastStatement.attrs
  let r := tryRewriteEslintDisable a.trailingComments ruleId
  if r.1 then
    lastStatement.setAttrs
      { shareRewritten a (rewrittenComment a.trailingComments ruleId) with
        trailingComments := r.2 }
  else
    let newComment :=
      createTrailingComment (" ".toList ++ nextLineDirective ruleId commentText) (freshRef a)
    lastStatement.setAttrs
      { a with
        comments := some (a.comments.getD [] ++ [newComment])
        trailingComments := some (a.trailingComments.getD [] ++ [newComment]) }

/-- The conditional branch of `addDisableComment`, on the block `consequent` of the
conditional statement: returns the consequent after the call. -/
def addDisableCommentConsequent (commentText ruleId : Str) (consequent : Node) : Option Node :=
  match consequent.field? "body" with
  | some (bodyPos, .many consequentBody) =>
    let inner := tryRewriteEslintDisable consequent.attrs.innerComments ruleId
    if consequentBody.length = 0 ∧ inner.1 then
      some (consequent.setAttrs
        { shareRewritten consequent.attrs
            (rewrittenComment consequent.attrs.innerComments ruleId) with
          innerComments := inner.2 })
    else
      let body := if consequentBody.length = 0 then consequentBody ++ [noop] else consequentBody
      match body.getLast? with
      | none => none
      | some lastStatement =>
        some (consequent.setField bodyPos
          (.many (body.dropLast ++ [annotateLastStatement commentText ruleId lastStatement])))
  | _ => none

/-- The closing-tag branch of `addDisableComment`, on the `children` array of the element:
a merge into a markup comment that ends the children, else a new markup comment and a
newline text pushed at the end. -/
def addDisableCommentJsxClosingElement (commentText ruleId : Str) (children : List Node) :
    Option (List Node) :=
  match tryRewriteJsxEslintDisable children children.length ruleId with
  | none => none
  | some (true, merged) => some merged
  | some (false, unmerged) =>
    some (unmerged ++
      [createJsxComment (nextLineDirective ruleId commentText), jsxText "\n".toList])

/-- The condition of the conditional branch: the parent is an `IfStatement`, the target is
its alternate and its consequent is a block.  The result is `none` for a `TypeError`,
`some none` when the condition is false and the position and node of the consequent when it
holds. -/
def conditionalTail (parent : Node) (step : Step) : Option (Option (Nat × Node)) :=
  if parent.type = "IfStatement" ∧ isAlternate parent step then
    match parent.field? "consequent" with
    | none => none
    | some (_, .many _) => some none
    | some (pos, .one consequent) =>
      if consequent.type = "BlockStatement" then some (some (pos, consequent)) else some none
  else some none

/-- The function `addDisableComment`, for the start path `path`: the root of the tree after
the call and the reports made. -/
def addDisableComment (filePath commentText : Str) (targetLine : Nat) (ruleId : Str)
    (path : NodePath) (inline : Bool) : Option (Node × List Report) :=
  let targetPath := ascend targetLine path.value path.up
  let target := targetPath.value
  let normal : Option (Node × List Report) :=
    some (rebuild (createNormalComment ruleId commentText target inline) targetPath.up, [])
  match targetPath.up with
  | [] => if target.type = "JSXClosingElement" then none else normal
  | (step, parent) :: rest =>
    match conditionalTail parent step with
    | none => none
    | some (some (pos, consequent)) =>
      (addDisableCommentConsequent commentText ruleId consequent).map
        (fun c => (rebuild (parent.setField pos (.one c)) rest, []))
    | some none =>
      if target.type = "JSXClosingElement" then
        match parent.field? "children" with
        | some (pos, .many children) =>
          (addDisableCommentJsxClosingElement commentText ruleId children).map
            (fun cs => (rebuild (parent.setField pos (.many cs)) rest, []))
        | _ => none
      else if target.type = "JSXAttribute" then normal
      else if parent.type = "JSXExpressionContainer" then normal
      else if parent.type.toList.take 3 = "JSX".toList then
        match parent.field? "children" with
        | none =>
          some (rebuild target targetPath.up, [.skippingSuppression ruleId targetLine filePath])
        | some (_, .one _) => none
        | some (pos, .many children) =>
          (addDisableCommentJsxChildren commentText targetLine ruleId children pos step).map
            (fun cs => (rebuild (parent.setField pos (.many cs)) rest, []))
      else normal

/-! ## The transform -/

/-- A message of the linter. -/
structure Message where
  ruleId : Option Str
  severity : Nat
  line : Nat
deriving DecidableEq, Repr

/-- An element of the array returned by the linter. -/
structure LintResult where
  messages : Option (List Message)
deriving DecidableEq, Repr

/-- The options of the transform that the placement reads. -/
structure Options where
  message : Option Str
  rules : Option Str
  inline : Bool
deriving DecidableEq, Repr

/-- An element of `targets`. -/
structure Target where
  ruleId : Str
  targetLine : Nat
deriving DecidableEq, Repr

/-- The value returned by `codeMod`: `undefined`, or the text `result.toSource()` printed from
the tree `root`. -/
inductive CodeModResult where
  | unchanged
  | source (root : Node)
deriving DecidableEq

/-- The filter of `targets`: a truthy `ruleId` and a severity of at least 2. -/
def isTarget (m : Message) : Bool :=
  (match m.ruleId with
    | some r => r ≠ []
    | none => false) && decide (m.severity ≥ 2)

/-- The array `targets` computed from the messages of the linter. -/
def targetsOf (messages : List Message) : List Target :=
  (messages.filter isTarget).map (fun m => ⟨m.ruleId.getD [], m.line⟩)

/-- The default of `commentText`. -/
def defaultMessage : Str := "TODO: Fix this the next time the file is edited.".toList

/-- The value of `commentText`. -/
def commentTextOf (options : Options) : Str :=
  match options.message with
  | some m => if m ≠ [] then m else defaultMessage
  | none => defaultMessage

/-- The value of `ruleIdWhitelistSet`: `none` stands for `null`. -/
def ruleIdWhitelistSetOf (options : Options) : Option (List Str) :=
  let ruleIdWhitelist := (split (options.rules.getD []) ",".toList).filter (fun x => x ≠ [])
  if ruleIdWhitelist.length ≠ 0 then some ruleIdWhitelist else none

/-- The test that makes the loop skip a target: there is a whitelist and it does not hold
the rule. -/
def isExcluded (ruleIdWhitelistSet : Option (List Str)) (ruleId : Str) : Bool :=
  match ruleIdWhitelistSet with
  | some w => decide (ruleId ∉ w)
  | none => false

/-- The choice of `firstPathOnLine` in the tree `root` for the line `targetLine`. -/
def firstPathOnLine (root : Node) (targetLine : Nat) : Option NodePath :=
  let pathsStartingOnLine := find root (fun node =>
    match node.loc with
    | some loc => loc.startLine = targetLine
    | none => false)
  match pathsStartingOnLine.find? (fun path =>
    match path.value.loc with
    | some loc => loc.endLine = targetLine
    | none => false) with
  | some path => some path
  | none => pathsStartingOnLine.head?

/-- The loop of `codeMod` over the targets, from the tree `root` and the reports made so
far. -/
def codeModLoop (filePath commentText : Str) (ruleIdWhitelistSet : Option (List Str))
    (inline : Bool) : List Target → Node → List Report → Option (Node × List Report)
  | [], root, reports => some (root, reports)
  | t :: rest, root, reports =>
    if isExcluded ruleIdWhitelistSet t.ruleId then
      codeModLoop filePath commentText ruleIdWhitelistSet inline rest root reports
    else
      match firstPathOnLine root t.targetLine with
      | none =>
        codeModLoop filePath commentText ruleIdWhitelistSet inline rest root
          (reports ++ [.unableToFindNodes t.targetLine filePath t.ruleId])
      | some path =>
        match addDisableComment filePath commentText t.targetLine t.ruleId path inline with
        | none => none
        | some r =>
          codeModLoop filePath commentText ruleIdWhitelistSet inline rest r.1 (reports ++ r.2)

/-- The function `codeMod`, given the value `results` of the linter run, the path of the file,
the tree `parsed` that `api.j(file.source)` returns and the options: the returned value and
the reports made. -/
def codeMod (results : Option (List LintResult)) (filePath : Str) (parsed : Node)
    (options : Options) : Option (CodeModResult × List Report) :=
  match results with
  | none => some (.unchanged, [])
  | some rs =>
    match rs.head? with
    | none => some (.unchanged, [])
    | some first =>
      match first.messages with
      | none => some (.unchanged, [])
      | some messages =>
        let targets := targetsOf messages
        if targets.length = 0 then some (.unchanged, [])
        else
          (codeModLoop filePath (commentTextOf options) (ruleIdWhitelistSetOf options)
            options.inline targets parsed []).map (fun r => (.source r.1, r.2))


/-! ## Specification vocabulary -/

/-- Whether the node has a span that starts on the line. -/
def startsOnLine (targetLine : Nat) (node : Node) : Bool :=
  match node.loc with
  | some loc => loc.startLine = targetLine
  | none => false

/-- Whether the node has a span that ends on the line. -/
def endsOnLine (targetLine : Nat) (node : Node) : Bool :=
  match node.loc with
  | some loc => loc.endLine = targetLine
  | none => false

/-- The candidates for the line: the paths of the nodes below the root whose span starts on
the line, in the order of the traversal. -/
def candidates (root : Node) (targetLine : Nat) : List NodePath :=
  (Node.descendants [] root).filter (fun p => startsOnLine targetLine p.value)

/-- A white-space-only text: a `JSXText` whose value is empty once trimmed. -/
def isWhitespaceOnlyText (n : Node) : Bool :=
  n.type = "JSXText" ∧ (trim n.value).length = 0

/-- The nearest sibling before the index `i` that is not a white-space-only text, with its
index: the children before `i` are searched from the last to the first. -/
def nearestBefore (children : List Node) (i : Int) : Option (Nat × Node) :=
  ((children.take i.toNat).enum.reverse).find? (fun p => !isWhitespaceOnlyText p.2)

/-- An expression-hole that holds a directive: a `JSXExpressionContainer` whose expression is
a `JSXEmptyExpression` and whose last comment there is accepted by the directive pattern. -/
def isDirectiveHole (n : Node) : Bool :=
  match n.field? "expression" with
  | some (_, .one e) =>
    n.type = "JSXExpressionContainer" ∧ e.type = "JSXEmptyExpression" ∧
      endsInDirective e.attrs.comments
  | _ => false

/-- The expression-hole `n` after `tryRewriteEslintDisable` has been applied to the comments
of its expression: the array `comments` is the one that the call leaves, and the rewritten
object shows its text in the other slots that list it. -/
def mergedHole (n : Node) (ruleId : Str) : Node :=
  match n.field? "expression" with
  | some (pos, .one e) =>
    n.setField pos (.one (e.setAttrs
      { shareRewritten e.attrs (rewrittenComment e.attrs.comments ruleId) with
        comments := (tryRewriteEslintDisable e.attrs.comments ruleId).2 }))
  | _ => n

/-- What the parser guarantees of the children of an element: every expression-hole has an
expression. -/
def holesHaveExpression (children : List Node) : Bool :=
  children.all (fun s =>
    match s.field? "expression" with
    | some (_, .one _) => true
    | _ => decide (s.type ≠ "JSXExpressionContainer"))

/-- The result of `tryRewriteJsxEslintDisable` in terms of the nearest sibling that is not a
white-space-only text. -/
def jsxMergeResult (children : List Node) (ruleId : Str) (nearest : Option (Nat × Node)) :
    Bool × List Node :=
  match nearest with
  | none => (false, children)
  | some (k, s) =>
    if isDirectiveHole s then (true, children.set k (mergedHole s ruleId)) else (false, children)


/-- A text fragment that holds no newline. -/
def isNewlineFreeText (s : Node) : Bool :=
  s.type = "JSXText" ∧ '\n' ∉ s.value

/-- A sibling other than a text whose span starts on the line. -/
def isNodeOnLine (targetLine : Nat) (s : Node) : Bool :=
  s.type ≠ "JSXText" ∧ startsOnLine targetLine s

/-- A sibling other than a text that has no span. -/
def isSpanlessNode (s : Node) : Bool :=
  s.type ≠ "JSXText" ∧ s.loc = none

/-- A sibling at which the backward scan stops: a text fragment that holds a newline, or a
sibling other than a text whose span starts on another line. -/
def endsLineGroup (targetLine : Nat) (s : Node) : Bool :=
  (s.type = "JSXText" ∧ '\n' ∈ s.value) ∨
    (s.type ≠ "JSXText" ∧ s.loc ≠ none ∧ startsOnLine targetLine s = false)

/-! ## Trees of the tests -/

/-- A node as the parser leaves it: a type, a span and child fields, without comments. -/
def parsed (type : String) (startLine endLine : Nat) (fields : List (String × FieldValue)) :
    Node :=
  .mk ⟨type, some ⟨startLine, endLine⟩, none, none, none, none, []⟩ fields

/-- A text of markup as the parser leaves it. -/
def parsedText (startLine endLine : Nat) (value : Str) : Node :=
  .mk ⟨"JSXText", some ⟨startLine, endLine⟩, none, none, none, none, value⟩ []

/-- The tree of a file that holds the statements `body`. -/
def fileOf (endLine : Nat) (body : List Node) : Node :=
  parsed "File" 1 endLine [("program", .one (parsed "Program" 1 endLine [("body", .many body)]))]

/-- The statement `if (a === b) { return a; } else if (a == b) { return b; }` of the test
that does not split an `if` from the preceding `else`: the consequent spans the lines 2 to 4,
and the alternate starts on line 4. -/
def elseIfStatement : Node :=
  parsed "IfStatement" 2 6
    [("test", .one (parsed "BinaryExpression" 2 2 [])),
      ("consequent", .one (parsed "BlockStatement" 2 4
        [("body", .many [parsed "ReturnStatement" 3 3 []])])),
      ("alternate", .one (parsed "IfStatement" 4 6
        [("test", .one (parsed "BinaryExpression" 4 4 [])),
          ("consequent", .one (parsed "BlockStatement" 4 6
            [("body", .many [parsed "ReturnStatement" 5 5 []])]))]))]

/-- The inner element of the test that inserts a comment above a closing tag: it opens on
line 4 and closes on line 5. -/
def closingTagElement : Node :=
  parsed "JSXElement" 4 5
    [("openingElement", .one (parsed "JSXOpeningElement" 4 4 [])),
      ("closingElement", .one (parsed "JSXClosingElement" 5 5 [])),
      ("children", .many [parsedText 4 5 "\n      ".toList])]

/-- The element of the test that adds a comment to an attribute: the opening tag starts on
line 3 and its attribute `prop` is on line 4. -/
def attributeElement : Node :=
  parsed "JSXElement" 3 5
    [("openingElement", .one (parsed "JSXOpeningElement" 3 4
      [("name", .one (parsed "JSXIdentifier" 3 3 [])),
        ("attributes", .many [parsed "JSXAttribute" 4 4
          [("name", .one (parsed "JSXIdentifier" 4 4 [])),
            ("value", .one (parsed "JSXExpressionContainer" 4 4
              [("expression", .one (parsed "ConditionalExpression" 4 4 []))]))]])])),
      ("closingElement", .one (parsed "JSXClosingElement" 5 5 [])),
      ("children", .many [parsedText 4 5 "\n      ".toList])]

/-- The outer element of the test that inserts a comment above a closing tag: its children
are a text, the inner element and, on line 5 after the closing tag of the inner element, an
expression-hole. -/
def closingTagParent : Node :=
  parsed "JSXElement" 3 6
    [("openingElement", .one (parsed "JSXOpeningElement" 3 3 [])),
      ("closingElement", .one (parsed "JSXClosingElement" 6 6 [])),
      ("children", .many [parsedText 3 4 "\n      ".toList, closingTagElement,
        parsed "JSXExpressionContainer" 5 5
          [("expression", .one (parsed "BinaryExpression" 5 5 []))],
        parsedText 5 6 "\n    ".toList])]

/-- The path of the closing tag of the inner element in the file of that test. -/
def closingTagPath : NodePath :=
  ⟨parsed "JSXClosingElement" 5 5 [],
    [(⟨1, none⟩, closingTagElement), (⟨2, some 1⟩, closingTagParent),
      (⟨0, some 0⟩, parsed "Program" 1 8 [("body", .many [closingTagParent])]),
      (⟨0, none⟩, fileOf 8 [closingTagParent])]⟩

/-- The attribute `prop` of the test that adds a comment to an attribute. -/
def attributeNode : Node :=
  parsed "JSXAttribute" 4 4
    [("name", .one (parsed "JSXIdentifier" 4 4 [])),
      ("value", .one (parsed "JSXExpressionContainer" 4 4
        [("expression", .one (parsed "ConditionalExpression" 4 4 []))]))]

/-- The opening tag that holds that attribute. -/
def attributeOpeningElement : Node :=
  parsed "JSXOpeningElement" 3 4
    [("name", .one (parsed "JSXIdentifier" 3 3 [])), ("attributes", .many [attributeNode])]

/-- The path of the attribute in the file of that test. -/
def attributePath : NodePath :=
  ⟨attributeNode,
    [(⟨1, some 0⟩, attributeOpeningElement), (⟨0, none⟩, attributeElement),
      (⟨0, some 0⟩, parsed "Program" 1 7 [("body", .many [attributeElement])]),
      (⟨0, none⟩, fileOf 7 [attributeElement])]⟩


/-- The statement `return a;` of the test that modifies a comment in an `else if` condition,
followed on line 4 by a line comment with the text `text`: the parser lists the comment in
`comments` and in `trailingComments` of the statement. -/
def commentedReturn (text : Str) : Node :=
  .mk ⟨"ReturnStatement", some ⟨3, 3⟩, some [⟨"CommentLine", text, false, true, some 0⟩], none,
    some [⟨"CommentLine", text, false, true, some 0⟩], none, []⟩ []

/-- The alternate `if (a == c) { return b; }` of that test, which starts on line 5. -/
def commentedAlternate : Node :=
  parsed "IfStatement" 5 7
    [("test", .one (parsed "BinaryExpression" 5 5 [])),
      ("consequent", .one (parsed "BlockStatement" 5 7
        [("body", .many [parsed "ReturnStatement" 6 6 []])]))]

/-- The conditional statement of that test: the consequent spans the lines 2 to 5 and ends
in the commented `return`. -/
def commentedElseIf (text : Str) : Node :=
  parsed "IfStatement" 2 7
    [("test", .one (parsed "BinaryExpression" 2 2 [])),
      ("consequent", .one (parsed "BlockStatement" 2 5
        [("body", .many [commentedReturn text])])),
      ("alternate", .one commentedAlternate)]

/-- The path of the test of the alternate in the file of that test. -/
def commentedElseIfPath (text : Str) : NodePath :=
  ⟨parsed "BinaryExpression" 5 5 [],
    [(⟨0, none⟩, commentedAlternate), (⟨2, none⟩, commentedElseIf text),
      (⟨0, some 0⟩, parsed "Program" 1 10 [("body", .many [commentedElseIf text])]),
      (⟨0, none⟩, fileOf 10 [commentedElseIf text])]⟩


/-- An expression-hole on the line `line` that holds nothing but a block comment with the
text `text`: the parser lists the comment in `comments` and in `innerComments` of the empty
expression. -/
def commentHole (line : Nat) (text : Str) : Node :=
  .mk ⟨"JSXExpressionContainer", some ⟨line, line⟩, none, none, none, none, []⟩
    [("expression", .one (.mk ⟨"JSXEmptyExpression", some ⟨line, line⟩,
      some [⟨"CommentBlock", text, false, false, some 0⟩], none, none,
      some [⟨"CommentBlock", text, false, false, some 0⟩], []⟩ []))]

/-- The inner element of the test that updates a comment above a closing tag: it opens on
line 4, holds on line 5 a markup comment with the text `text`, and closes on line 6. -/
def commentedTagElement (text : Str) : Node :=
  parsed "JSXElement" 4 6
    [("openingElement", .one (parsed "JSXOpeningElement" 4 4 [])),
      ("closingElement", .one (parsed "JSXClosingElement" 6 6 [])),
      ("children", .many [parsedText 4 5 "\n        ".toList, commentHole 5 text,
        parsedText 5 6 "\n      ".toList])]

/-- The outer element of that test: a text, the inner element and, on line 6 after the
closing tag of the inner element, an expression-hole. -/
def commentedTagParent (text : Str) : Node :=
  parsed "JSXElement" 3 7
    [("openingElement", .one (parsed "JSXOpeningElement" 3 3 [])),
      ("closingElement", .one (parsed "JSXClosingElement" 7 7 [])),
      ("children", .many [parsedText 3 4 "\n      ".toList, commentedTagElement text,
        parsed "JSXExpressionContainer" 6 6
          [("expression", .one (parsed "BinaryExpression" 6 6 []))],
        parsedText 6 7 "\n    ".toList])]

/-- The path of the closing tag of the inner element in the file of that test. -/
def commentedTagPath (text : Str) : NodePath :=
  ⟨parsed "JSXClosingElement" 6 6 [],
    [(⟨1, none⟩, commentedTagElement text), (⟨2, some 1⟩, commentedTagParent text),
      (⟨0, some 0⟩, parsed "Program" 1 9 [("body", .many [commentedTagParent text])]),
      (⟨0, none⟩, fileOf 9 [commentedTagParent text])]⟩


/-- The text of a directive as the transform writes it: a space, the keyword `K`, a space and
the rules `rs` separated by a comma and a space, followed by ` -- ` and the explanation when
there is one. -/
def directiveText (K : Str) (rs : List Str) (E : Option Str) : Str :=
  " ".toList ++ K ++ " ".toList ++ join ", ".toList rs ++
    (E.elim [] fun e => " -- ".toList ++ e)

/-- The form of a directive text, as a decoder reads it: the keyword that the directive
pattern finds after the leading white space, `none` when the pattern rejects the text. -/
def directiveForm (s : Str) : Option Str :=
  match eslintDisableRegexp s with
  | none => none
  | some m =>
    if "eslint-disable-next-line".toList.isPrefixOf (trimStart m.whole) then
      some "eslint-disable-next-line".toList
    else some "eslint-disable-line".toList

/-- What the segmentation loop puts in the place of one sibling: the fragments of a text
that it segments, the sibling itself otherwise. -/
def segmentSibling (sibling : Node) : List Node :=
  if isSegmented sibling then (segments sibling.value).map jsxText else [sibling]

/-- An element whose opening tag starts on line 1 and ends on line 2, where its text starts:
the text `text ' more` and a newline, followed by the closing tag on line 3. -/
def textTargetElement : Node :=
  parsed "JSXElement" 1 3
    [("openingElement", .one (parsed "JSXOpeningElement" 1 2
      [("name", .one (parsed "JSXIdentifier" 1 1 []))])),
      ("closingElement", .one (parsed "JSXClosingElement" 3 3 [])),
      ("children", .many [parsedText 2 3 "text ' more\n".toList])]

/-! ## Lemmas on strings -/

theorem consHead_ne_nil (x : Char) (l : List Str) : consHead x l ≠ [] := by
  cases l <;> simp [consHead]

theorem splitAux_ne_nil (sep : Str) : ∀ (s : Str) (k : Nat), splitAux sep k s ≠ []
  | [], k => by cases k <;> simp [splitAux]
  | x :: xs, 0 => by
    unfold splitAux
    split
    · simp
    · exact consHead_ne_nil _ _
  | x :: xs, k + 1 => by
    unfold splitAux
    exact splitAux_ne_nil sep xs k

theorem consHead_eq (x : Char) (l : List Str) (h : l ≠ []) :
    consHead x l = (x :: l.headD []) :: l.tail := by
  cases l with
  | nil => exact absurd rfl h
  | cons a t => rfl

theorem splitAux_cons_zero (sep : Str) (x : Char) (xs : Str) :
    splitAux sep 0 (x :: xs) =
      if sep.isPrefixOf (x :: xs) then [] :: splitAux sep (sep.length - 1) xs
      else consHead x (splitAux sep 0 xs) := rfl

theorem splitAux_cons_succ (sep : Str) (k : Nat) (x : Char) (xs : Str) :
    splitAux sep (k + 1) (x :: xs) = splitAux sep k xs := rfl

theorem splitAux_skip (sep : Str) (rest : Str) :
    ∀ u : Str, splitAux sep u.length (u ++ rest) = splitAux sep 0 rest
  | [] => rfl
  | x :: u => by
    rw [List.length_cons, List.cons_append, splitAux_cons_succ]
    exact splitAux_skip sep rest u

theorem splitAux_sep (sep b : Str) (h : sep ≠ []) :
    splitAux sep 0 (sep ++ b) = [] :: splitAux sep 0 b := by
  cases sep with
  | nil => exact absurd rfl h
  | cons c u =>
    have hp : (c :: u).isPrefixOf (c :: (u ++ b)) = true := by
      rw [List.isPrefixOf_iff_prefix]
      exact ⟨b, rfl⟩
    rw [List.cons_append, splitAux_cons_zero, if_pos hp, List.length_cons, Nat.add_sub_cancel,
      splitAux_skip]

theorem splitAux_append (sep T : Str) :
    ∀ a : Str, (∀ k, k < a.length → sep.isPrefixOf (a.drop k ++ T) = false) →
      splitAux sep 0 (a ++ T) =
        (a ++ (splitAux sep 0 T).headD []) :: (splitAux sep 0 T).tail
  | [], _ => by
    have h := splitAux_ne_nil sep T 0
    cases hs : splitAux sep 0 T with
    | nil => exact absurd hs h
    | cons l ls => simp [hs]
  | x :: a, h => by
    have h0 : sep.isPrefixOf (x :: (a ++ T)) = false := h 0 (by simp)
    have ih := splitAux_append sep T a (fun k hk => by
      have := h (k + 1) (by simpa using hk)
      simpa using this)
    rw [List.cons_append, splitAux_cons_zero, h0, if_neg (by simp), ih]
    simp [consHead]

theorem join_consHead (sep : Str) (x : Char) (l : List Str) (h : l ≠ []) :
    join sep (consHead x l) = x :: join sep l := by
  match l, h with
  | [a], _ => rfl
  | a :: b :: t, _ => rfl

theorem join_nil_cons (sep : Str) (l : List Str) (h : l ≠ []) :
    join sep ([] :: l) = sep ++ join sep l := by
  match l, h with
  | a :: t, _ => rfl

theorem join_splitAux (sep : Str) (hsep : sep ≠ []) :
    ∀ (n : Nat) (s : Str), s.length ≤ n → join sep (splitAux sep 0 s) = s
  | _, [], _ => rfl
  | 0, x :: xs, h => by simp at h
  | n + 1, x :: xs, h => by
    have hlen : xs.length ≤ n := by simpa using h
    by_cases hp : sep.isPrefixOf (x :: xs) = true
    · obtain ⟨t, ht⟩ := List.isPrefixOf_iff_prefix.mp hp
      rw [← ht, splitAux_sep sep t hsep, join_nil_cons _ _ (splitAux_ne_nil _ _ _)]
      have hl : t.length ≤ n := by
        have := congrArg List.length ht
        have hs : 0 < sep.length := List.length_pos.mpr hsep
        simp at this
        omega
      rw [join_splitAux sep hsep n t hl]
    · rw [splitAux_cons_zero, if_neg hp, join_consHead _ _ _ (splitAux_ne_nil _ _ _),
        join_splitAux sep hsep n xs hlen]

theorem join_split (sep s : Str) (hsep : sep ≠ []) : join sep (split s sep) = s :=
  join_splitAux sep hsep s.length s (le_refl _)


theorem split_char_append (c : Char) (a b : Str) (h : c ∉ a) :
    splitAux [c] 0 (a ++ c :: b) = a :: splitAux [c] 0 b := by
  have hA := splitAux_append [c] (c :: b) a (fun k hk => by
    cases hd : a.drop k with
    | nil =>
      have := congrArg List.length hd
      simp at this
      omega
    | cons y t =>
      have hy : y ∈ a := List.mem_of_mem_drop (by rw [hd]; simp)
      have hne : c ≠ y := fun e => h (e ▸ hy)
      simp [List.isPrefixOf, hne])
  have hS := splitAux_sep [c] b (by simp)
  simp only [List.singleton_append] at hS
  rw [hA, hS]
  simp

theorem split_char_none (c : Char) (a : Str) (h : c ∉ a) : splitAux [c] 0 a = [a] := by
  have hA := splitAux_append [c] [] a (fun k hk => by
    cases hd : a.drop k with
    | nil =>
      have := congrArg List.length hd
      simp at this
      omega
    | cons y t =>
      have hy : y ∈ a := List.mem_of_mem_drop (by rw [hd]; simp)
      have hne : c ≠ y := fun e => h (e ▸ hy)
      simp [List.isPrefixOf, hne])
  simpa [splitAux] using hA

theorem splitAux_dash_append (a T : Str) (h1 : ¬ ['-', '-'] <:+: a)
    (h2 : a.getLast? ≠ some '-' ∨ T.head? ≠ some '-') :
    splitAux ['-', '-'] 0 (a ++ T) =
      (a ++ (splitAux ['-', '-'] 0 T).headD []) :: (splitAux ['-', '-'] 0 T).tail := by
  apply splitAux_append
  intro k hk
  by_contra hp
  rw [Bool.not_eq_false, List.isPrefixOf_iff_prefix] at hp
  obtain ⟨t, ht⟩ := hp
  have hak : a = a.take k ++ a.drop k := (List.take_append_drop k a).symm
  cases hd : a.drop k with
  | nil =>
    have := congrArg List.length hd
    simp at this
    omega
  | cons y u =>
    rw [hd] at ht hak
    cases u with
    | nil =>
      simp only [List.cons_append, List.nil_append, List.cons.injEq] at ht
      have hy : y = '-' := ht.1.symm
      have hlast : a.getLast? = some '-' := by
        rw [hak, hy]; simp
      cases T with
      | nil => simp at ht
      | cons z T' =>
        simp only [List.cons.injEq] at ht
        have hz : z = '-' := ht.2.1.symm
        rcases h2 with h2 | h2
        · exact h2 hlast
        · exact h2 (by simp [hz])
    | cons z u' =>
      simp only [List.cons_append, List.nil_append, List.cons.injEq] at ht
      apply h1
      obtain ⟨hy, hz, _⟩ := ht
      subst hy
      subst hz
      exact ⟨a.take k, u', by simpa using hak.symm⟩


theorem dropWhile_append_all {p : Char → Bool} (s : Str) :
    ∀ pre : Str, (∀ c ∈ pre, p c = true) → (pre ++ s).dropWhile p = s.dropWhile p
  | [], _ => rfl
  | x :: pre, h => by
    rw [List.cons_append, List.dropWhile_cons, if_pos (h x (by simp))]
    exact dropWhile_append_all s pre (fun c hc => h c (by simp [hc]))

theorem takeWhile_append_all {p : Char → Bool} (s : Str) :
    ∀ pre : Str, (∀ c ∈ pre, p c = true) → (pre ++ s).takeWhile p = pre ++ s.takeWhile p
  | [], _ => rfl
  | x :: pre, h => by
    rw [List.cons_append, List.takeWhile_cons, if_pos (h x (by simp)),
      takeWhile_append_all s pre (fun c hc => h c (by simp [hc]))]
    rfl

theorem takeWhile_all {p : Char → Bool} :
    ∀ s : Str, (∀ c ∈ s, p c = true) → s.takeWhile p = s
  | [], _ => rfl
  | x :: s, h => by
    rw [List.takeWhile_cons, if_pos (h x (by simp)),
      takeWhile_all s (fun c hc => h c (by simp [hc]))]

theorem dropWhile_all {p : Char → Bool} :
    ∀ s : Str, (∀ c ∈ s, p c = true) → s.dropWhile p = []
  | [], _ => rfl
  | x :: s, h => by
    rw [List.dropWhile_cons, if_pos (h x (by simp))]
    exact dropWhile_all s (fun c hc => h c (by simp [hc]))

theorem trimStart_append_ws (pre s : Str) (h : ∀ c ∈ pre, isWhiteSpace c = true) :
    trimStart (pre ++ s) = trimStart s :=
  dropWhile_append_all s pre h

theorem trimEnd_append_ws (s post : Str) (h : ∀ c ∈ post, isWhiteSpace c = true) :
    trimEnd (s ++ post) = trimEnd s := by
  unfold trimEnd
  rw [List.reverse_append, dropWhile_append_all _ _ (fun c hc => h c (List.mem_reverse.mp hc))]

theorem trimStart_of_no_ws (r s : Str) (hr : r ≠ []) (h : ∀ c ∈ r, isWhiteSpace c = false) :
    trimStart (r ++ s) = r ++ s := by
  cases r with
  | nil => exact absurd rfl hr
  | cons x r =>
    unfold trimStart
    rw [List.cons_append, List.dropWhile_cons, if_neg (by simp [h x (by simp)])]

theorem trimEnd_of_no_ws (r : Str) (h : ∀ c ∈ r, isWhiteSpace c = false) : trimEnd r = r := by
  unfold trimEnd
  cases hr : r.reverse with
  | nil => simp [List.reverse_eq_nil_iff.mp hr]
  | cons x t =>
    have hx : x ∈ r := List.mem_reverse.mp (by rw [hr]; simp)
    rw [List.dropWhile_cons, if_neg (by simp [h x hx]), ← hr, List.reverse_reverse]

/-- Trimming removes a white-space padding around a text that holds no white space. -/
theorem trim_pad (pre r post : Str) (hpre : ∀ c ∈ pre, isWhiteSpace c = true)
    (hpost : ∀ c ∈ post, isWhiteSpace c = true) (hr : ∀ c ∈ r, isWhiteSpace c = false) :
    trim (pre ++ r ++ post) = r := by
  unfold trim
  rw [List.append_assoc, trimStart_append_ws _ _ hpre]
  by_cases hnil : r = []
  · subst hnil
    have : trimStart ([] ++ post) = [] := dropWhile_all post hpost
    rw [this]
    rfl
  · rw [trimStart_of_no_ws r post hnil hr, trimEnd_append_ws _ _ hpost, trimEnd_of_no_ws r hr]

theorem trim_append_ws_left (pre s : Str) (h : ∀ c ∈ pre, isWhiteSpace c = true) :
    trim (pre ++ s) = trim s := by
  unfold trim
  rw [trimStart_append_ws _ _ h]

theorem lineTerminator_isWhiteSpace (c : Char) (h : isLineTerminator c = true) :
    isWhiteSpace c = true := by
  unfold isLineTerminator at h
  unfold isWhiteSpace
  simp only [Bool.or_eq_true, beq_iff_eq] at h
  simp only [Bool.or_eq_true, beq_iff_eq, Bool.and_eq_true, decide_eq_true_eq]
  omega



theorem stripLiteral_append (p s : Str) : stripLiteral p (p ++ s) = some s := by
  unfold stripLiteral
  rw [if_pos (List.isPrefixOf_iff_prefix.mpr ⟨s, rfl⟩), List.drop_left]

theorem stripLiteral_eq_some (p s r : Str) (h : stripLiteral p s = some r) : s = p ++ r := by
  unfold stripLiteral at h
  split at h
  · next hp =>
    obtain ⟨t, ht⟩ := List.isPrefixOf_iff_prefix.mp hp
    simp only [Option.some.injEq] at h
    rw [← ht, List.drop_left] at h
    rw [← h, ht]
  · exact absurd h (by simp)

theorem eslintDisableRegexp_line (ws rest : Str) (hws : ∀ c ∈ ws, isWhiteSpace c = true) :
    eslintDisableRegexp (ws ++ "eslint-disable-line".toList ++ rest) =
      matchAfterKeyword (ws ++ "eslint-disable-line".toList) rest := by
  have e1 : ws ++ "eslint-disable-line".toList ++ rest =
      ws ++ ("eslint-disable".toList ++ ("-line".toList ++ rest)) := by
    simp
  unfold eslintDisableRegexp
  rw [e1, dropWhile_append_all _ _ hws, takeWhile_append_all _ _ hws]
  have e2 : ("eslint-disable".toList ++ ("-line".toList ++ rest)).dropWhile isWhiteSpace =
      "eslint-disable".toList ++ ("-line".toList ++ rest) := by
    rfl
  have e3 : ("eslint-disable".toList ++ ("-line".toList ++ rest)).takeWhile isWhiteSpace = [] := by
    rfl
  rw [e2, e3, stripLiteral_append]
  have e4 : stripLiteral "-next".toList ("-line".toList ++ rest) = none := by
    rfl
  simp only [e4, Option.bind, stripLiteral_append, List.append_nil]

theorem eslintDisableRegexp_next_line (ws rest : Str) (hws : ∀ c ∈ ws, isWhiteSpace c = true) :
    eslintDisableRegexp (ws ++ "eslint-disable-next-line".toList ++ rest) =
      matchAfterKeyword (ws ++ "eslint-disable-next-line".toList) rest := by
  have e1 : ws ++ "eslint-disable-next-line".toList ++ rest =
      ws ++ ("eslint-disable".toList ++ ("-next".toList ++ ("-line".toList ++ rest))) := by
    simp
  unfold eslintDisableRegexp
  rw [e1, dropWhile_append_all _ _ hws, takeWhile_append_all _ _ hws]
  have e2 : ("eslint-disable".toList ++ ("-next".toList ++ ("-line".toList ++ rest))).dropWhile
      isWhiteSpace = "eslint-disable".toList ++ ("-next".toList ++ ("-line".toList ++ rest)) := by
    rfl
  have e3 : ("eslint-disable".toList ++ ("-next".toList ++ ("-line".toList ++ rest))).takeWhile
      isWhiteSpace = [] := by
    rfl
  rw [e2, e3, stripLiteral_append]
  have e4 : stripLiteral "-line".toList ("-next".toList ++ ("-line".toList ++ rest)) = none := by
    rfl
  simp only [e4, Option.bind, stripLiteral_append, List.append_nil]
  cases matchAfterKeyword (ws ++ "eslint-disable-next-line".toList) rest <;> rfl


theorem join_cons_cons (sep a b : Str) (rest : List Str) :
    join sep (a :: b :: rest) = a ++ sep ++ join sep (b :: rest) := rfl

theorem splitAux_dash_join (T : Str) (hT : T.head? ≠ some '-') :
    ∀ rs : List Str, rs ≠ [] → (∀ r ∈ rs, ¬ ['-', '-'] <:+: r) →
      splitAux ['-', '-'] 0 (join [',', ' '] rs ++ T) =
        (join [',', ' '] rs ++ (splitAux ['-', '-'] 0 T).headD []) ::
          (splitAux ['-', '-'] 0 T).tail
  | [], h, _ => absurd rfl h
  | [r], _, hr => by
    exact splitAux_dash_append r T (hr r (by simp)) (Or.inr hT)
  | r :: r' :: rest, _, hr => by
    have ih := splitAux_dash_join T hT (r' :: rest) (by simp)
      (fun x hx => hr x (by simp [hx]))
    have e : join [',', ' '] (r :: r' :: rest) ++ T =
        r ++ ([',', ' '] ++ (join [',', ' '] (r' :: rest) ++ T)) := by
      rw [join_cons_cons]; simp
    have h2 := splitAux_dash_append [',', ' '] (join [',', ' '] (r' :: rest) ++ T)
      (by decide) (Or.inl (by decide))
    have h1 := splitAux_dash_append r ([',', ' '] ++ (join [',', ' '] (r' :: rest) ++ T))
      (hr r (by simp)) (Or.inr (by simp))
    rw [e, h1, h2, ih, join_cons_cons]
    simp

theorem comma_not_ws_mem (s : Str) (h : ∀ c ∈ s, isWhiteSpace c = true) : ',' ∉ s := by
  intro hc
  have := h ',' hc
  exact absurd this (by decide)

theorem split_comma_join (post : Str) (hpost : ∀ c ∈ post, isWhiteSpace c = true) :
    ∀ (rs : List Str) (pre : Str), rs ≠ [] → (∀ c ∈ pre, isWhiteSpace c = true) →
      (∀ r ∈ rs, ',' ∉ r ∧ ∀ c ∈ r, isWhiteSpace c = false) →
      (splitAux [','] 0 (pre ++ join [',', ' '] rs ++ post)).map trim = rs
  | [], _, h, _, _ => absurd rfl h
  | [r], pre, _, hpre, hr => by
    have hno : ',' ∉ pre ++ join [',', ' '] [r] ++ post := by
      simp only [join, List.mem_append, not_or]
      exact ⟨⟨comma_not_ws_mem pre hpre, (hr r (by simp)).1⟩, comma_not_ws_mem post hpost⟩
    rw [split_char_none _ _ hno]
    simp only [join, List.map_cons, List.map_nil]
    rw [trim_pad pre r post hpre hpost (hr r (by simp)).2]
  | r :: r' :: rest, pre, _, hpre, hr => by
    have ih := split_comma_join post hpost (r' :: rest) [' '] (by simp)
      (by intro c hc; simp at hc; subst hc; decide) (fun x hx => hr x (by simp [hx]))
    have e : pre ++ join [',', ' '] (r :: r' :: rest) ++ post =
        (pre ++ r) ++ ',' :: ([' '] ++ join [',', ' '] (r' :: rest) ++ post) := by
      rw [join_cons_cons]; simp
    have hno : ',' ∉ pre ++ r := by
      simp only [List.mem_append, not_or]
      exact ⟨comma_not_ws_mem pre hpre, (hr r (by simp)).1⟩
    rw [e, split_char_append _ _ _ hno, List.map_cons, ih]
    have := trim_pad pre r [] hpre (by simp) (hr r (by simp)).2
    rw [List.append_nil] at this
    rw [this]


theorem mem_join (sep : Str) (c : Char) :
    ∀ rs : List Str, c ∈ join sep rs → c ∈ sep ∨ ∃ r ∈ rs, c ∈ r
  | [], h => by simp [join] at h
  | [r], h => Or.inr ⟨r, by simp, by simpa [join] using h⟩
  | r :: r' :: rest, h => by
    rw [join_cons_cons] at h
    simp only [List.mem_append] at h
    rcases h with (h | h) | h
    · exact Or.inr ⟨r, by simp, h⟩
    · exact Or.inl h
    · rcases mem_join sep c (r' :: rest) h with h | ⟨x, hx, hc⟩
      · exact Or.inl h
      · exact Or.inr ⟨x, by simp [hx], hc⟩

theorem regexp_of_keyword (K rest : Str)
    (hK : K = "eslint-disable-line".toList ∨ K = "eslint-disable-next-line".toList) :
    eslintDisableRegexp ([' '] ++ K ++ rest) = matchAfterKeyword ([' '] ++ K) rest := by
  rcases hK with h | h
  · subst h
    exact eslintDisableRegexp_line [' '] rest (by decide)
  · subst h
    exact eslintDisableRegexp_next_line [' '] rest (by decide)

theorem disable_of_keyword (K g : Str)
    (hK : K = "eslint-disable-line".toList ∨ K = "eslint-disable-next-line".toList) :
    (split ([' '] ++ K ++ [' '] ++ g) [' ']).get? 1 = some K := by
  have hno : ' ' ∉ K := by
    rcases hK with h | h <;> subst h <;> decide
  have e : [' '] ++ K ++ [' '] ++ g = [] ++ ' ' :: (K ++ ' ' :: g) := by simp
  unfold split
  rw [e, split_char_append ' ' [] _ (by simp), split_char_append ' ' K g hno]
  rfl


theorem join_append_singleton (sep r : Str) :
    ∀ rs : List Str, rs ≠ [] → join sep (rs ++ [r]) = join sep rs ++ sep ++ r
  | [], h => absurd rfl h
  | [a], _ => by simp [join]
  | a :: b :: rest, _ => by
    have ih := join_append_singleton sep r (b :: rest) (by simp)
    rw [List.cons_append, List.cons_append, join_cons_cons, ← List.cons_append, ih, join_cons_cons]
    simp

theorem getLast?_append_singleton (cs : List Comment) (c : Comment) :
    (cs ++ [c]).getLast? = some c := by simp

/-- The match and the locals of `tryRewriteEslintDisable` on a directive text of the shape
` K r1, ..., rn` or ` K r1, ..., rn -- E`. -/
theorem locals_of_directive (K : Str) (rs : List Str) (E : Option Str)
    (hK : K = "eslint-disable-line".toList ∨ K = "eslint-disable-next-line".toList)
    (hrs : rs ≠ [])
    (hr : ∀ r ∈ rs, ',' ∉ r ∧ (∀ x ∈ r, isWhiteSpace x = false) ∧ ¬ "--".toList <:+: r)
    (hE : ∀ e, E = some e → ∀ x ∈ e, isLineTerminator x = false) :
    ∃ m, eslintDisableRegexp (" ".toList ++ K ++ " ".toList ++ join ", ".toList rs ++
        (E.elim [] fun e => " -- ".toList ++ e)) = some m ∧
      disabledRules m = rs ∧ disable m = K ∧
      explanationSuffix m = (E.elim [] fun e => " -- ".toList ++ trim e) := by
  have hbody : ∀ x ∈ join [',', ' '] rs, isLineTerminator x = false := by
    intro x hx
    rcases mem_join _ _ _ hx with h | ⟨r, hr1, hr2⟩
    · simp at h
      rcases h with h | h <;> subst h <;> decide
    · cases hlt : isLineTerminator x with
      | false => rfl
      | true =>
        have := lineTerminator_isWhiteSpace x hlt
        rw [(hr r hr1).2.1 x hr2] at this
        exact absurd this (by simp)
  have hcomma := fun post hpost => split_comma_join post hpost rs [] hrs (by simp)
    (fun r h => ⟨(hr r h).1, (hr r h).2.1⟩)
  have hdash := fun T hT => splitAux_dash_join T hT rs hrs (fun r h => (hr r h).2.2)
  cases E with
  | none =>
    have hg : (join [',', ' '] rs).takeWhile (fun x => !isLineTerminator x) = join [',', ' '] rs :=
      takeWhile_all _ (fun x hx => by simp [hbody x hx])
    refine ⟨⟨[' '] ++ K ++ [' '] ++ join [',', ' '] rs, [' '], join [',', ' '] rs⟩, ?_, ?_, ?_, ?_⟩
    · have := regexp_of_keyword K (' ' :: join [',', ' '] rs) hK
      simp only [matchAfterKeyword, show isWhiteSpace ' ' = true from by decide, if_true, hg]
        at this
      simpa using this
    · have h1 := hdash [] (by simp)
      have h2 := hcomma [] (by simp)
      simp only [List.append_nil, List.nil_append] at h1 h2
      simp only [disabledRules, split, show "--".toList = ['-', '-'] from rfl,
        show ",".toList = [','] from rfl, h1]
      simpa [splitAux] using h2
    · have := disable_of_keyword K (join [',', ' '] rs) hK
      simp only [disable, show " ".toList = [' '] from rfl, this, Option.getD_some]
    · have h1 := hdash [] (by simp)
      simp only [List.append_nil] at h1
      simp [explanationSuffix, explanationParts, split, show "--".toList = ['-', '-'] from rfl, h1,
        splitAux]
  | some e =>
    have he := hE e rfl
    have hg : (join [',', ' '] rs ++ ([' '] ++ (['-', '-'] ++ (' ' :: e)))).takeWhile
        (fun x => !isLineTerminator x) = join [',', ' '] rs ++ ([' '] ++ (['-', '-'] ++ (' ' :: e))) :=
      takeWhile_all _ (fun x hx => by
        simp only [List.mem_append, List.mem_cons, List.mem_singleton, List.not_mem_nil,
          or_false] at hx
        rcases hx with h | h | (h | h) | h | h
        · simp [hbody x h]
        · subst h; decide
        · subst h; decide
        · subst h; decide
        · subst h; decide
        · simp [he x h])
    have hT : splitAux ['-', '-'] 0 ([' '] ++ (['-', '-'] ++ (' ' :: e))) =
        [' '] :: splitAux ['-', '-'] 0 (' ' :: e) := by
      rw [splitAux_dash_append [' '] _ (by decide) (Or.inl (by decide)),
        splitAux_sep _ _ (by simp)]
      simp
    have h1 := hdash ([' '] ++ (['-', '-'] ++ (' ' :: e))) (by simp)
    rw [hT] at h1
    simp only [List.headD_cons, List.tail_cons] at h1
    refine ⟨⟨[' '] ++ K ++ [' '] ++ (join [',', ' '] rs ++ ([' '] ++ (['-', '-'] ++ (' ' :: e)))),
      [' '], join [',', ' '] rs ++ ([' '] ++ (['-', '-'] ++ (' ' :: e)))⟩, ?_, ?_, ?_, ?_⟩
    · have := regexp_of_keyword K
        (' ' :: (join [',', ' '] rs ++ ([' '] ++ (['-', '-'] ++ (' ' :: e))))) hK
      simp only [matchAfterKeyword, show isWhiteSpace ' ' = true from by decide, if_true, hg]
        at this
      simpa using this
    · have h2 := hcomma [' '] (by decide)
      simp only [List.nil_append] at h2
      simp only [disabledRules, split, show "--".toList = ['-', '-'] from rfl,
        show ",".toList = [','] from rfl, h1, List.headD_cons]
      exact h2
    · have := disable_of_keyword K
        (join [',', ' '] rs ++ ([' '] ++ (['-', '-'] ++ (' ' :: e)))) hK
      simp only [disable, show " ".toList = [' '] from rfl, this, Option.getD_some]
    · have hne := splitAux_ne_nil ['-', '-'] (' ' :: e) 0
      have hj := join_split ['-', '-'] (' ' :: e) (by simp)
      unfold split at hj
      simp only [explanationSuffix, explanationParts, split, show "--".toList = ['-', '-'] from rfl,
        h1, List.tail_cons, hj]
      rw [if_pos (by simpa [List.length_eq_zero] using hne)]
      have := trim_append_ws_left [' '] e (by decide)
      simp only [List.singleton_append] at this
      rw [this]
      rfl


/-! ## Rule accumulation (C1) -/

/-- C1.  When the last comment of the list has the text ` K r1, ..., rn`, optionally
followed by ` -- E`, where `K` is one of the two keywords, every `ri` is non-empty and free of
commas, white space and `--`, and `E` is without newline (it holds none of the line
terminators LF, CR, LS and PS, at which the pattern stops), then for every `ruleId` that is not among `r1..rn` the call returns `true` and rewrites the
text of that comment to ` K r1, ..., rn, ruleId`, followed by ` -- ` and `E` trimmed when
there was an explanation, followed by one more space exactly when the comment has the type
`CommentBlock`.  The other comments of the list are unchanged. -/
theorem tryRewriteEslintDisable_accumulates (cs : List Comment) (c : Comment) (K : Str)
    (rs : List Str) (E : Option Str) (ruleId : Str)
    (hK : K = "eslint-disable-line".toList ∨ K = "eslint-disable-next-line".toList)
    (hrs : rs ≠ [])
    (hr : ∀ r ∈ rs, r ≠ [] ∧ ',' ∉ r ∧ (∀ x ∈ r, isWhiteSpace x = false) ∧
      ¬ "--".toList <:+: r)
    (hE : ∀ e, E = some e → ∀ x ∈ e, isLineTerminator x = false)
    (hv : c.value = " ".toList ++ K ++ " ".toList ++ join ", ".toList rs ++
      (E.elim [] fun e => " -- ".toList ++ e))
    (hnew : ruleId ∉ rs) :
    tryRewriteEslintDisable (some (cs ++ [c])) ruleId =
      (true, some (cs ++ [{ c with
        value := " ".toList ++ K ++ " ".toList ++ join ", ".toList (rs ++ [ruleId]) ++
          (E.elim [] fun e => " -- ".toList ++ trim e) ++
          (if c.type = "CommentBlock" then " ".toList else []) }])) := by
  obtain ⟨m, hm, hrules, hdis, hsuf⟩ :=
    locals_of_directive K rs E hK hrs (fun r h => (hr r h).2) hE
  rw [← hv] at hm
  have hcond : ¬ ((disabledRules m).length = 0 ∨ ruleId ∈ disabledRules m) := by
    rw [hrules]
    simp only [List.length_eq_zero, not_or]
    exact ⟨hrs, hnew⟩
  simp only [tryRewriteEslintDisable, getLast?_append_singleton, hm]
  rw [if_neg hcond]
  simp only [List.dropLast_concat, rewrittenValue, hdis, hsuf, hrules,
    join_append_singleton _ _ rs hrs]
  by_cases hb : c.type = "CommentBlock" <;> simp [hb]

/-- C1, witness: the block comment ` eslint-disable-next-line eqeqeq -- for reasons `
receives the rule `no-undef`. -/
theorem tryRewriteEslintDisable_accumulates_witness :
    tryRewriteEslintDisable
      (some ([] ++ [⟨"CommentBlock", " ".toList ++ "eslint-disable-next-line".toList ++
        " ".toList ++ join ", ".toList ["eqeqeq".toList] ++ (" -- ".toList ++ "for reasons ".toList),
        false, false, none⟩])) "no-undef".toList =
      (true, some [⟨"CommentBlock",
        " eslint-disable-next-line eqeqeq, no-undef -- for reasons ".toList, false, false, none⟩]) :=
  tryRewriteEslintDisable_accumulates [] _ "eslint-disable-next-line".toList ["eqeqeq".toList]
    (some "for reasons ".toList) "no-undef".toList (Or.inr rfl) (by decide) (by decide)
    (by decide) rfl (by decide)


/-! ## Merging into an existing directive (C2, C3, C4) -/

theorem splitAux_dash_ws (pad : Str) (hpad : ∀ x ∈ pad, isWhiteSpace x = true) :
    splitAux ['-', '-'] 0 pad = [pad] := by
  have h1 : ¬ ['-', '-'] <:+: pad := by
    rintro ⟨s, t, h⟩
    have hm : '-' ∈ pad := by rw [← h]; simp
    exact absurd (hpad '-' hm) (by decide)
  have := splitAux_dash_append pad [] h1 (Or.inr (by simp))
  simpa [splitAux] using this

/-- The match and the locals of `tryRewriteEslintDisable` on a directive text of the shape
` K r1, ..., rn` followed by white space. -/
theorem locals_of_padded_directive (K : Str) (rs : List Str) (pad : Str)
    (hK : K = "eslint-disable-line".toList ∨ K = "eslint-disable-next-line".toList)
    (hrs : rs ≠ [])
    (hr : ∀ r ∈ rs, ',' ∉ r ∧ (∀ x ∈ r, isWhiteSpace x = false) ∧ ¬ "--".toList <:+: r)
    (hpad : ∀ x ∈ pad, isWhiteSpace x = true ∧ isLineTerminator x = false) :
    ∃ m, eslintDisableRegexp (" ".toList ++ K ++ " ".toList ++ join ", ".toList rs ++ pad) =
        some m ∧
      disabledRules m = rs ∧ disable m = K ∧ explanationSuffix m = [] := by
  have hbody : ∀ x ∈ join [',', ' '] rs ++ pad, isLineTerminator x = false := by
    intro x hx
    rcases List.mem_append.mp hx with hx | hx
    · rcases mem_join _ _ _ hx with h | ⟨r, hr1, hr2⟩
      · simp at h
        rcases h with h | h <;> subst h <;> decide
      · cases hlt : isLineTerminator x with
        | false => rfl
        | true =>
          have := lineTerminator_isWhiteSpace x hlt
          rw [(hr r hr1).2.1 x hr2] at this
          exact absurd this (by simp)
    · exact (hpad x hx).2
  have hws : ∀ x ∈ pad, isWhiteSpace x = true := fun x hx => (hpad x hx).1
  have hcomma := split_comma_join pad hws rs [] hrs (by simp)
    (fun r h => ⟨(hr r h).1, (hr r h).2.1⟩)
  have hhead : pad.head? ≠ some '-' := by
    cases pad with
    | nil => simp
    | cons y t =>
      intro h
      simp only [List.head?_cons, Option.some.injEq] at h
      have := hws y (by simp)
      rw [h] at this
      exact absurd this (by decide)
  have hdash := splitAux_dash_join pad hhead rs hrs (fun r h => (hr r h).2.2)
  rw [splitAux_dash_ws pad hws] at hdash
  simp only [List.headD_cons, List.tail_cons] at hdash
  have hg : (join [',', ' '] rs ++ pad).takeWhile (fun x => !isLineTerminator x) =
      join [',', ' '] rs ++ pad :=
    takeWhile_all _ (fun x hx => by simp [hbody x hx])
  refine ⟨⟨[' '] ++ K ++ [' '] ++ (join [',', ' '] rs ++ pad), [' '], join [',', ' '] rs ++ pad⟩,
    ?_, ?_, ?_, ?_⟩
  · have := regexp_of_keyword K (' ' :: (join [',', ' '] rs ++ pad)) hK
    simp only [matchAfterKeyword, show isWhiteSpace ' ' = true from by decide, if_true, hg]
      at this
    simpa using this
  · simp only [List.nil_append] at hcomma
    simp only [disabledRules, split, show "--".toList = ['-', '-'] from rfl,
      show ",".toList = [','] from rfl, hdash, List.headD_cons]
    exact hcomma
  · have := disable_of_keyword K (join [',', ' '] rs ++ pad) hK
    simp only [disable, show " ".toList = [' '] from rfl, this, Option.getD_some]
  · simp [explanationSuffix, explanationParts, split, show "--".toList = ['-', '-'] from rfl,
      hdash]

theorem trim_append_ws_right (e pad : Str) (hpad : ∀ x ∈ pad, isWhiteSpace x = true) :
    trim (e ++ pad) = trim e := by
  unfold trim trimStart
  by_cases hall : ∀ x ∈ e, isWhiteSpace x = true
  · rw [dropWhile_all e hall]
    rw [dropWhile_all (e ++ pad) (fun x hx => by
      rcases List.mem_append.mp hx with h | h
      · exact hall x h
      · exact hpad x h)]
  · have hdw : (e ++ pad).dropWhile isWhiteSpace = e.dropWhile isWhiteSpace ++ pad := by
      clear hpad
      induction e with
      | nil => exact absurd (fun x hx => by simp at hx) hall
      | cons y t ih =>
        by_cases hy : isWhiteSpace y = true
        · simp only [List.cons_append, List.dropWhile_cons, hy, if_true]
          apply ih
          intro h
          apply hall
          intro x hx
          rcases List.mem_cons.mp hx with h1 | h1
          · rw [h1]; exact hy
          · exact h x h1
        · simp [List.dropWhile_cons, hy]
    rw [hdw, trimEnd_append_ws _ _ hpad]

/-- The rewrite of a last comment whose text is a directive text followed by white space, for
a rule that it does not list: the array that `tryRewriteEslintDisable` leaves and the
comment that it has assigned to. -/
theorem merge_of_directiveText (cs : List Comment) (c : Comment) (K : Str)
    (rs : List Str) (E : Option Str) (pad : Str) (ruleId : Str)
    (hK : K = "eslint-disable-line".toList ∨ K = "eslint-disable-next-line".toList)
    (hrs : rs ≠ [])
    (hr : ∀ r ∈ rs, ',' ∉ r ∧ (∀ x ∈ r, isWhiteSpace x = false) ∧ ¬ "--".toList <:+: r)
    (hpad : ∀ x ∈ pad, isWhiteSpace x = true ∧ isLineTerminator x = false)
    (hE : ∀ e, E = some e → ∀ x ∈ e, isLineTerminator x = false)
    (hv : c.value = directiveText K rs E ++ pad)
    (hnew : ruleId ∉ rs) :
    tryRewriteEslintDisable (some (cs ++ [c])) ruleId =
      (true, some (cs ++ [{ c with
        value := directiveText K (rs ++ [ruleId]) (E.map trim) ++
          (if c.type = "CommentBlock" then " ".toList else []) }])) ∧
    rewrittenComment (some (cs ++ [c])) ruleId =
      some { c with
        value := directiveText K (rs ++ [ruleId]) (E.map trim) ++
          (if c.type = "CommentBlock" then " ".toList else []) } := by
  have key : ∃ m, eslintDisableRegexp c.value = some m ∧ disabledRules m = rs ∧
      disable m = K ∧ explanationSuffix m = (E.elim [] fun e => " -- ".toList ++ trim e) := by
    rw [hv]
    cases E with
    | none =>
      have := locals_of_padded_directive K rs pad hK hrs hr hpad
      simpa [directiveText] using this
    | some e =>
      have := locals_of_directive K rs (some (e ++ pad)) hK hrs hr (by
        intro e' he' x hx
        cases he'
        rcases List.mem_append.mp hx with h | h
        · exact hE e rfl x h
        · exact (hpad x h).2)
      simp only [Option.elim] at this
      rw [trim_append_ws_right e pad (fun x hx => (hpad x hx).1)] at this
      simpa [directiveText, Option.elim] using this
  obtain ⟨m, hm, hrules, hdis, hsuf⟩ := key
  have hcond : ¬ ((disabledRules m).length = 0 ∨ ruleId ∈ disabledRules m) := by
    rw [hrules]
    simp only [List.length_eq_zero, not_or]
    exact ⟨hrs, hnew⟩
  have hval : rewrittenValue c m ruleId = directiveText K (rs ++ [ruleId]) (E.map trim) ++
      (if c.type = "CommentBlock" then " ".toList else []) := by
    simp only [rewrittenValue, hdis, hsuf, hrules, directiveText,
      join_append_singleton _ _ rs hrs]
    cases E <;> by_cases hb : c.type = "CommentBlock" <;> simp [hb]
  constructor
  · simp only [tryRewriteEslintDisable, getLast?_append_singleton, hm]
    rw [if_neg hcond, hval, List.dropLast_concat]
  · simp only [rewrittenComment, Option.bind, getLast?_append_singleton, hm]
    rw [if_neg hcond, hval]

theorem rewrittenComment_of_not_directive (comments : Option (List Comment)) (ruleId : Str)
    (h : endsInDirective comments = false) : rewrittenComment comments ruleId = none := by
  unfold rewrittenComment
  unfold endsInDirective at h
  cases hl : comments.bind List.getLast? with
  | none => rfl
  | some lastComment =>
    rw [hl] at h
    dsimp only at h ⊢
    cases hm : eslintDisableRegexp lastComment.value with
    | none => rfl
    | some m => rw [hm] at h; simp at h

theorem rewrittenComment_of_listed (cs : List Comment) (c : Comment) (m : RegExpMatch)
    (ruleId : Str) (hm : eslintDisableRegexp c.value = some m) (hr : ruleId ∈ disabledRules m) :
    rewrittenComment (some (cs ++ [c])) ruleId = none := by
  simp only [rewrittenComment, Option.bind, getLast?_append_singleton, hm]
  rw [if_pos (Or.inr hr)]

theorem map_assigned_unique (ref : Option Nat) (value : Str) (c : Comment)
    (before after : List Comment) (href : ref ≠ none) (hc : c.ref = ref)
    (hu : ∀ x ∈ before ++ after, x.ref ≠ ref) :
    (before ++ c :: after).map (Comment.assigned ref value) =
      before ++ { c with value := value } :: after := by
  have hid : ∀ l : List Comment, (∀ x ∈ l, x.ref ≠ ref) →
      l.map (Comment.assigned ref value) = l := by
    intro l hl
    conv_rhs => rw [← List.map_id l]
    apply List.map_congr_left
    intro x hx
    simp [Comment.assigned, hl x hx]
  rw [List.map_append, List.map_cons, hid before (fun x hx => hu x (by simp [hx])),
    hid after (fun x hx => hu x (by simp [hx]))]
  simp [Comment.assigned, href, hc]

theorem map_assigned_none (value : Str) (l : List Comment) :
    l.map (Comment.assigned none value) = l := by
  conv_rhs => rw [← List.map_id l]
  apply List.map_congr_left
  intro x _
  simp [Comment.assigned]

theorem tryRewriteEslintDisable_of_match (cs : List Comment) (c : Comment) (m : RegExpMatch)
    (ruleId : Str) (hm : eslintDisableRegexp c.value = some m) :
    tryRewriteEslintDisable (some (cs ++ [c])) ruleId =
      if (disabledRules m).length = 0 ∨ ruleId ∈ disabledRules m then (true, some (cs ++ [c]))
      else (true, some (cs ++ [{ c with value := rewrittenValue c m ruleId }])) := by
  simp only [tryRewriteEslintDisable, getLast?_append_singleton, hm, List.dropLast_concat]

theorem tryRewriteEslintDisable_of_no_match (cs : List Comment) (c : Comment) (ruleId : Str)
    (hm : eslintDisableRegexp c.value = none) :
    tryRewriteEslintDisable (some (cs ++ [c])) ruleId = (false, some (cs ++ [c])) := by
  simp only [tryRewriteEslintDisable, getLast?_append_singleton, hm]

theorem disabledRules_length_ne_zero (m : RegExpMatch) : (disabledRules m).length ≠ 0 := by
  unfold disabledRules split
  rw [List.length_map]
  exact fun h => splitAux_ne_nil _ _ _ (List.length_eq_zero.mp h)

theorem tryRewriteEslintDisable_fst (comments : Option (List Comment)) (ruleId : Str) :
    (tryRewriteEslintDisable comments ruleId).1 = endsInDirective comments := by
  cases comments with
  | none => rfl
  | some cs =>
    rcases List.eq_nil_or_concat cs with h | ⟨cs', c, h⟩
    · subst h; rfl
    · subst h
      rw [List.concat_eq_append]
      simp only [endsInDirective, Option.bind, getLast?_append_singleton]
      cases hm : eslintDisableRegexp c.value with
      | none => rw [tryRewriteEslintDisable_of_no_match _ _ _ hm]; rfl
      | some m =>
        rw [tryRewriteEslintDisable_of_match _ _ _ _ hm]
        split <;> rfl

theorem tryRewriteEslintDisable_snd_of_false (comments : Option (List Comment)) (ruleId : Str)
    (h : (tryRewriteEslintDisable comments ruleId).1 = false) :
    (tryRewriteEslintDisable comments ruleId).2 = comments := by
  cases comments with
  | none => rfl
  | some cs =>
    rcases List.eq_nil_or_concat cs with hc | ⟨cs', c, hc⟩
    · subst hc; rfl
    · subst hc
      rw [List.concat_eq_append] at h ⊢
      cases hm : eslintDisableRegexp c.value with
      | none => rw [tryRewriteEslintDisable_of_no_match _ _ _ hm]
      | some m =>
        rw [tryRewriteEslintDisable_of_match _ _ _ _ hm] at h
        split at h <;> simp at h

/-- The array that `tryRewriteEslintDisable` leaves is the array it received with, when the
call has made its assignment, the last comment replaced by the comment it has assigned to;
and the call makes the assignment only when it returns `true`. -/
theorem tryRewriteEslintDisable_snd_eq (cs : List Comment) (c : Comment) (ruleId : Str) :
    (tryRewriteEslintDisable (some (cs ++ [c])) ruleId).2 =
      some (cs ++ [(rewrittenComment (some (cs ++ [c])) ruleId).getD c]) ∧
    ((tryRewriteEslintDisable (some (cs ++ [c])) ruleId).1 = false →
      rewrittenComment (some (cs ++ [c])) ruleId = none) := by
  cases hm : eslintDisableRegexp c.value with
  | none =>
    rw [tryRewriteEslintDisable_of_no_match _ _ _ hm]
    simp [rewrittenComment, hm]
  | some m =>
    rw [tryRewriteEslintDisable_of_match _ _ _ _ hm]
    by_cases hc : (disabledRules m).length = 0 ∨ ruleId ∈ disabledRules m
    · simp only [rewrittenComment, Option.bind, getLast?_append_singleton, hm]
      rw [if_pos hc, if_pos hc]
      simp
    · simp only [rewrittenComment, Option.bind, getLast?_append_singleton, hm]
      rw [if_neg hc, if_neg hc]
      simp

/-- C3.  When the last comment of the list is accepted by the directive pattern and its
comma-separated, trimmed rule list holds `ruleId`, the call returns `true` and the list it
leaves is the list it received: no comment changes text, type or flags. -/
theorem tryRewriteEslintDisable_already_suppressed (cs : List Comment) (c : Comment)
    (m : RegExpMatch) (ruleId : Str) (hm : eslintDisableRegexp c.value = some m)
    (hr : ruleId ∈ disabledRules m) :
    tryRewriteEslintDisable (some (cs ++ [c])) ruleId = (true, some (cs ++ [c])) := by
  rw [tryRewriteEslintDisable_of_match _ _ _ _ hm, if_pos (Or.inr hr)]

/-- C3, witness: the rule `eqeqeq` and the comment of the test that does not update
unnecessarily. -/
theorem tryRewriteEslintDisable_already_suppressed_witness :
    tryRewriteEslintDisable
      (some ([] ++ [⟨"CommentLine",
        " eslint-disable-next-line eqeqeq -- TODO: Fix this the next time the file is edited.".toList,
        true, false, none⟩])) "eqeqeq".toList =
      (true, some ([] ++ [⟨"CommentLine",
        " eslint-disable-next-line eqeqeq -- TODO: Fix this the next time the file is edited.".toList,
        true, false, none⟩])) :=
  tryRewriteEslintDisable_already_suppressed [] _
    ⟨" eslint-disable-next-line eqeqeq -- TODO: Fix this the next time the file is edited.".toList,
      " ".toList, "eqeqeq -- TODO: Fix this the next time the file is edited.".toList⟩
    "eqeqeq".toList (by decide) (by decide)


theorem matchAfterKeyword_isSome (matched rest : Str) :
    (matchAfterKeyword matched rest).isSome = true ↔
      (rest = [] ∨ ∃ c t, rest = c :: t ∧ isWhiteSpace c = true) := by
  cases rest with
  | nil => simp [matchAfterKeyword]
  | cons c t =>
    by_cases hc : isWhiteSpace c = true
    · simp [matchAfterKeyword, hc]
    · simp [matchAfterKeyword, hc]

/-- The directive pattern accepts exactly the texts made of white space, one of the two
keywords, and then nothing or a white-space character followed by any text. -/
theorem eslintDisableRegexp_isSome_iff (v : Str) :
    (eslintDisableRegexp v).isSome = true ↔
      ∃ ws K rest, (∀ c ∈ ws, isWhiteSpace c = true) ∧
        (K = "eslint-disable-line".toList ∨ K = "eslint-disable-next-line".toList) ∧
        v = ws ++ K ++ rest ∧ (rest = [] ∨ ∃ c t, rest = c :: t ∧ isWhiteSpace c = true) := by
  constructor
  · intro h
    have hv : v = v.takeWhile isWhiteSpace ++ v.dropWhile isWhiteSpace :=
      (List.takeWhile_append_dropWhile _ _).symm
    have hws : ∀ c ∈ v.takeWhile isWhiteSpace, isWhiteSpace c = true :=
      fun c hc => List.mem_takeWhile_imp hc
    unfold eslintDisableRegexp at h
    cases h0 : stripLiteral "eslint-disable".toList (v.dropWhile isWhiteSpace) with
    | none => rw [h0] at h; simp at h
    | some r =>
      have e0 := stripLiteral_eq_some _ _ _ h0
      simp only [h0] at h
      cases h1 : ((stripLiteral "-next".toList r).bind (stripLiteral "-line".toList)).bind
          (matchAfterKeyword (v.takeWhile isWhiteSpace ++ "eslint-disable-next-line".toList)) with
      | some m =>
        cases h2 : stripLiteral "-next".toList r with
        | none => rw [h2] at h1; simp at h1
        | some r1 =>
          cases h3 : stripLiteral "-line".toList r1 with
          | none => rw [h2, Option.bind, h3] at h1; simp at h1
          | some r2 =>
            have e2 := stripLiteral_eq_some _ _ _ h2
            have e3 := stripLiteral_eq_some _ _ _ h3
            simp only [h2, h3, Option.bind] at h1
            refine ⟨v.takeWhile isWhiteSpace, "eslint-disable-next-line".toList, r2, hws,
              Or.inr rfl, ?_, (matchAfterKeyword_isSome _ _).mp (by rw [h1]; rfl)⟩
            rw [List.append_assoc, ← show "eslint-disable".toList ++ r =
              "eslint-disable-next-line".toList ++ r2 from by rw [e2, e3]; rfl, ← e0]
            exact hv
      | none =>
        simp only [h1] at h
        cases h3 : stripLiteral "-line".toList r with
        | none => rw [h3] at h; simp at h
        | some r2 =>
          have e3 := stripLiteral_eq_some _ _ _ h3
          simp only [h3, Option.bind] at h
          refine ⟨v.takeWhile isWhiteSpace, "eslint-disable-line".toList, r2, hws,
            Or.inl rfl, ?_, (matchAfterKeyword_isSome _ _).mp h⟩
          rw [List.append_assoc, ← show "eslint-disable".toList ++ r =
            "eslint-disable-line".toList ++ r2 from by rw [e3]; rfl, ← e0]
          exact hv
  · rintro ⟨ws, K, rest, hws, hK, hv, hrest⟩
    subst hv
    rcases hK with hK | hK
    · subst hK
      rw [eslintDisableRegexp_line ws rest hws]
      exact (matchAfterKeyword_isSome _ _).mpr hrest
    · subst hK
      rw [eslintDisableRegexp_next_line ws rest hws]
      exact (matchAfterKeyword_isSome _ _).mpr hrest

/-- C4.  The call returns `true` only when the list has a last comment whose text consists of
optional white space, then the keyword `eslint-disable-line` or `eslint-disable-next-line`,
then a white-space character or the end of the text, and it returns `true` for every such
list; so it returns `false` when the list is absent or empty or when the last text has not
that shape.  Whenever it returns `false` the list is left as it was.  The texts that start
with `eslint-disable`, `eslint-enable` or `eslint-disable-line-x` are rejected. -/
theorem tryRewriteEslintDisable_rejects_non_directives (comments : Option (List Comment))
    (ruleId : Str) :
    ((tryRewriteEslintDisable comments ruleId).1 = true ↔
      ∃ cs c, comments = some (cs ++ [c]) ∧
        ∃ ws K rest, (∀ x ∈ ws, isWhiteSpace x = true) ∧
          (K = "eslint-disable-line".toList ∨ K = "eslint-disable-next-line".toList) ∧
          c.value = ws ++ K ++ rest ∧
          (rest = [] ∨ ∃ x t, rest = x :: t ∧ isWhiteSpace x = true)) ∧
    ((tryRewriteEslintDisable comments ruleId).1 = false →
      (tryRewriteEslintDisable comments ruleId).2 = comments) ∧
    (comments = none ∨ comments = some [] →
      tryRewriteEslintDisable comments ruleId = (false, comments)) ∧
    (∀ cs c, comments = some (cs ++ [c]) →
      c.value ∈ [" eslint-disable".toList, " eslint-disable eqeqeq".toList,
        " eslint-enable".toList, " eslint-enable eqeqeq".toList,
        " eslint-disable-line-x".toList, " eslint-disable-line-x eqeqeq".toList] →
      tryRewriteEslintDisable comments ruleId = (false, comments)) := by
  refine ⟨?_, tryRewriteEslintDisable_snd_of_false comments ruleId, ?_, ?_⟩
  · rw [tryRewriteEslintDisable_fst]
    constructor
    · intro h
      cases comments with
      | none => simp [endsInDirective] at h
      | some cs =>
        rcases List.eq_nil_or_concat cs with hc | ⟨cs', c, hc⟩
        · subst hc; simp [endsInDirective] at h
        · subst hc
          rw [List.concat_eq_append] at h ⊢
          simp only [endsInDirective, Option.bind, getLast?_append_singleton] at h
          exact ⟨cs', c, rfl, (eslintDisableRegexp_isSome_iff _).mp h⟩
    · rintro ⟨cs, c, hc, hshape⟩
      subst hc
      simp only [endsInDirective, Option.bind, getLast?_append_singleton]
      exact (eslintDisableRegexp_isSome_iff _).mpr hshape
  · rintro (h | h) <;> subst h <;> rfl
  · intro cs c hc hv
    subst hc
    apply tryRewriteEslintDisable_of_no_match
    simp only [List.mem_cons, List.mem_singleton, List.not_mem_nil, or_false] at hv
    rcases hv with h | h | h | h | h | h <;> rw [h] <;> decide

/-- C4, witness: the comment ` eslint-disable-line-x eqeqeq` after another comment is
rejected and the list is unchanged. -/
theorem tryRewriteEslintDisable_rejects_non_directives_witness :
    tryRewriteEslintDisable
      (some ([⟨"CommentBlock", " a note ".toList, true, false, none⟩] ++
        [⟨"CommentLine", " eslint-disable-line-x eqeqeq".toList, true, false, none⟩]))
      "no-undef".toList =
      (false, some ([⟨"CommentBlock", " a note ".toList, true, false, none⟩] ++
        [⟨"CommentLine", " eslint-disable-line-x eqeqeq".toList, true, false, none⟩])) :=
  (tryRewriteEslintDisable_rejects_non_directives _ "no-undef".toList).2.2.2 _ _ rfl
    (by decide)


/-! ## Ordinary comments (C2, C5, C9) -/

theorem Node.attrs_setAttrs (n : Node) (a : NodeAttrs) : (n.setAttrs a).attrs = a := rfl

theorem Node.fields_setAttrs (n : Node) (a : NodeAttrs) : (n.setAttrs a).fields = n.fields := rfl

theorem tryRewriteEslintDisable_of_not_directive (comments : Option (List Comment))
    (ruleId : Str) (h : endsInDirective comments = false) :
    tryRewriteEslintDisable comments ruleId = (false, comments) := by
  have h1 : (tryRewriteEslintDisable comments ruleId).1 = false := by
    rw [tryRewriteEslintDisable_fst, h]
  exact Prod.ext h1 (tryRewriteEslintDisable_snd_of_false comments ruleId h1)

/-- C2.  Let the leading comment list of the target node end in a comment `c`, or let the
leading list not end in a directive and the trailing list end in `c`, where the text of `c`
is the directive ` K r1, ..., rn -- E`: one space, one of the two keywords, rules that are
non-empty and free of commas, white space and `--`, and an explanation `E` without line
terminator.  Let `ruleId` not be among the rules.  Then for every configured message and
every mode `createNormalComment` adds no comment and rewrites the text of `c` to
` K r1, ..., rn, ruleId -- E` with `E` trimmed (and a space more for a block comment): in
the list it was found in and in every other slot of the node that lists the same object; so
`comments`, which lists the object once, shows the rewritten comment in its place.  The node
that results is the same for every message and mode: the message does not enter it. -/
theorem createNormalComment_keeps_explanation (targetNode : Node) (leading : Bool)
    (cs : List Comment) (c merged : Comment) (K : Str) (rs : List Str) (E : Str) (ruleId : Str)
    (hsite : if leading then targetNode.attrs.leadingComments = some (cs ++ [c])
      else endsInDirective targetNode.attrs.leadingComments = false ∧
        targetNode.attrs.trailingComments = some (cs ++ [c]))
    (hK : K = "eslint-disable-line".toList ∨ K = "eslint-disable-next-line".toList)
    (hrs : rs ≠ [])
    (hr : ∀ r ∈ rs, r ≠ [] ∧ ',' ∉ r ∧ (∀ x ∈ r, isWhiteSpace x = false) ∧
      ¬ "--".toList <:+: r)
    (hE : ∀ x ∈ E, isLineTerminator x = false)
    (hv : c.value = directiveText K rs (some E))
    (hnew : ruleId ∉ rs)
    (hmerged : merged = { c with
      value := directiveText K (rs ++ [ruleId]) (some (trim E)) ++
        (if c.type = "CommentBlock" then " ".toList else []) })
    (commentText : Str) (inline : Bool) :
    createNormalComment ruleId commentText targetNode inline =
      targetNode.setAttrs
        (if leading then
          { shareRewritten targetNode.attrs (some merged) with
            leadingComments := some (cs ++ [merged]) }
        else
          { shareRewritten targetNode.attrs (some merged) with
            trailingComments := some (cs ++ [merged]) }) ∧
    (c.ref ≠ none → ∀ before after, targetNode.attrs.comments = some (before ++ c :: after) →
      (∀ x ∈ before ++ after, x.ref ≠ c.ref) →
      (createNormalComment ruleId commentText targetNode inline).attrs.comments =
        some (before ++ merged :: after)) ∧
    (∀ (message : Str) (mode : Bool),
      createNormalComment ruleId message targetNode mode =
        createNormalComment ruleId commentText targetNode inline) := by
  obtain ⟨h1, h2⟩ := merge_of_directiveText cs c K rs (some E) [] ruleId hK hrs
    (fun r h => (hr r h).2) (by simp) (by intro e he; cases he; exact hE)
    (by simpa using hv) hnew
  simp only [Option.map_some'] at h1 h2
  rw [← hmerged] at h1 h2
  have main : ∀ (message : Str) (mode : Bool),
      createNormalComment ruleId message targetNode mode =
        targetNode.setAttrs
          (if leading then
            { shareRewritten targetNode.attrs (some merged) with
              leadingComments := some (cs ++ [merged]) }
          else
            { shareRewritten targetNode.attrs (some merged) with
              trailingComments := some (cs ++ [merged]) }) := by
    intro message mode
    cases leading with
    | true =>
      simp only [if_true] at hsite
      simp only [createNormalComment, hsite, h1, h2, if_true]
    | false =>
      simp only [Bool.false_eq_true, if_false] at hsite
      simp only [createNormalComment, tryRewriteEslintDisable_of_not_directive _ ruleId hsite.1,
        hsite.2, h1, h2, Bool.false_eq_true, if_false, if_true]
  refine ⟨main commentText inline, ?_, fun message mode =>
    (main message mode).trans (main commentText inline).symm⟩
  intro href before after hcomments hu
  have hmref : merged.ref = c.ref := by rw [hmerged]
  have hmval : ({ c with value := merged.value } : Comment) = merged := by rw [hmerged]
  rw [main commentText inline, Node.attrs_setAttrs]
  cases leading <;>
    simp only [Bool.false_eq_true, if_false, if_true, shareRewritten, assignValue, hcomments,
      Option.map_some', hmref, map_assigned_unique c.ref merged.value c before after href rfl hu,
      hmval]

/-- C2, witness and failing input.  The declaration of the test that updates a comment with an
explanation: the parser lists the comment ` eslint-disable-next-line eqeqeq -- for reasons`
in `comments` and in `leadingComments`; it receives `no-unused-vars` while another message is
configured, and both slots show the rewritten text.  The same comment written without the
space after `//` is accepted by the directive pattern, but its rewrite is the text
` eqeqeq eqeqeq, no-unused-vars -- for reasons`, which the pattern rejects: the directive is
lost, the explanation with it. -/
theorem createNormalComment_keeps_explanation_witness :
    createNormalComment "no-unused-vars".toList "Something more informative".toList
      (.mk ⟨"VariableDeclaration", some ⟨3, 3⟩,
        some [⟨"CommentLine", " eslint-disable-next-line eqeqeq -- for reasons".toList,
          true, false, some 0⟩],
        some [⟨"CommentLine", " eslint-disable-next-line eqeqeq -- for reasons".toList,
          true, false, some 0⟩], none, none, []⟩ []) false =
      .mk ⟨"VariableDeclaration", some ⟨3, 3⟩,
        some [⟨"CommentLine",
          " eslint-disable-next-line eqeqeq, no-unused-vars -- for reasons".toList,
          true, false, some 0⟩],
        some [⟨"CommentLine",
          " eslint-disable-next-line eqeqeq, no-unused-vars -- for reasons".toList,
          true, false, some 0⟩], none, none, []⟩ [] ∧
    (eslintDisableRegexp "eslint-disable-next-line eqeqeq -- for reasons".toList).isSome = true ∧
    createNormalComment "no-unused-vars".toList "Something more informative".toList
      (.mk ⟨"VariableDeclaration", some ⟨3, 3⟩,
        some [⟨"CommentLine", "eslint-disable-next-line eqeqeq -- for reasons".toList,
          true, false, some 0⟩],
        some [⟨"CommentLine", "eslint-disable-next-line eqeqeq -- for reasons".toList,
          true, false, some 0⟩], none, none, []⟩ []) false =
      .mk ⟨"VariableDeclaration", some ⟨3, 3⟩,
        some [⟨"CommentLine", " eqeqeq eqeqeq, no-unused-vars -- for reasons".toList,
          true, false, some 0⟩],
        some [⟨"CommentLine", " eqeqeq eqeqeq, no-unused-vars -- for reasons".toList,
          true, false, some 0⟩], none, none, []⟩ [] ∧
    eslintDisableRegexp " eqeqeq eqeqeq, no-unused-vars -- for reasons".toList = none :=
  ⟨(createNormalComment_keeps_explanation
      (.mk ⟨"VariableDeclaration", some ⟨3, 3⟩,
        some [⟨"CommentLine", " eslint-disable-next-line eqeqeq -- for reasons".toList,
          true, false, some 0⟩],
        some [⟨"CommentLine", " eslint-disable-next-line eqeqeq -- for reasons".toList,
          true, false, some 0⟩], none, none, []⟩ []) true []
      ⟨"CommentLine", " eslint-disable-next-line eqeqeq -- for reasons".toList, true, false,
        some 0⟩
      ⟨"CommentLine", " eslint-disable-next-line eqeqeq, no-unused-vars -- for reasons".toList,
        true, false, some 0⟩
      "eslint-disable-next-line".toList ["eqeqeq".toList] "for reasons".toList
      "no-unused-vars".toList (by decide) (by decide) (by decide) (by decide) (by decide)
      (by decide) (by decide) (by decide)
      "Something more informative".toList false).1.trans (by decide),
    by decide, by decide, by decide⟩

theorem createNormalComment_of_no_directive (targetNode : Node) (ruleId commentText : Str)
    (inline : Bool)
    (hl : endsInDirective targetNode.attrs.leadingComments = false)
    (ht : endsInDirective targetNode.attrs.trailingComments = false) :
    createNormalComment ruleId commentText targetNode inline =
      targetNode.setAttrs
        { targetNode.attrs with
          comments := some (targetNode.attrs.comments.getD [] ++
            [if inline then
              ⟨"Line", " eslint-disable-line ".toList ++ ruleId ++ " -- ".toList ++ commentText,
                false, true, none⟩
            else
              ⟨"Line", " eslint-disable-next-line ".toList ++ ruleId ++ " -- ".toList ++
                commentText, true, false, none⟩])
          leadingComments := some (targetNode.attrs.leadingComments.getD []) } := by
  simp only [createNormalComment, tryRewriteEslintDisable_of_not_directive _ ruleId hl,
    tryRewriteEslintDisable_of_not_directive _ ruleId ht, Bool.false_eq_true, if_false]
  cases inline <;> simp [inlineComment, leadingComment, line]

/-- C5.  When neither the leading nor the trailing comment list of the target node ends in a
directive, `createNormalComment` pushes exactly one comment of type `Line` on `comments` and
changes nothing else (an absent `leadingComments` becomes the empty array): by default its
text is ` eslint-disable-next-line <ruleId> -- <commentText>` with `leading = true` and
`trailing = false`; in inline mode its text is ` eslint-disable-line <ruleId> -- <commentText>`
with `leading = false` and `trailing = true`.  The text `commentText` that `codeMod` passes
is the configured message, or the default message when none (or the empty one) is
configured. -/
theorem createNormalComment_inserts (targetNode : Node) (ruleId commentText : Str)
    (inline : Bool)
    (hl : endsInDirective targetNode.attrs.leadingComments = false)
    (ht : endsInDirective targetNode.attrs.trailingComments = false) :
    createNormalComment ruleId commentText targetNode inline =
      targetNode.setAttrs
        { targetNode.attrs with
          comments := some (targetNode.attrs.comments.getD [] ++
            [if inline then
              ⟨"Line", " eslint-disable-line ".toList ++ ruleId ++ " -- ".toList ++ commentText,
                false, true, none⟩
            else
              ⟨"Line", " eslint-disable-next-line ".toList ++ ruleId ++ " -- ".toList ++
                commentText, true, false, none⟩])
          leadingComments := some (targetNode.attrs.leadingComments.getD []) } ∧
    (∀ (rules : Option Str) (inl : Bool),
      commentTextOf ⟨none, rules, inl⟩ =
        "TODO: Fix this the next time the file is edited.".toList ∧
      commentTextOf ⟨some [], rules, inl⟩ =
        "TODO: Fix this the next time the file is edited.".toList ∧
      ∀ message, message ≠ [] → commentTextOf ⟨some message, rules, inl⟩ = message) := by
  constructor
  · exact createNormalComment_of_no_directive targetNode ruleId commentText inline hl ht
  · intro rules inl
    refine ⟨rfl, rfl, ?_⟩
    intro message hmsg
    simp [commentTextOf, hmsg]

/-- C5, witness: a return statement without comments, in the default mode. -/
theorem createNormalComment_inserts_witness :
    createNormalComment "eqeqeq".toList defaultMessage
      (.mk ⟨"ReturnStatement", some ⟨2, 2⟩, none, none, none, none, []⟩ []) false =
      .mk ⟨"ReturnStatement", some ⟨2, 2⟩,
        some [⟨"Line",
          " eslint-disable-next-line eqeqeq -- TODO: Fix this the next time the file is edited.".toList,
          true, false, none⟩], some [], none, none, []⟩ [] :=
  (createNormalComment_inserts (.mk ⟨"ReturnStatement", some ⟨2, 2⟩, none, none, none, none, []⟩ [])
    "eqeqeq".toList defaultMessage false rfl rfl).1

/-- C9, the behaviour of the code.  When neither the leading nor the trailing comment list
of the target node ends in a directive, a second call of `createNormalComment` on the node
that the first call returned does not find the comment of the first call, which was pushed
on `comments` only: it pushes a second comment, also when the two rules are equal. -/
theorem createNormalComment_twice (targetNode : Node) (r1 r2 commentText : Str)
    (inline : Bool)
    (hl : endsInDirective targetNode.attrs.leadingComments = false)
    (ht : endsInDirective targetNode.attrs.trailingComments = false) :
    (createNormalComment r2 commentText
        (createNormalComment r1 commentText targetNode inline) inline).attrs.comments =
      some (targetNode.attrs.comments.getD [] ++
        [if inline then
            ⟨"Line", " eslint-disable-line ".toList ++ r1 ++ " -- ".toList ++ commentText,
              false, true, none⟩
          else
            ⟨"Line", " eslint-disable-next-line ".toList ++ r1 ++ " -- ".toList ++ commentText,
              true, false, none⟩,
          if inline then
            ⟨"Line", " eslint-disable-line ".toList ++ r2 ++ " -- ".toList ++ commentText,
              false, true, none⟩
          else
            ⟨"Line", " eslint-disable-next-line ".toList ++ r2 ++ " -- ".toList ++ commentText,
              true, false, none⟩]) := by
  have h1 := createNormalComment_of_no_directive targetNode r1 commentText inline hl ht
  have hl' : endsInDirective (some (targetNode.attrs.leadingComments.getD [])) = false := by
    cases hlc : targetNode.attrs.leadingComments with
    | none => rfl
    | some l => rw [hlc] at hl; exact hl
  rw [h1]
  rw [createNormalComment_of_no_directive _ r2 commentText inline
    (by rw [Node.attrs_setAttrs]; exact hl') (by rw [Node.attrs_setAttrs]; exact ht)]
  simp [Node.attrs_setAttrs]

/-- C9, failing input: on a return statement without comments, two calls for the same rule
`eqeqeq` leave two identical directives on the node; and `codeMod`, given two `eqeqeq` errors
on the line of that statement, returns the tree with these two comments. -/
theorem createNormalComment_twice_same_rule :
    (createNormalComment "eqeqeq".toList defaultMessage
        (createNormalComment "eqeqeq".toList defaultMessage
          (.mk ⟨"ReturnStatement", some ⟨2, 2⟩, none, none, none, none, []⟩ []) false)
        false).attrs.comments =
      some [⟨"Line",
          " eslint-disable-next-line eqeqeq -- TODO: Fix this the next time the file is edited.".toList,
          true, false, none⟩,
        ⟨"Line",
          " eslint-disable-next-line eqeqeq -- TODO: Fix this the next time the file is edited.".toList,
          true, false, none⟩] ∧
    codeMod
      (some [⟨some [⟨some "eqeqeq".toList, 2, 2⟩, ⟨some "eqeqeq".toList, 2, 2⟩]⟩])
      "index.js".toList
      (.mk ⟨"File", some ⟨1, 3⟩, none, none, none, none, []⟩
        [("program", .one (.mk ⟨"Program", some ⟨1, 3⟩, none, none, none, none, []⟩
          [("body", .many
            [.mk ⟨"ReturnStatement", some ⟨2, 2⟩, none, none, none, none, []⟩ []])]))])
      ⟨none, none, false⟩ =
    some (.source
      (.mk ⟨"File", some ⟨1, 3⟩, none, none, none, none, []⟩
        [("program", .one (.mk ⟨"Program", some ⟨1, 3⟩, none, none, none, none, []⟩
          [("body", .many
            [.mk ⟨"ReturnStatement", some ⟨2, 2⟩,
              some [⟨"Line", (" eslint-disable-next-line eqeqeq -- " ++
                  "TODO: Fix this the next time the file is edited.").toList, true, false, none⟩,
                ⟨"Line", (" eslint-disable-next-line eqeqeq -- " ++
                  "TODO: Fix this the next time the file is edited.").toList, true, false, none⟩],
              some [], none, none, []⟩ []])]))]), []) :=
  ⟨createNormalComment_twice
      (.mk ⟨"ReturnStatement", some ⟨2, 2⟩, none, none, none, none, []⟩ [])
      "eqeqeq".toList "eqeqeq".toList defaultMessage false rfl rfl,
    by decide⟩

/-! ## The transform (C6, C7, C8) -/

theorem codeModLoop_cons_excluded (filePath commentText : Str) (w : Option (List Str))
    (inline : Bool) (t : Target) (rest : List Target) (root : Node) (reports : List Report)
    (h : isExcluded w t.ruleId = true) :
    codeModLoop filePath commentText w inline (t :: rest) root reports =
      codeModLoop filePath commentText w inline rest root reports := by
  rw [codeModLoop, if_pos h]

theorem codeModLoop_cons_included (filePath commentText : Str) (w w' : Option (List Str))
    (inline : Bool) (t : Target) (rest rest' : List Target) (root : Node)
    (reports : List Report)
    (h : isExcluded w t.ruleId = false) (h' : isExcluded w' t.ruleId = false)
    (ih : ∀ root reports, codeModLoop filePath commentText w inline rest root reports =
      codeModLoop filePath commentText w' inline rest' root reports) :
    codeModLoop filePath commentText w inline (t :: rest) root reports =
      codeModLoop filePath commentText w' inline (t :: rest') root reports := by
  conv_lhs => rw [codeModLoop, if_neg (by simp [h])]
  conv_rhs => rw [codeModLoop, if_neg (by simp [h'])]
  cases firstPathOnLine root t.targetLine with
  | none => exact ih _ _
  | some path =>
    dsimp only
    cases addDisableComment filePath commentText t.targetLine t.ruleId path inline with
    | none => rfl
    | some r => exact ih _ _

/-- The loop with a whitelist does what the loop without whitelist does on the targets whose
rule is in the whitelist. -/
theorem codeModLoop_whitelist (filePath commentText : Str) (W : List Str) (inline : Bool)
    (w' : Option (List Str)) (hw' : w' = none ∨ w' = some W) :
    ∀ (targets : List Target) (root : Node) (reports : List Report),
      codeModLoop filePath commentText (some W) inline targets root reports =
        codeModLoop filePath commentText w' inline
          (targets.filter (fun t => decide (t.ruleId ∈ W))) root reports
  | [], _, _ => by
    rcases hw' with h | h <;> subst h <;> rfl
  | t :: rest, root, reports => by
    by_cases ht : t.ruleId ∈ W
    · have hin : isExcluded (some W) t.ruleId = false := by simp [isExcluded, ht]
      have hin' : isExcluded w' t.ruleId = false := by
        rcases hw' with h | h <;> subst h <;> simp [isExcluded, ht]
      have hf : (t :: rest).filter (fun t => decide (t.ruleId ∈ W)) =
          t :: rest.filter (fun t => decide (t.ruleId ∈ W)) := by
        simp [List.filter_cons, ht]
      rw [hf]
      exact codeModLoop_cons_included _ _ _ _ _ _ _ _ _ _ hin hin'
        (codeModLoop_whitelist filePath commentText W inline w' hw' rest)
    · have hex : isExcluded (some W) t.ruleId = true := by simp [isExcluded, ht]
      have hf : (t :: rest).filter (fun t => decide (t.ruleId ∈ W)) =
          rest.filter (fun t => decide (t.ruleId ∈ W)) := by
        simp [List.filter_cons, ht]
      rw [hf, codeModLoop_cons_excluded _ _ _ _ _ _ _ _ hex]
      exact codeModLoop_whitelist filePath commentText W inline w' hw' rest root reports

theorem codeMod_of_messages (messages : List Message) (more : List LintResult)
    (filePath : Str) (parsed : Node) (options : Options) :
    codeMod (some (⟨some messages⟩ :: more)) filePath parsed options =
      if targetsOf messages = [] then some (.unchanged, [])
      else (codeModLoop filePath (commentTextOf options) (ruleIdWhitelistSetOf options)
        options.inline (targetsOf messages) parsed []).map (fun r => (.source r.1, r.2)) := by
  simp only [codeMod, List.head?_cons, List.length_eq_zero]

/-- C6.  Let `W`, the list of the non-empty comma-separated entries of the `rules` option,
be non-empty.  Then a target whose rule is not in `W` is passed over by the loop, which goes
on from the same tree and the same reports; and the tree and the reports that `codeMod`
ends with are those obtained by processing, in the same order, only the targets whose rule
is in `W` (with the whitelist in force, or with none). -/
theorem codeMod_whitelist_exclusion (messages : List Message) (more : List LintResult)
    (filePath : Str) (parsed : Node) (options : Options) (W : List Str)
    (hW : W = (split (options.rules.getD []) ",".toList).filter (fun x => x ≠ []))
    (hne : W ≠ []) :
    (∀ (t : Target) (rest : List Target) (root : Node) (reports : List Report),
      t.ruleId ∉ W →
      codeModLoop filePath (commentTextOf options) (ruleIdWhitelistSetOf options)
          options.inline (t :: rest) root reports =
        codeModLoop filePath (commentTextOf options) (ruleIdWhitelistSetOf options)
          options.inline rest root reports) ∧
    codeMod (some (⟨some messages⟩ :: more)) filePath parsed options =
      (if targetsOf messages = [] then some (.unchanged, [])
      else (codeModLoop filePath (commentTextOf options) none options.inline
        ((targetsOf messages).filter (fun t => decide (t.ruleId ∈ W))) parsed []).map
        (fun r => (.source r.1, r.2))) ∧
    codeMod (some (⟨some messages⟩ :: more)) filePath parsed options =
      (if targetsOf messages = [] then some (.unchanged, [])
      else (codeModLoop filePath (commentTextOf options) (ruleIdWhitelistSetOf options)
        options.inline ((targetsOf messages).filter (fun t => decide (t.ruleId ∈ W)))
        parsed []).map (fun r => (.source r.1, r.2))) := by
  have hset : ruleIdWhitelistSetOf options = some W := by
    unfold ruleIdWhitelistSetOf
    rw [← hW, if_pos (by simpa [List.length_eq_zero] using hne)]
  rw [codeMod_of_messages, hset]
  refine ⟨?_, ?_, ?_⟩
  · intro t rest root reports ht
    exact codeModLoop_cons_excluded _ _ _ _ _ _ _ _ (by simp [isExcluded, ht])
  · rw [codeModLoop_whitelist _ _ W _ none (Or.inl rfl)]
  · rw [codeModLoop_whitelist _ _ W _ (some W) (Or.inr rfl)]

/-- C6, witness: the test of the rule whitelist.  With `rules` set to `no-unreachable`, the
`eqeqeq` error on the return statement of line 2 leaves no trace and the `no-unreachable`
error on line 3 gets its comment. -/
theorem codeMod_whitelist_exclusion_witness :
    codeMod
      (some [⟨some [⟨some "eqeqeq".toList, 2, 2⟩, ⟨some "no-unreachable".toList, 2, 3⟩]⟩])
      "index.js".toList
      (.mk ⟨"File", some ⟨1, 4⟩, none, none, none, none, []⟩
        [("program", .one (.mk ⟨"Program", some ⟨1, 4⟩, none, none, none, none, []⟩
          [("body", .many
            [.mk ⟨"ReturnStatement", some ⟨2, 2⟩, none, none, none, none, []⟩ [],
              .mk ⟨"ExpressionStatement", some ⟨3, 3⟩, none, none, none, none, []⟩ []])]))])
      ⟨none, some "no-unreachable".toList, false⟩ =
    some (.source
      (.mk ⟨"File", some ⟨1, 4⟩, none, none, none, none, []⟩
        [("program", .one (.mk ⟨"Program", some ⟨1, 4⟩, none, none, none, none, []⟩
          [("body", .many
            [.mk ⟨"ReturnStatement", some ⟨2, 2⟩, none, none, none, none, []⟩ [],
              .mk ⟨"ExpressionStatement", some ⟨3, 3⟩,
                some [⟨"Line", (" eslint-disable-next-line no-unreachable -- " ++
                  "TODO: Fix this the next time the file is edited.").toList, true, false, none⟩],
                some [], none, none, []⟩ []])]))]), []) :=
  (codeMod_whitelist_exclusion _ [] _ _ _ ["no-unreachable".toList] (by decide)
    (by decide)).2.1.trans (by decide)

theorem isTarget_eq (m : Message) :
    isTarget m = decide ((∃ r, m.ruleId = some r ∧ r ≠ []) ∧ 2 ≤ m.severity) := by
  cases hr : m.ruleId with
  | none => simp [isTarget, hr]
  | some r => by_cases h1 : r = [] <;> by_cases h2 : 2 ≤ m.severity <;> simp [isTarget, hr, h1, h2]

theorem targetsOf_eq_nil_iff (messages : List Message) :
    targetsOf messages = [] ↔
      ∀ m ∈ messages, ¬ ((∃ r, m.ruleId = some r ∧ r ≠ []) ∧ 2 ≤ m.severity) := by
  unfold targetsOf
  rw [List.map_eq_nil_iff, List.filter_eq_nil_iff]
  constructor
  · intro h m hm hc
    have := h m hm
    rw [isTarget_eq, decide_eq_true hc] at this
    exact this rfl
  · intro h m hm
    rw [isTarget_eq]
    simpa using h m hm

/-- C7.  The targets are exactly the messages that have a non-empty `ruleId` and a severity
of at least 2, in their original order, each with its rule and line.  The other messages
never matter: `codeMod` returns what it returns when they are removed from the list.  When
every message has a severity below 2 or a missing or empty `ruleId`, `codeMod` returns
`undefined` and makes no report, whatever the tree, which it does not read. -/
theorem codeMod_filters_messages (messages : List Message) (more : List LintResult)
    (filePath : Str) (parsed : Node) (options : Options) :
    targetsOf messages = messages.filterMap (fun m =>
      match m.ruleId with
      | some r => if r ≠ [] ∧ 2 ≤ m.severity then some ⟨r, m.line⟩ else none
      | none => none) ∧
    codeMod (some (⟨some messages⟩ :: more)) filePath parsed options =
      codeMod (some (⟨some (messages.filter (fun m =>
        decide ((∃ r, m.ruleId = some r ∧ r ≠ []) ∧ 2 ≤ m.severity)))⟩ :: more))
        filePath parsed options ∧
    ((∀ m ∈ messages, m.severity < 2 ∨ m.ruleId = none ∨ m.ruleId = some []) →
      ∀ anyTree : Node,
        codeMod (some (⟨some messages⟩ :: more)) filePath anyTree options =
          some (.unchanged, [])) := by
  have hchar := isTarget_eq
  have hfun : (fun m : Message =>
      decide ((∃ r, m.ruleId = some r ∧ r ≠ []) ∧ 2 ≤ m.severity)) = isTarget :=
    funext (fun m => (hchar m).symm)
  refine ⟨?_, ?_, ?_⟩
  · unfold targetsOf
    induction messages with
    | nil => rfl
    | cons m ms ih =>
      rw [List.filter_cons, List.filterMap_cons]
      cases hr : m.ruleId with
      | none => simp [isTarget, hr]; simpa using ih
      | some r =>
        by_cases h1 : r = [] <;> by_cases h2 : 2 ≤ m.severity <;>
          simp [isTarget, hr, h1, h2] <;> simpa using ih
  · rw [hfun, codeMod_of_messages, codeMod_of_messages]
    have : targetsOf (messages.filter isTarget) = targetsOf messages := by
      unfold targetsOf
      rw [List.filter_filter]
      simp
    rw [this]
  · intro h anyTree
    rw [codeMod_of_messages, if_pos]
    unfold targetsOf
    rw [List.map_eq_nil_iff, List.filter_eq_nil_iff]
    intro m hm
    rcases h m hm with h1 | h1 | h1
    · simp [isTarget]; intro _; omega
    · simp [isTarget, h1]
    · simp [isTarget, h1]

/-- C7, witness: the test that skips warnings.  A single message of severity 1 gives
`undefined`. -/
theorem codeMod_filters_messages_witness :
    codeMod (some [⟨some [⟨some "no-undef".toList, 1, 2⟩, ⟨none, 2, 1⟩]⟩]) "index.js".toList
      (.mk ⟨"File", some ⟨1, 3⟩, none, none, none, none, []⟩ [])
      ⟨none, none, false⟩ = some (.unchanged, []) :=
  (codeMod_filters_messages [⟨some "no-undef".toList, 1, 2⟩, ⟨none, 2, 1⟩] [] "index.js".toList
    (.mk ⟨"File", some ⟨1, 3⟩, none, none, none, none, []⟩ []) ⟨none, none, false⟩).2.2
    (by decide) _


/-- The loop changes nothing and reports each target that is not excluded, when every target
is excluded by the whitelist or has no node on its line. -/
theorem codeModLoop_no_mutation (filePath commentText : Str) (w : Option (List Str))
    (inline : Bool) (root : Node) :
    ∀ (targets : List Target) (reports : List Report),
      (∀ t ∈ targets, isExcluded w t.ruleId = true ∨ firstPathOnLine root t.targetLine = none) →
      codeModLoop filePath commentText w inline targets root reports =
        some (root, reports ++ (targets.filter (fun t => !isExcluded w t.ruleId)).map
          (fun t => .unableToFindNodes t.targetLine filePath t.ruleId))
  | [], reports, _ => by simp [codeModLoop]
  | t :: rest, reports, h => by
    have ih := codeModLoop_no_mutation filePath commentText w inline root rest
    by_cases hex : isExcluded w t.ruleId = true
    · rw [codeModLoop_cons_excluded _ _ _ _ _ _ _ _ hex, ih reports
        (fun t ht => h t (by simp [ht]))]
      simp [List.filter_cons, hex]
    · have hnone : firstPathOnLine root t.targetLine = none := by
        rcases h t (by simp) with h1 | h1
        · exact absurd h1 hex
        · exact h1
      rw [codeModLoop, if_neg hex, hnone]
      dsimp only
      rw [ih _ (fun t ht => h t (by simp [ht]))]
      simp [List.filter_cons, hex]

/-- C8, as amended.  `codeMod` returns `undefined` (and reports nothing) exactly when the
linter result is absent, empty or without messages, or when no message has a non-empty
`ruleId` and a severity of at least 2.  As soon as there is such a message it returns the
text printed from the tree that the loop leaves, whether or not a directive was inserted or
merged: when every target is excluded by the whitelist or has no node on its line, the
returned text is printed from the tree as parsed. -/
theorem codeMod_result_contract (results : Option (List LintResult)) (filePath : Str)
    (parsed : Node) (options : Options) :
    (codeMod results filePath parsed options = some (.unchanged, []) ↔
      ∀ messages, (results.bind List.head?).bind LintResult.messages = some messages →
        ∀ m ∈ messages, ¬ ((∃ r, m.ruleId = some r ∧ r ≠ []) ∧ 2 ≤ m.severity)) ∧
    (∀ reports, codeMod results filePath parsed options = some (.unchanged, reports) →
      reports = []) ∧
    (∀ messages, (results.bind List.head?).bind LintResult.messages = some messages →
      targetsOf messages ≠ [] →
      codeMod results filePath parsed options =
        (codeModLoop filePath (commentTextOf options) (ruleIdWhitelistSetOf options)
          options.inline (targetsOf messages) parsed []).map (fun r => (.source r.1, r.2))) ∧
    (∀ messages, (results.bind List.head?).bind LintResult.messages = some messages →
      targetsOf messages ≠ [] →
      (∀ t ∈ targetsOf messages, isExcluded (ruleIdWhitelistSetOf options) t.ruleId = true ∨
        firstPathOnLine parsed t.targetLine = none) →
      ∃ reports, codeMod results filePath parsed options = some (.source parsed, reports)) := by
  have hT := targetsOf_eq_nil_iff
  have hcases : (results.bind List.head?).bind LintResult.messages = none ∧
        codeMod results filePath parsed options = some (.unchanged, []) ∨
      ∃ messages more, results = some (⟨some messages⟩ :: more) ∧
        (results.bind List.head?).bind LintResult.messages = some messages := by
    cases results with
    | none => exact Or.inl ⟨rfl, rfl⟩
    | some rs =>
      cases rs with
      | nil => exact Or.inl ⟨rfl, rfl⟩
      | cons first more =>
        cases first with
        | mk ms =>
          cases ms with
          | none => exact Or.inl ⟨rfl, rfl⟩
          | some messages => exact Or.inr ⟨messages, more, rfl, rfl⟩
  rcases hcases with ⟨hnone, hres⟩ | ⟨messages, more, hres, hsome⟩
  · refine ⟨?_, ?_, ?_, ?_⟩
    · rw [hres, hnone]; simp
    · rw [hres]; intro reports h; simp at h; exact h
    · rw [hnone]; intro messages h; simp at h
    · rw [hnone]; intro messages h; simp at h
  · rw [hsome, hres, codeMod_of_messages]
    refine ⟨?_, ?_, ?_, ?_⟩
    · constructor
      · intro h ms hms
        simp only [Option.some.injEq] at hms
        subst hms
        by_cases ht : targetsOf messages = []
        · exact (hT messages).mp ht
        · rw [if_neg ht] at h
          cases hl : codeModLoop filePath (commentTextOf options) (ruleIdWhitelistSetOf options)
            options.inline (targetsOf messages) parsed [] <;> simp [hl] at h
      · intro h
        rw [if_pos ((hT messages).mpr (h messages rfl))]
    · intro reports h
      by_cases ht : targetsOf messages = []
      · rw [if_pos ht] at h
        simp at h
        exact h
      · rw [if_neg ht] at h
        cases hl : codeModLoop filePath (commentTextOf options) (ruleIdWhitelistSetOf options)
          options.inline (targetsOf messages) parsed [] <;> simp [hl] at h
    · intro ms hms ht
      simp only [Option.some.injEq] at hms
      subst hms
      rw [if_neg ht]
    · intro ms hms ht hall
      simp only [Option.some.injEq] at hms
      subst hms
      rw [if_neg ht, codeModLoop_no_mutation _ _ _ _ _ _ _ hall]
      exact ⟨_, rfl⟩

/-- C8, witness: a single `eqeqeq` error on a line without node gives the text of the tree
as parsed. -/
theorem codeMod_result_contract_witness :
    ∃ reports,
      codeMod (some [⟨some [⟨some "eqeqeq".toList, 2, 9⟩]⟩]) "index.js".toList
        (.mk ⟨"File", some ⟨1, 3⟩, none, none, none, none, []⟩
          [("program", .one (.mk ⟨"Program", some ⟨1, 3⟩, none, none, none, none, []⟩ []))])
        ⟨none, none, false⟩ =
      some (.source (.mk ⟨"File", some ⟨1, 3⟩, none, none, none, none, []⟩
          [("program", .one (.mk ⟨"Program", some ⟨1, 3⟩, none, none, none, none, []⟩ []))]),
        reports) :=
  (codeMod_result_contract (some [⟨some [⟨some "eqeqeq".toList, 2, 9⟩]⟩]) "index.js".toList
    (.mk ⟨"File", some ⟨1, 3⟩, none, none, none, none, []⟩
      [("program", .one (.mk ⟨"Program", some ⟨1, 3⟩, none, none, none, none, []⟩ []))])
    ⟨none, none, false⟩).2.2.2 _ rfl (by decide) (by decide)

/-- C8, counterexample to the claim as stated: with an `eqeqeq` error and the whitelist
`no-unreachable`, no directive is inserted or merged and the tree is untouched, yet `codeMod`
returns printed text and not `undefined`; and so it does for an error on a line where no
node starts. -/
theorem codeMod_result_contract_counterexample :
    codeMod (some [⟨some [⟨some "eqeqeq".toList, 2, 2⟩]⟩]) "index.js".toList
      (.mk ⟨"File", some ⟨1, 3⟩, none, none, none, none, []⟩
        [("program", .one (.mk ⟨"Program", some ⟨1, 3⟩, none, none, none, none, []⟩
          [("body", .many
            [.mk ⟨"ReturnStatement", some ⟨2, 2⟩, none, none, none, none, []⟩ []])]))])
      ⟨none, some "no-unreachable".toList, false⟩ =
    some (.source (.mk ⟨"File", some ⟨1, 3⟩, none, none, none, none, []⟩
        [("program", .one (.mk ⟨"Program", some ⟨1, 3⟩, none, none, none, none, []⟩
          [("body", .many
            [.mk ⟨"ReturnStatement", some ⟨2, 2⟩, none, none, none, none, []⟩ []])]))]), []) ∧
    codeMod (some [⟨some [⟨some "eqeqeq".toList, 2, 9⟩]⟩]) "index.js".toList
      (.mk ⟨"File", some ⟨1, 3⟩, none, none, none, none, []⟩
        [("program", .one (.mk ⟨"Program", some ⟨1, 3⟩, none, none, none, none, []⟩
          [("body", .many
            [.mk ⟨"ReturnStatement", some ⟨2, 2⟩, none, none, none, none, []⟩ []])]))])
      ⟨none, none, false⟩ =
    some (.source (.mk ⟨"File", some ⟨1, 3⟩, none, none, none, none, []⟩
        [("program", .one (.mk ⟨"Program", some ⟨1, 3⟩, none, none, none, none, []⟩
          [("body", .many
            [.mk ⟨"ReturnStatement", some ⟨2, 2⟩, none, none, none, none, []⟩ []])]))]),
      [.unableToFindNodes 9 "index.js".toList "eqeqeq".toList]) := by
  decide


/-! ## Segmentation of a text value (C10) -/

theorem substr_zero_some (s : Str) (a b : Nat) :
    substr s 0 (some ((a : Int) - (b : Int))) = s.take (a - b) := by
  simp [substr, relativeStart, Int.toNat_sub]

theorem substr_nat_none (s : Str) (k : Nat) : substr s (k : Int) none = s.drop k := by
  simp only [substr, relativeStart]
  rw [if_neg (by omega), Int.toNat_ofNat]
  by_cases h : k ≤ s.length
  · rw [Nat.min_eq_left h]
  · rw [Nat.min_eq_right (by omega), List.drop_of_length_le (le_refl _),
      List.drop_of_length_le (by omega)]

theorem trimEnd_append_drop (line : Str) :
    trimEnd line ++ line.drop (trimEnd line).length = line :=
  List.prefix_iff_eq_append.mp (List.rdropWhile_prefix isWhiteSpace line)

theorem take_append_trimStart (s : Str) :
    s.take (s.length - (trimStart s).length) ++ trimStart s = s :=
  List.suffix_iff_eq_append.mp (List.dropWhile_suffix isWhiteSpace)

theorem trimEnd_length_le (line : Str) : (trimEnd line).length ≤ line.length :=
  (List.rdropWhile_prefix isWhiteSpace line).length_le

theorem trimStart_length_le (s : Str) : (trimStart s).length ≤ s.length :=
  (List.dropWhile_suffix isWhiteSpace).length_le

/-- The fragments of one line concatenate to the line, or to nothing when the line holds
white space only, followed by a newline when the line is not the last one. -/
theorem segmentLine_flatten (linesLength : Nat) (line : Str) (lineIndex : Nat) :
    (segmentLine linesLength line lineIndex).flatten =
      (if trimEnd line = [] then [] else line) ++
        (if lineIndex ≠ linesLength - 1 then ['\n'] else []) := by
  have hnl : (if lineIndex ≠ linesLength - 1 then ["\n".toList] else []).flatten =
      (if lineIndex ≠ linesLength - 1 then ['\n'] else []) := by
    split <;> rfl
  unfold segmentLine
  simp only [List.flatten_append, hnl]
  congr 1
  by_cases hte : trimEnd line = []
  · simp [hte]
  · have hlen : (trimEnd line).length ≠ 0 := by simpa [List.length_eq_zero] using hte
    rw [if_pos hlen, if_neg hte]
    have h1 := trimEnd_append_drop line
    have h2 := take_append_trimStart (trimEnd line)
    have l1 := trimEnd_length_le line
    have l2 := trimStart_length_le (trimEnd line)
    by_cases h0 : lineIndex = 0
    · rw [if_pos h0]
      by_cases hall : (trimStart (trimEnd line)).length = line.length
      · rw [if_pos hall]; simp
      · rw [if_neg hall]
        simp only [List.flatten_append, substr_zero_some, substr_nat_none]
        by_cases ha : (trimStart (trimEnd line)).length < (trimEnd line).length
        · by_cases hb : (trimEnd line).length < line.length
          · simp only [if_pos ha, if_pos hb, List.flatten_cons, List.flatten_nil, List.append_nil]
            rw [h2, h1]
          · have hb' : line.drop (trimEnd line).length = [] :=
              List.drop_of_length_le (by omega)
            simp only [if_pos ha, if_neg hb, List.flatten_cons, List.flatten_nil, List.append_nil]
            rw [h2]
            rw [hb', List.append_nil] at h1
            exact h1
        · have ha' : (trimEnd line).take
              ((trimEnd line).length - (trimStart (trimEnd line)).length) = [] := by
            rw [show (trimEnd line).length - (trimStart (trimEnd line)).length = 0 by omega]
            rfl
          rw [ha', List.nil_append] at h2
          by_cases hb : (trimEnd line).length < line.length
          · simp only [if_neg ha, if_pos hb, List.flatten_cons, List.flatten_nil, List.append_nil,
              List.nil_append]
            rw [h2, h1]
          · exfalso
            have := congrArg List.length h2
            omega
    · rw [if_neg h0]
      by_cases hall : (trimEnd line).length = line.length
      · rw [if_pos hall]; simp
      · rw [if_neg hall]
        simp only [substr_nat_none, List.flatten_cons, List.flatten_nil, List.append_nil]
        exact h1

theorem segmentLines_flatten (linesLength : Nat) :
    ∀ (lines : List Str) (lineIndex : Nat), lineIndex + lines.length = linesLength →
      (segmentLines linesLength lineIndex lines).flatten =
        join ['\n'] (lines.map (fun l => if trimEnd l = [] then [] else l))
  | [], _, _ => rfl
  | [l], i, h => by
    have hi : i = linesLength - 1 := by simp at h; omega
    simp only [segmentLines, List.flatten_append, segmentLine_flatten, List.flatten_nil,
      List.append_nil, List.map_cons, List.map_nil, join]
    rw [if_neg (not_not.mpr hi)]
    simp
  | l :: l' :: rest, i, h => by
    have hi : i ≠ linesLength - 1 := by simp at h; omega
    have ih := segmentLines_flatten linesLength (l' :: rest) (i + 1) (by simp at h ⊢; omega)
    rw [segmentLines, List.flatten_append, segmentLine_flatten, ih, if_pos hi]
    simp only [List.map_cons, join_cons_cons]

theorem mem_join_of_mem (sep : Str) (c : Char) :
    ∀ (ls : List Str) (l : Str), l ∈ ls → c ∈ l → c ∈ join sep ls
  | [a], l, hl, hc => by
    simp only [List.mem_singleton] at hl
    subst hl
    exact hc
  | a :: b :: rest, l, hl, hc => by
    rw [join_cons_cons]
    simp only [List.mem_cons] at hl
    rcases hl with hl | hl
    · subst hl
      simp [hc]
    · have := mem_join_of_mem sep c (b :: rest) l (by simpa using hl) hc
      simp [this]

theorem split_length_of_mem (c : Char) :
    ∀ s : Str, c ∈ s → 2 ≤ (splitAux [c] 0 s).length
  | x :: xs, h => by
    rw [splitAux_cons_zero]
    by_cases hx : x = c
    · subst hx
      have hp : [x].isPrefixOf (x :: xs) = true := by simp [List.isPrefixOf]
      rw [if_pos hp]
      have := List.length_pos.mpr (splitAux_ne_nil [x] xs 0)
      show 2 ≤ (splitAux [x] 0 xs).length + 1
      omega
    · have hp : [c].isPrefixOf (x :: xs) = false := by
        simp [List.isPrefixOf, Ne.symm hx]
      rw [hp, if_neg (by simp)]
      have hc : c ∈ xs := by
        simp only [List.mem_cons] at h
        rcases h with h | h
        · exact absurd h.symm hx
        · exact h
      have := split_length_of_mem c xs hc
      rw [consHead_eq _ _ (splitAux_ne_nil _ _ _)]
      cases hs : splitAux [c] 0 xs with
      | nil => rw [hs] at this; simp at this
      | cons a t => rw [hs] at this; simpa using this

theorem trimEnd_ne_nil_of_mem (l : Str) (c : Char) (hc : c ∈ l) (hws : isWhiteSpace c = false) :
    trimEnd l ≠ [] := by
  intro h
  have h1 := trimEnd_append_drop l
  rw [h, List.length_nil, List.drop_zero, List.nil_append] at h1
  have hall : ∀ x ∈ l.reverse, isWhiteSpace x = true := by
    have : l.reverse.dropWhile isWhiteSpace = [] := by
      have := congrArg List.reverse h
      unfold trimEnd at this
      simpa using this
    exact List.dropWhile_eq_nil_iff.mp this
  have := hall c (List.mem_reverse.mpr hc)
  rw [hws] at this
  exact absurd this (by simp)


theorem segments_flatten (value : Str) :
    (segments value).flatten =
      join "\n".toList ((split value "\n".toList).map (fun l => if trimEnd l = [] then [] else l)) :=
  segmentLines_flatten _ _ 0 (by simp)

theorem segmentChildren_singleton (sibling : Node) (h : isSegmented sibling = true) :
    segmentChildren [sibling] = (segments sibling.value).map jsxText := by
  simp [segmentChildren, segmentLoop, h, splice, relativeStart]

theorem map_value_jsxText (l : List Str) : (l.map jsxText).map Node.value = l := by
  induction l with
  | nil => rfl
  | cons a t ih => simp only [List.map_cons, ih]; rfl

/-- C10, as amended.  Let the segmentation loop replace a text sibling (a `JSXText` that is
not a white-space-only text starting with a newline) whose value is empty or holds a newline
or a character that is not white space.  Then the sibling is replaced by the text nodes of
`segments`, and the concatenation of their values, in order, is the original value with
every white-space-only line emptied: the lines that hold a character that is not white space
and all the newlines are reproduced exactly, in order.  So when no line of the value is
non-empty and white-space-only the concatenation is the value itself.  The sibling is
replaced by an empty sequence only if its value was empty. -/
theorem segmentation_keeps_content (sibling : Node) (hseg : isSegmented sibling = true)
    (hvalue : sibling.value = [] ∨ '\n' ∈ sibling.value ∨
      ∃ c ∈ sibling.value, isWhiteSpace c = false) :
    segmentChildren [sibling] = (segments sibling.value).map jsxText ∧
    ((segmentChildren [sibling]).map Node.value).flatten =
      join "\n".toList ((split sibling.value "\n".toList).map
        (fun l => if trimEnd l = [] then [] else l)) ∧
    ((∀ l ∈ split sibling.value "\n".toList, trimEnd l = [] → l = []) →
      ((segmentChildren [sibling]).map Node.value).flatten = sibling.value) ∧
    (segmentChildren [sibling] = [] → sibling.value = []) := by
  have hflat := segments_flatten sibling.value
  rw [segmentChildren_singleton sibling hseg, map_value_jsxText]
  refine ⟨rfl, hflat, ?_, ?_⟩
  · intro hlines
    rw [hflat]
    have hmap : (split sibling.value "\n".toList).map (fun l => if trimEnd l = [] then [] else l) =
        split sibling.value "\n".toList := by
      conv_rhs => rw [← List.map_id (split sibling.value "\n".toList)]
      apply List.map_congr_left
      intro l hl
      by_cases ht : trimEnd l = []
      · rw [if_pos ht, hlines l hl ht]; rfl
      · rw [if_neg ht]; rfl
    rw [hmap, join_split _ _ (by decide)]
  · intro hnil
    have hsn : segments sibling.value = [] := by
      simpa using hnil
    rw [hsn] at hflat
    rcases hvalue with h | h | ⟨c, hc, hws⟩
    · exact h
    · exfalso
      have hlen := split_length_of_mem '\n' sibling.value h
      have : '\n' ∈ join "\n".toList ((split sibling.value "\n".toList).map
          (fun l => if trimEnd l = [] then [] else l)) := by
        cases hs : split sibling.value "\n".toList with
        | nil =>
          have hs' : splitAux ['\n'] 0 sibling.value = [] := hs
          rw [hs'] at hlen; simp at hlen
        | cons a t =>
          cases t with
          | nil =>
            have hs' : splitAux ['\n'] 0 sibling.value = [a] := hs
            rw [hs'] at hlen; simp at hlen
          | cons b t' =>
            simp only [List.map_cons, join_cons_cons]
            simp
      rw [← hflat] at this
      simp at this
    · exfalso
      have hjoin := join_split "\n".toList sibling.value (by decide)
      have hc' : c ∈ join "\n".toList (split sibling.value "\n".toList) := by rw [hjoin]; exact hc
      rcases mem_join _ _ _ hc' with h | ⟨l, hl, hcl⟩
      · have : c = '\n' := by simpa using h
        subst this
        exact absurd hws (by decide)
      · have hne := trimEnd_ne_nil_of_mem l c hcl hws
        have : c ∈ join "\n".toList ((split sibling.value "\n".toList).map
            (fun l => if trimEnd l = [] then [] else l)) := by
          apply mem_join_of_mem _ _ _ (if trimEnd l = [] then [] else l)
          · exact List.mem_map.mpr ⟨l, hl, rfl⟩
          · rw [if_neg hne]; exact hcl
        rw [← hflat] at this
        simp at this

/-- C10, witness: the text ` next to some text` followed by a newline and an indentation of
two spaces is cut into white space, content, newline; the indentation of the last line is
not kept. -/
theorem segmentation_keeps_content_witness :
    ((segmentChildren [jsxText " next to some text\n  ".toList]).map Node.value).flatten =
      join "\n".toList ((split " next to some text\n  ".toList "\n".toList).map
        (fun l => if trimEnd l = [] then [] else l)) :=
  (segmentation_keeps_content (jsxText " next to some text\n  ".toList) (by decide)
    (Or.inr (Or.inl (by decide)))).2.1

/-- C10, counterexample to the claim as stated: the text `Some text`, newline, six spaces
(the text after the self-closing element of the test on trailing text) is split, and its
fragments concatenate to `Some text` and the newline only; and a text made of one space is
split into no fragment at all. -/
theorem segmentation_keeps_content_counterexample :
    isSegmented (jsxText "Some text\n      ".toList) = true ∧
    (segmentChildren [jsxText "Some text\n      ".toList]).map Node.value =
      ["Some text".toList, "\n".toList] ∧
    ((segmentChildren [jsxText "Some text\n      ".toList]).map Node.value).flatten ≠
      "Some text\n      ".toList ∧
    isSegmented (jsxText " ".toList) = true ∧
    segmentChildren [jsxText " ".toList] = [] := by
  decide


/-! ## Paths and write-back -/

theorem setFieldAt_self (k : String) (v : FieldValue) :
    ∀ (pre rest : List (String × FieldValue)),
      setFieldAt v pre.length (pre ++ (k, v) :: rest) = pre ++ (k, v) :: rest
  | [], _ => rfl
  | f :: pre, rest => by
    rw [List.cons_append, List.length_cons, setFieldAt, setFieldAt_self k v pre rest]

theorem get?_append_length {α : Type} (x : α) (rest : List α) :
    ∀ pre : List α, (pre ++ x :: rest).get? pre.length = some x
  | [] => rfl
  | _ :: pre => by
    rw [List.cons_append, List.length_cons, List.get?_cons_succ]
    exact get?_append_length x rest pre

theorem set_append_length {α : Type} (pre : List α) (x : α) (rest : List α) :
    (pre ++ x :: rest).set pre.length x = pre ++ x :: rest := by
  simp

theorem Node.mk_attrs_fields (n : Node) : Node.mk n.attrs n.fields = n := by
  cases n; rfl

theorem Node.setChild_one_self (parent : Node) (pre rest : List (String × FieldValue))
    (k : String) (c : Node) (h : parent.fields = pre ++ (k, .one c) :: rest) :
    parent.setChild ⟨pre.length, none⟩ c = parent := by
  simp only [Node.setChild, h, get?_append_length, Node.setField, setFieldAt_self]
  rw [← h, Node.mk_attrs_fields]

theorem Node.setChild_many_self (parent : Node) (pre rest : List (String × FieldValue))
    (k : String) (before after : List Node) (c : Node)
    (h : parent.fields = pre ++ (k, .many (before ++ c :: after)) :: rest) :
    parent.setChild ⟨pre.length, some before.length⟩ c = parent := by
  simp only [Node.setChild, h, get?_append_length, Node.setField, set_append_length,
    setFieldAt_self]
  rw [← h, Node.mk_attrs_fields]

mutual
/-- Writing a descendant back at its path gives the tree it was found in. -/
theorem rebuild_node_descendant (up : List (Step × Node)) (n : Node) (p : NodePath)
    (hp : p ∈ Node.descendants up n) : rebuild p.value p.up = rebuild n up := by
  match n with
  | .mk a fs =>
    rw [Node.descendants] at hp
    exact rebuild_fields_descendant (.mk a fs) up [] fs p rfl hp
termination_by structural n
theorem rebuild_fields_descendant (parent : Node) (up : List (Step × Node))
    (pre fs : List (String × FieldValue)) (p : NodePath) (hf : parent.fields = pre ++ fs)
    (hp : p ∈ fieldsDescendants parent up pre.length fs) :
    rebuild p.value p.up = rebuild parent up := by
  match fs with
  | [] => simp [fieldsDescendants] at hp
  | (k, v) :: rest =>
    rw [fieldsDescendants, List.mem_append] at hp
    rcases hp with hp | hp
    · exact rebuild_field_descendant parent up pre rest k v p hf hp
    · exact rebuild_fields_descendant parent up (pre ++ [(k, v)]) rest p (by simp [hf])
        (by simpa using hp)
termination_by structural fs
theorem rebuild_field_descendant (parent : Node) (up : List (Step × Node))
    (pre rest : List (String × FieldValue)) (k : String) (v : FieldValue) (p : NodePath)
    (hf : parent.fields = pre ++ (k, v) :: rest)
    (hp : p ∈ FieldValue.descendants parent up pre.length v) :
    rebuild p.value p.up = rebuild parent up := by
  match v with
  | .one c =>
    rw [FieldValue.descendants, List.mem_cons] at hp
    have hself : rebuild c ((⟨pre.length, none⟩, parent) :: up) = rebuild parent up := by
      rw [rebuild, Node.setChild_one_self parent pre rest k c hf]
    rcases hp with hp | hp
    · rw [hp]; exact hself
    · rw [rebuild_node_descendant _ c p hp]; exact hself
  | .many cs =>
    rw [FieldValue.descendants] at hp
    exact rebuild_nodes_descendant parent up pre rest k cs [] cs p rfl hf hp
termination_by structural v
theorem rebuild_nodes_descendant (parent : Node) (up : List (Step × Node))
    (pre rest : List (String × FieldValue)) (k : String) (all before cs : List Node)
    (p : NodePath) (hall : all = before ++ cs)
    (hf : parent.fields = pre ++ (k, .many all) :: rest)
    (hp : p ∈ nodesDescendants parent up pre.length before.length cs) :
    rebuild p.value p.up = rebuild parent up := by
  match cs with
  | [] => simp [nodesDescendants] at hp
  | c :: after =>
    rw [nodesDescendants, List.mem_append, List.mem_cons] at hp
    have hself : rebuild c ((⟨pre.length, some before.length⟩, parent) :: up) =
        rebuild parent up := by
      rw [rebuild, Node.setChild_many_self parent pre rest k before after c (by rw [hf, hall])]
    rcases hp with (hp | hp) | hp
    · rw [hp]; exact hself
    · rw [rebuild_node_descendant _ c p hp]; exact hself
    · exact rebuild_nodes_descendant parent up pre rest k all (before ++ [c]) after p
        (by simp [hall]) hf (by simpa using hp)
termination_by structural cs
end

/-- A path returned by `find` writes back to the tree that was searched. -/
theorem rebuild_of_mem_find (root : Node) (filter : Node → Bool) (p : NodePath)
    (hp : p ∈ find root filter) : rebuild p.value p.up = root :=
  rebuild_node_descendant [] root p (List.mem_filter.mp hp).1

/-! ## The conditional branch (C11, C12) -/

theorem conditionalTail_of_not_if (parent : Node) (step : Step)
    (h : parent.type ≠ "IfStatement") : conditionalTail parent step = some none := by
  unfold conditionalTail
  rw [if_neg (fun hc => h hc.1)]

theorem conditionalTail_of_alternate (parent consequent : Node) (step : Step) (pos : Nat)
    (hif : parent.type = "IfStatement") (halt : isAlternate parent step = true)
    (hcons : parent.field? "consequent" = some (pos, .one consequent))
    (hblock : consequent.type = "BlockStatement") :
    conditionalTail parent step = some (some (pos, consequent)) := by
  unfold conditionalTail
  rw [if_pos ⟨hif, halt⟩, hcons]
  dsimp only
  rw [if_pos hblock]

theorem findField_get? (name : String) (v : FieldValue) :
    ∀ (fs : List (String × FieldValue)) (start p : Nat),
      findField name start fs = some (p, v) →
        start ≤ p ∧ fs.get? (p - start) = some (name, v)
  | [], _, _, h => by simp [findField] at h
  | (k, w) :: rest, start, p, h => by
    rw [findField] at h
    by_cases hk : k = name
    · rw [if_pos hk] at h
      simp only [Option.some.injEq, Prod.mk.injEq] at h
      obtain ⟨h1, h2⟩ := h
      subst h1 h2 hk
      simp
    · rw [if_neg hk] at h
      obtain ⟨h1, h2⟩ := findField_get? name v rest (start + 1) p h
      refine ⟨by omega, ?_⟩
      have : p - start = (p - (start + 1)) + 1 := by omega
      rw [this, List.get?_cons_succ]
      exact h2

theorem findField_setFieldAt (name : String) (v v2 : FieldValue) :
    ∀ (fs : List (String × FieldValue)) (start p : Nat),
      findField name start fs = some (p, v) →
        findField name start (setFieldAt v2 (p - start) fs) = some (p, v2)
  | [], _, _, h => by simp [findField] at h
  | (k, w) :: rest, start, p, h => by
    rw [findField] at h
    by_cases hk : k = name
    · rw [if_pos hk] at h
      simp only [Option.some.injEq, Prod.mk.injEq] at h
      obtain ⟨h1, h2⟩ := h
      subst h1
      simp [setFieldAt, findField, hk]
    · rw [if_neg hk] at h
      have hle := (findField_get? name v rest (start + 1) p h).1
      have : p - start = (p - (start + 1)) + 1 := by omega
      rw [this, setFieldAt, findField, if_neg hk]
      exact findField_setFieldAt name v v2 rest (start + 1) p h

theorem Node.field?_setField (n : Node) (name : String) (pos : Nat) (v v2 : FieldValue)
    (h : n.field? name = some (pos, v)) : (n.setField pos v2).field? name = some (pos, v2) := by
  have := findField_setFieldAt name v v2 n.fields 0 pos h
  simpa [Node.field?, Node.setField, Node.fields] using this

theorem setFieldAt_setFieldAt (v v2 : FieldValue) :
    ∀ (pos : Nat) (fs : List (String × FieldValue)),
      setFieldAt v2 pos (setFieldAt v pos fs) = setFieldAt v2 pos fs
  | 0, [] => rfl
  | _ + 1, [] => rfl
  | 0, (k, w) :: rest => rfl
  | pos + 1, f :: rest => by
    rw [setFieldAt, setFieldAt, setFieldAt, setFieldAt_setFieldAt v v2 pos rest]

theorem Node.setField_setField (n : Node) (pos : Nat) (v v2 : FieldValue) :
    (n.setField pos v).setField pos v2 = n.setField pos v2 := by
  simp [Node.setField, Node.fields, Node.attrs, setFieldAt_setFieldAt]

theorem get?_setFieldAt_ne (v : FieldValue) :
    ∀ (pos q : Nat) (fs : List (String × FieldValue)), q ≠ pos →
      (setFieldAt v pos fs).get? q = fs.get? q
  | 0, _, [], _ => rfl
  | _ + 1, _, [], _ => rfl
  | 0, 0, _ :: _, h => absurd rfl h
  | 0, q + 1, (k, w) :: rest, _ => rfl
  | pos + 1, 0, f :: rest, _ => rfl
  | pos + 1, q + 1, f :: rest, h => by
    rw [setFieldAt, List.get?_cons_succ, List.get?_cons_succ]
    exact get?_setFieldAt_ne v pos q rest (by omega)

/-- The alternate of a conditional statement is not held by the field of its consequent. -/
theorem alternate_ne_consequent (parent : Node) (step : Step) (pos : Nat) (v : FieldValue)
    (halt : isAlternate parent step = true)
    (hcons : parent.field? "consequent" = some (pos, v)) : step.field ≠ pos := by
  unfold isAlternate at halt
  split at halt
  · rename_i p a ha
    simp only [decide_eq_true_eq] at halt
    have h1 := (findField_get? _ _ _ _ _ ha).2
    have h2 := (findField_get? _ _ _ _ _ hcons).2
    intro he
    have hp : p = pos := halt.1.trans he
    rw [hp, h2] at h1
    simp at h1
  · cases halt

theorem addDisableComment_conditional (filePath commentText : Str) (targetLine : Nat)
    (ruleId : Str) (path : NodePath) (inline : Bool) (target parent consequent : Node)
    (step : Step) (rest : List (Step × Node)) (pos : Nat)
    (hasc : ascend targetLine path.value path.up = ⟨target, (step, parent) :: rest⟩)
    (hif : parent.type = "IfStatement") (halt : isAlternate parent step = true)
    (hcons : parent.field? "consequent" = some (pos, .one consequent))
    (hblock : consequent.type = "BlockStatement") :
    addDisableComment filePath commentText targetLine ruleId path inline =
      (addDisableCommentConsequent commentText ruleId consequent).map
        (fun c => (rebuild (parent.setField pos (.one c)) rest, [])) := by
  simp only [addDisableComment, hasc,
    conditionalTail_of_alternate parent consequent step pos hif halt hcons hblock]

theorem addDisableCommentConsequent_of_last (commentText ruleId : Str) (consequent : Node)
    (bodyPos : Nat) (body : List Node) (last : Node)
    (hbody : consequent.field? "body" = some (bodyPos, .many (body ++ [last]))) :
    addDisableCommentConsequent commentText ruleId consequent =
      some (consequent.setField bodyPos
        (.many (body ++ [annotateLastStatement commentText ruleId last]))) := by
  unfold addDisableCommentConsequent
  rw [hbody]
  dsimp only
  rw [if_neg (by simp), if_neg (by simp)]
  simp

theorem annotateLastStatement_of_no_directive (commentText ruleId : Str) (last : Node)
    (h : endsInDirective last.attrs.trailingComments = false) :
    annotateLastStatement commentText ruleId last =
      last.setAttrs { last.attrs with
        comments := some (last.attrs.comments.getD [] ++
          [⟨"CommentLine", " eslint-disable-next-line ".toList ++ ruleId ++ " -- ".toList ++
            commentText, false, true, some (freshRef last.attrs)⟩])
        trailingComments := some (last.attrs.trailingComments.getD [] ++
          [⟨"CommentLine", " eslint-disable-next-line ".toList ++ ruleId ++ " -- ".toList ++
            commentText, false, true, some (freshRef last.attrs)⟩]) } := by
  unfold annotateLastStatement
  dsimp only
  rw [tryRewriteEslintDisable_of_not_directive _ ruleId h]
  simp [createTrailingComment, nextLineDirective]

theorem annotateLastStatement_of_directiveText (commentText ruleId : Str) (last : Node)
    (cs : List Comment) (c : Comment) (K : Str) (rs : List Str) (E : Option Str) (pad : Str)
    (htrail : last.attrs.trailingComments = some (cs ++ [c]))
    (hK : K = "eslint-disable-line".toList ∨ K = "eslint-disable-next-line".toList)
    (hrs : rs ≠ [])
    (hr : ∀ r ∈ rs, ',' ∉ r ∧ (∀ x ∈ r, isWhiteSpace x = false) ∧ ¬ "--".toList <:+: r)
    (hpad : ∀ x ∈ pad, isWhiteSpace x = true ∧ isLineTerminator x = false)
    (hE : ∀ e, E = some e → ∀ x ∈ e, isLineTerminator x = false)
    (hv : c.value = directiveText K rs E ++ pad)
    (hnew : ruleId ∉ rs) :
    annotateLastStatement commentText ruleId last =
      last.setAttrs
        { shareRewritten last.attrs (some { c with
            value := directiveText K (rs ++ [ruleId]) (E.map trim) ++
              (if c.type = "CommentBlock" then " ".toList else []) }) with
          trailingComments := some (cs ++ [{ c with
            value := directiveText K (rs ++ [ruleId]) (E.map trim) ++
              (if c.type = "CommentBlock" then " ".toList else []) }]) } := by
  obtain ⟨h1, h2⟩ := merge_of_directiveText cs c K rs E pad ruleId hK hrs hr hpad hE hv hnew
  simp only [annotateLastStatement, htrail, h1, h2, if_true]

theorem Node.setAttrs_attrs (n : Node) : n.setAttrs n.attrs = n := by
  cases n; rfl

theorem annotateLastStatement_of_listed (commentText ruleId : Str) (last : Node)
    (cs : List Comment) (c : Comment) (m : RegExpMatch)
    (htrail : last.attrs.trailingComments = some (cs ++ [c]))
    (hm : eslintDisableRegexp c.value = some m) (hlisted : ruleId ∈ disabledRules m) :
    annotateLastStatement commentText ruleId last = last := by
  have h1 := tryRewriteEslintDisable_of_match cs c m ruleId hm
  rw [if_pos (Or.inr hlisted)] at h1
  have h2 := rewrittenComment_of_listed cs c m ruleId hm hlisted
  simp only [annotateLastStatement, htrail, h1, h2, if_true, shareRewritten]
  rw [← htrail]
  exact Node.setAttrs_attrs last

/-- The first directive placed in an empty consequent: a placeholder is pushed and receives
the new trailing comment, one object listed in `comments` and in `trailingComments`. -/
theorem addDisableCommentConsequent_first (commentText ruleId : Str) (consequent : Node)
    (bodyPos : Nat)
    (hbody : consequent.field? "body" = some (bodyPos, .many []))
    (hinner : endsInDirective consequent.attrs.innerComments = false) :
    addDisableCommentConsequent commentText ruleId consequent =
      some (consequent.setField bodyPos (.many
        [.mk ⟨"Noop", none,
          some [⟨"CommentLine", " eslint-disable-next-line ".toList ++
            join ", ".toList [ruleId] ++ " -- ".toList ++ commentText, false, true, some 0⟩],
          none,
          some [⟨"CommentLine", " eslint-disable-next-line ".toList ++
            join ", ".toList [ruleId] ++ " -- ".toList ++ commentText, false, true, some 0⟩],
          none, []⟩ []])) := by
  unfold addDisableCommentConsequent
  rw [hbody]
  dsimp only
  rw [tryRewriteEslintDisable_fst, hinner, if_neg (by simp), if_pos (by simp)]
  simp only [List.nil_append, List.getLast?_singleton, List.dropLast_single]
  rw [annotateLastStatement_of_no_directive _ _ _ (by rfl)]
  rfl

/-- A further directive placed in that consequent: the rule is merged into the trailing
comment of the placeholder, and `comments`, which lists the same object, shows the new
text. -/
theorem addDisableCommentConsequent_next (commentText ruleId : Str) (done : List Str)
    (consequent : Node) (bodyPos : Nat) (v : FieldValue)
    (hbody : consequent.field? "body" = some (bodyPos, v))
    (hdone : done ≠ [])
    (hr : ∀ r ∈ done, ',' ∉ r ∧ (∀ x ∈ r, isWhiteSpace x = false) ∧ ¬ "--".toList <:+: r)
    (hM1 : trim commentText = commentText)
    (hM2 : ∀ x ∈ commentText, isLineTerminator x = false)
    (hnew : ruleId ∉ done) :
    addDisableCommentConsequent commentText ruleId
      (consequent.setField bodyPos (.many
        [.mk ⟨"Noop", none,
          some [⟨"CommentLine", " eslint-disable-next-line ".toList ++
            join ", ".toList done ++ " -- ".toList ++ commentText, false, true, some 0⟩],
          none,
          some [⟨"CommentLine", " eslint-disable-next-line ".toList ++
            join ", ".toList done ++ " -- ".toList ++ commentText, false, true, some 0⟩],
          none, []⟩ []])) =
      some (consequent.setField bodyPos (.many
        [.mk ⟨"Noop", none,
          some [⟨"CommentLine", " eslint-disable-next-line ".toList ++
            join ", ".toList (done ++ [ruleId]) ++ " -- ".toList ++ commentText, false, true,
            some 0⟩],
          none,
          some [⟨"CommentLine", " eslint-disable-next-line ".toList ++
            join ", ".toList (done ++ [ruleId]) ++ " -- ".toList ++ commentText, false, true,
            some 0⟩],
          none, []⟩ []])) := by
  have hmerge := annotateLastStatement_of_directiveText commentText ruleId
    (.mk ⟨"Noop", none,
      some [⟨"CommentLine", " eslint-disable-next-line ".toList ++
        join ", ".toList done ++ " -- ".toList ++ commentText, false, true, some 0⟩],
      none,
      some [⟨"CommentLine", " eslint-disable-next-line ".toList ++
        join ", ".toList done ++ " -- ".toList ++ commentText, false, true, some 0⟩],
      none, []⟩ []) []
    ⟨"CommentLine", " eslint-disable-next-line ".toList ++
      join ", ".toList done ++ " -- ".toList ++ commentText, false, true, some 0⟩
    "eslint-disable-next-line".toList done (some commentText) [] rfl (Or.inr rfl) hdone hr
    (by simp) (by intro e he; cases he; exact hM2) (by simp [directiveText]) hnew
  unfold addDisableCommentConsequent
  rw [Node.field?_setField consequent "body" bodyPos v _ hbody]
  dsimp only
  rw [if_neg (by simp), if_neg (by simp)]
  simp only [List.getLast?_singleton, List.dropLast_single, List.nil_append,
    Node.setField_setField, hmerge]
  simp [Node.setAttrs, Node.attrs, Node.fields, shareRewritten, assignValue, Comment.assigned,
    directiveText, hM1]

theorem addDisableCommentConsequent_fold (commentText : Str) (consequent : Node)
    (bodyPos : Nat) (v : FieldValue)
    (hbody : consequent.field? "body" = some (bodyPos, v))
    (hM1 : trim commentText = commentText)
    (hM2 : ∀ x ∈ commentText, isLineTerminator x = false) :
    ∀ (todo done : List Str), done ≠ [] →
      (∀ r ∈ done ++ todo,
        ',' ∉ r ∧ (∀ x ∈ r, isWhiteSpace x = false) ∧ ¬ "--".toList <:+: r) →
      (done ++ todo).Nodup →
      todo.foldlM (fun c r => addDisableCommentConsequent commentText r c)
        (consequent.setField bodyPos (.many
          [.mk ⟨"Noop", none,
            some [⟨"CommentLine", " eslint-disable-next-line ".toList ++
              join ", ".toList done ++ " -- ".toList ++ commentText, false, true, some 0⟩],
            none,
            some [⟨"CommentLine", " eslint-disable-next-line ".toList ++
              join ", ".toList done ++ " -- ".toList ++ commentText, false, true, some 0⟩],
            none, []⟩ []])) =
        some (consequent.setField bodyPos (.many
          [.mk ⟨"Noop", none,
            some [⟨"CommentLine", " eslint-disable-next-line ".toList ++
              join ", ".toList (done ++ todo) ++ " -- ".toList ++ commentText, false, true,
              some 0⟩],
            none,
            some [⟨"CommentLine", " eslint-disable-next-line ".toList ++
              join ", ".toList (done ++ todo) ++ " -- ".toList ++ commentText, false, true,
              some 0⟩],
            none, []⟩ []]))
  | [], done, _, _, _ => by simp
  | r :: todo, done, hdone, hr, hnd => by
    have hnew : r ∉ done := by
      intro hmem
      have := List.nodup_append.mp hnd
      exact this.2.2 hmem (List.mem_cons_self _ _)
    rw [List.foldlM_cons, addDisableCommentConsequent_next commentText r done consequent
      bodyPos v hbody hdone (fun x hx => hr x (List.mem_append_left _ hx)) hM1 hM2 hnew]
    have ih := addDisableCommentConsequent_fold commentText consequent bodyPos v hbody hM1 hM2
      todo (done ++ [r]) (by simp) (by simpa using hr) (by simpa using hnd)
    simpa using ih

/-- C11.  Let the consequent of the conditional be a block with an empty body whose inner
comments do not end in a directive, let `r1, ..., rk` be distinct rules, each non-empty and
free of commas, white space and `--`, and let the message `M` be trimmed and without line
terminator.  Placing the directives for `r1, ..., rk` in that order in the consequent, as the
conditional branch of `addDisableComment` does, leaves a body of exactly one statement, the
placeholder of `noop()`, whose trailing comments are exactly one comment, of the text
` eslint-disable-next-line r1, ..., rk -- M`; `comments` of the placeholder, from which the
tree is printed, lists that one object and nothing else, so it shows the same text.  For
every path whose ascended target is the alternate of the conditional, `addDisableComment`
changes nothing but the consequent in this way: the properties of the conditional and the
field of its alternate are as before, and nothing is reported. -/
theorem addDisableComment_empty_consequent (commentText r1 : Str) (rs : List Str)
    (consequent : Node) (bodyPos : Nat)
    (hbody : consequent.field? "body" = some (bodyPos, .many []))
    (hinner : endsInDirective consequent.attrs.innerComments = false)
    (hr : ∀ r ∈ r1 :: rs,
      r ≠ [] ∧ ',' ∉ r ∧ (∀ x ∈ r, isWhiteSpace x = false) ∧ ¬ "--".toList <:+: r)
    (hdistinct : (r1 :: rs).Nodup)
    (hM1 : trim commentText = commentText)
    (hM2 : ∀ x ∈ commentText, isLineTerminator x = false) :
    (r1 :: rs).foldlM (fun c r => addDisableCommentConsequent commentText r c) consequent =
      some (consequent.setField bodyPos (.many
        [.mk ⟨"Noop", none,
          some [⟨"CommentLine", " eslint-disable-next-line ".toList ++
            join ", ".toList (r1 :: rs) ++ " -- ".toList ++ commentText, false, true, some 0⟩],
          none,
          some [⟨"CommentLine", " eslint-disable-next-line ".toList ++
            join ", ".toList (r1 :: rs) ++ " -- ".toList ++ commentText, false, true, some 0⟩],
          none, []⟩ []])) ∧
    (∀ (filePath : Str) (targetLine : Nat) (ruleId : Str) (path : NodePath) (inline : Bool)
      (target parent current : Node) (step : Step) (rest : List (Step × Node)) (pos : Nat),
      ascend targetLine path.value path.up = ⟨target, (step, parent) :: rest⟩ →
      parent.type = "IfStatement" → isAlternate parent step = true →
      parent.field? "consequent" = some (pos, .one current) →
      current.type = "BlockStatement" →
      addDisableComment filePath commentText targetLine ruleId path inline =
          (addDisableCommentConsequent commentText ruleId current).map
            (fun c => (rebuild (parent.setField pos (.one c)) rest, [])) ∧
        ∀ c, (parent.setField pos c).attrs = parent.attrs ∧
          (parent.setField pos c).fields.get? step.field = parent.fields.get? step.field) := by
  constructor
  · rw [List.foldlM_cons, addDisableCommentConsequent_first commentText r1 consequent bodyPos
      hbody hinner]
    have := addDisableCommentConsequent_fold commentText consequent bodyPos _ hbody hM1 hM2
      rs [r1] (by simp) (fun r h => (hr r (by simpa using h)).2) (by simpa using hdistinct)
    simpa using this
  · intro filePath targetLine ruleId path inline target parent current step rest pos hasc hif
      halt hcons hblock
    refine ⟨addDisableComment_conditional filePath commentText targetLine ruleId path inline
      target parent current step rest pos hasc hif halt hcons hblock, fun c => ⟨rfl, ?_⟩⟩
    exact get?_setFieldAt_ne c pos step.field parent.fields
      (alternate_ne_consequent parent step pos _ halt hcons)

/-- C11, witness: the empty block of the test on several violations in an `else if`
condition receives `eqeqeq` and then `no-undef`, with the default message; and the whole
transform on that statement, with the two errors on line 3 and the whitelist of the test,
leaves the placeholder with that one comment, in `comments` and in `trailingComments`, in the
consequent and nothing on the alternate. -/
theorem addDisableComment_empty_consequent_witness :
    ["eqeqeq".toList, "no-undef".toList].foldlM
        (fun c r => addDisableCommentConsequent defaultMessage r c)
        (.mk ⟨"BlockStatement", some ⟨2, 3⟩, none, none, none, none, []⟩ [("body", .many [])]) =
      some (.mk ⟨"BlockStatement", some ⟨2, 3⟩, none, none, none, none, []⟩
        [("body", .many [.mk ⟨"Noop", none,
          some [⟨"CommentLine", (" eslint-disable-next-line eqeqeq, no-undef -- " ++
            "TODO: Fix this the next time the file is edited.").toList, false, true, some 0⟩],
          none,
          some [⟨"CommentLine", (" eslint-disable-next-line eqeqeq, no-undef -- " ++
            "TODO: Fix this the next time the file is edited.").toList, false, true, some 0⟩],
          none, []⟩ []])]) ∧
    codeMod (some [⟨some [⟨some "eqeqeq".toList, 2, 3⟩, ⟨some "no-undef".toList, 2, 3⟩]⟩])
        "a.js".toList
        (fileOf 8 [parsed "IfStatement" 2 5
          [("test", .one (parsed "BinaryExpression" 2 2 [])),
            ("consequent", .one (parsed "BlockStatement" 2 3 [("body", .many [])])),
            ("alternate", .one (parsed "IfStatement" 3 5
              [("test", .one (parsed "BinaryExpression" 3 3 [])),
                ("consequent", .one (parsed "BlockStatement" 3 5
                  [("body", .many [parsed "ReturnStatement" 4 4 []])]))]))]])
        ⟨none, some "eqeqeq,no-undef".toList, false⟩ =
      some (.source (fileOf 8 [parsed "IfStatement" 2 5
          [("test", .one (parsed "BinaryExpression" 2 2 [])),
            ("consequent", .one (parsed "BlockStatement" 2 3
              [("body", .many [.mk ⟨"Noop", none,
                some [⟨"CommentLine", (" eslint-disable-next-line eqeqeq, no-undef -- " ++
                  "TODO: Fix this the next time the file is edited.").toList, false, true,
                  some 0⟩],
                none,
                some [⟨"CommentLine", (" eslint-disable-next-line eqeqeq, no-undef -- " ++
                  "TODO: Fix this the next time the file is edited.").toList, false, true,
                  some 0⟩],
                none, []⟩ []])])),
            ("alternate", .one (parsed "IfStatement" 3 5
              [("test", .one (parsed "BinaryExpression" 3 3 [])),
                ("consequent", .one (parsed "BlockStatement" 3 5
                  [("body", .many [parsed "ReturnStatement" 4 4 []])]))]))]]), []) :=
  ⟨(addDisableComment_empty_consequent defaultMessage "eqeqeq".toList ["no-undef".toList]
    (.mk ⟨"BlockStatement", some ⟨2, 3⟩, none, none, none, none, []⟩ [("body", .many [])]) 0
    rfl rfl (by decide) (by decide) (by decide) (by decide)).1.trans (by decide), by decide⟩

/-- C12, the behaviour of the code.  Let the ascended target be the alternate of an
`IfStatement` whose consequent is a block with at least one statement, `last` being the last
one.  Then the tree that results is the old tree with that one statement replaced by what the
end of the conditional branch makes of it, and nothing is reported.  When the trailing
comments of `last` do not end in a directive, one new comment with the text
` eslint-disable-next-line r -- M` is appended to them, and the same object to `comments`.
When they end in a comment `c` whose text is a directive ` K r1, ..., rn`, followed by white
space or by ` -- E`, that does not list the rule, the text of `c` becomes
` K r1, ..., rn, r`, followed by ` -- ` and `E` trimmed when there was an explanation (and by
a space for a block comment), in `trailingComments` and in every slot that lists the same
object; so `comments`, which lists it once, shows the rewritten comment in its place, and no
comment is added.  When `c` is a directive that lists the rule, the statement is unchanged.
In every case the child fields, the type and the span of `last` are as before; the other
statements of the consequent are the same, in the same number; the properties of the
consequent and of the `IfStatement`, their comment lists among them, and the field that
holds the alternate are unchanged. -/
theorem addDisableComment_nonempty_consequent (filePath commentText : Str) (targetLine : Nat)
    (ruleId : Str) (path : NodePath) (inline : Bool) (target parent consequent : Node)
    (step : Step) (rest : List (Step × Node)) (pos bodyPos : Nat) (body : List Node)
    (last : Node)
    (hasc : ascend targetLine path.value path.up = ⟨target, (step, parent) :: rest⟩)
    (hif : parent.type = "IfStatement") (halt : isAlternate parent step = true)
    (hcons : parent.field? "consequent" = some (pos, .one consequent))
    (hblock : consequent.type = "BlockStatement")
    (hbody : consequent.field? "body" = some (bodyPos, .many (body ++ [last]))) :
    addDisableComment filePath commentText targetLine ruleId path inline =
      some (rebuild (parent.setField pos (.one (consequent.setField bodyPos (.many (body ++
        [annotateLastStatement commentText ruleId last]))))) rest, []) ∧
    (endsInDirective last.attrs.trailingComments = false →
      annotateLastStatement commentText ruleId last =
        last.setAttrs { last.attrs with
          comments := some (last.attrs.comments.getD [] ++
            [⟨"CommentLine", " eslint-disable-next-line ".toList ++ ruleId ++
              " -- ".toList ++ commentText, false, true, some (freshRef last.attrs)⟩])
          trailingComments := some (last.attrs.trailingComments.getD [] ++
            [⟨"CommentLine", " eslint-disable-next-line ".toList ++ ruleId ++
              " -- ".toList ++ commentText, false, true, some (freshRef last.attrs)⟩]) }) ∧
    (∀ (cs : List Comment) (c : Comment) (K : Str) (rs : List Str) (E : Option Str)
      (pad : Str),
      last.attrs.trailingComments = some (cs ++ [c]) →
      (K = "eslint-disable-line".toList ∨ K = "eslint-disable-next-line".toList) →
      rs ≠ [] →
      (∀ r ∈ rs, r ≠ [] ∧ ',' ∉ r ∧ (∀ x ∈ r, isWhiteSpace x = false) ∧
        ¬ "--".toList <:+: r) →
      (∀ x ∈ pad, isWhiteSpace x = true ∧ isLineTerminator x = false) →
      (∀ e, E = some e → ∀ x ∈ e, isLineTerminator x = false) →
      c.value = directiveText K rs E ++ pad →
      ruleId ∉ rs →
      annotateLastStatement commentText ruleId last =
        last.setAttrs
          { shareRewritten last.attrs (some { c with
              value := directiveText K (rs ++ [ruleId]) (E.map trim) ++
                (if c.type = "CommentBlock" then " ".toList else []) }) with
            trailingComments := some (cs ++ [{ c with
              value := directiveText K (rs ++ [ruleId]) (E.map trim) ++
                (if c.type = "CommentBlock" then " ".toList else []) }]) } ∧
      (c.ref ≠ none → ∀ before after, last.attrs.comments = some (before ++ c :: after) →
        (∀ x ∈ before ++ after, x.ref ≠ c.ref) →
        (annotateLastStatement commentText ruleId last).attrs.comments =
          some (before ++ { c with
            value := directiveText K (rs ++ [ruleId]) (E.map trim) ++
              (if c.type = "CommentBlock" then " ".toList else []) } :: after))) ∧
    (∀ (cs : List Comment) (c : Comment) (m : RegExpMatch),
      last.attrs.trailingComments = some (cs ++ [c]) →
      eslintDisableRegexp c.value = some m → ruleId ∈ disabledRules m →
      annotateLastStatement commentText ruleId last = last) ∧
    ((annotateLastStatement commentText ruleId last).fields = last.fields ∧
      (annotateLastStatement commentText ruleId last).type = last.type ∧
      (annotateLastStatement commentText ruleId last).loc = last.loc) ∧
    (∀ c, (consequent.setField bodyPos c).attrs = consequent.attrs) ∧
    (∀ c, (parent.setField pos c).attrs = parent.attrs ∧
      (parent.setField pos c).fields.get? step.field = parent.fields.get? step.field) := by
  refine ⟨?_, annotateLastStatement_of_no_directive commentText ruleId last, ?_,
    fun cs c m h1 h2 h3 => annotateLastStatement_of_listed commentText ruleId last cs c m h1 h2 h3,
    ?_, fun c => rfl, fun c => ⟨rfl, ?_⟩⟩
  · rw [addDisableComment_conditional filePath commentText targetLine ruleId path inline target
      parent consequent step rest pos hasc hif halt hcons hblock,
      addDisableCommentConsequent_of_last commentText ruleId consequent bodyPos body last hbody]
    rfl
  · intro cs c K rs E pad htrail hK hrs hr hpad hE hv hnew
    have hmerge := annotateLastStatement_of_directiveText commentText ruleId last cs c K rs E
      pad htrail hK hrs (fun r h => (hr r h).2) hpad hE hv hnew
    refine ⟨hmerge, fun href before after hcomments hu => ?_⟩
    rw [hmerge, Node.attrs_setAttrs]
    simp only [shareRewritten, assignValue, hcomments, Option.map_some',
      map_assigned_unique c.ref _ c before after href rfl hu]
  · unfold annotateLastStatement
    dsimp only
    split
    · refine ⟨rfl, ?_, ?_⟩
      · unfold shareRewritten
        split <;> rfl
      · unfold shareRewritten
        split <;> rfl
    · exact ⟨rfl, rfl, rfl⟩
  · exact get?_setFieldAt_ne c pos step.field parent.fields
      (alternate_ne_consequent parent step pos _ halt hcons)

/-- C12, witness and failing input.  In the test that does not split an `if` from the
preceding `else`, the start node for line 4 is the test of the alternate, and the directive
becomes a trailing comment of the `return` that ends the consequent (one object, in `comments`
and in `trailingComments`).  In the test that modifies a comment in an `else if` condition,
that `return` already carries the directive ` eslint-disable-next-line eqeqeq`: the rule
`no-undef` is merged into it, and both slots show ` eslint-disable-next-line eqeqeq, no-undef`.
Had the comment been written without the space after `//`, the pattern would accept it all
the same, but the rewrite would leave the text ` eqeqeq eqeqeq, no-undef`, which the pattern
rejects: the directive is destroyed and the rule is not merged. -/
theorem addDisableComment_nonempty_consequent_witness :
    firstPathOnLine (fileOf 9 [elseIfStatement]) 4 =
      some ⟨parsed "BinaryExpression" 4 4 [],
        [(⟨0, none⟩, parsed "IfStatement" 4 6
            [("test", .one (parsed "BinaryExpression" 4 4 [])),
              ("consequent", .one (parsed "BlockStatement" 4 6
                [("body", .many [parsed "ReturnStatement" 5 5 []])]))]),
          (⟨2, none⟩, elseIfStatement),
          (⟨0, some 0⟩, parsed "Program" 1 9 [("body", .many [elseIfStatement])]),
          (⟨0, none⟩, fileOf 9 [elseIfStatement])]⟩ ∧
    addDisableComment "a.js".toList defaultMessage 4 "eqeqeq".toList
        ⟨parsed "BinaryExpression" 4 4 [],
          [(⟨0, none⟩, parsed "IfStatement" 4 6
              [("test", .one (parsed "BinaryExpression" 4 4 [])),
                ("consequent", .one (parsed "BlockStatement" 4 6
                  [("body", .many [parsed "ReturnStatement" 5 5 []])]))]),
            (⟨2, none⟩, elseIfStatement),
            (⟨0, some 0⟩, parsed "Program" 1 9 [("body", .many [elseIfStatement])]),
            (⟨0, none⟩, fileOf 9 [elseIfStatement])]⟩ false =
      some (fileOf 9 [parsed "IfStatement" 2 6
        [("test", .one (parsed "BinaryExpression" 2 2 [])),
          ("consequent", .one (parsed "BlockStatement" 2 4
            [("body", .many [.mk ⟨"ReturnStatement", some ⟨3, 3⟩,
              some [⟨"CommentLine", (" eslint-disable-next-line eqeqeq -- " ++
                "TODO: Fix this the next time the file is edited.").toList, false, true,
                some 0⟩],
              none,
              some [⟨"CommentLine", (" eslint-disable-next-line eqeqeq -- " ++
                "TODO: Fix this the next time the file is edited.").toList, false, true,
                some 0⟩],
              none, []⟩ []])])),
          ("alternate", .one (parsed "IfStatement" 4 6
            [("test", .one (parsed "BinaryExpression" 4 4 [])),
              ("consequent", .one (parsed "BlockStatement" 4 6
                [("body", .many [parsed "ReturnStatement" 5 5 []])]))]))]], []) ∧
    firstPathOnLine (fileOf 10 [commentedElseIf " eslint-disable-next-line eqeqeq".toList]) 5 =
      some (commentedElseIfPath " eslint-disable-next-line eqeqeq".toList) ∧
    addDisableComment "a.js".toList defaultMessage 5 "no-undef".toList
        (commentedElseIfPath " eslint-disable-next-line eqeqeq".toList) false =
      some (fileOf 10 [commentedElseIf " eslint-disable-next-line eqeqeq, no-undef".toList],
        []) ∧
    annotateLastStatement defaultMessage "no-undef".toList
        (commentedReturn " eslint-disable-next-line eqeqeq".toList) =
      commentedReturn " eslint-disable-next-line eqeqeq, no-undef".toList ∧
    (eslintDisableRegexp "eslint-disable-next-line eqeqeq".toList).isSome = true ∧
    addDisableComment "a.js".toList defaultMessage 5 "no-undef".toList
        (commentedElseIfPath "eslint-disable-next-line eqeqeq".toList) false =
      some (fileOf 10 [commentedElseIf " eqeqeq eqeqeq, no-undef".toList], []) ∧
    eslintDisableRegexp " eqeqeq eqeqeq, no-undef".toList = none :=
  ⟨by decide,
    (addDisableComment_nonempty_consequent "a.js".toList defaultMessage 4 "eqeqeq".toList _
      false (parsed "IfStatement" 4 6
        [("test", .one (parsed "BinaryExpression" 4 4 [])),
          ("consequent", .one (parsed "BlockStatement" 4 6
            [("body", .many [parsed "ReturnStatement" 5 5 []])]))])
      elseIfStatement
      (parsed "BlockStatement" 2 4 [("body", .many [parsed "ReturnStatement" 3 3 []])])
      ⟨2, none⟩ [(⟨0, some 0⟩, parsed "Program" 1 9 [("body", .many [elseIfStatement])]),
        (⟨0, none⟩, fileOf 9 [elseIfStatement])] 1 0 [] (parsed "ReturnStatement" 3 3 [])
      (by decide) (by decide) (by decide) (by decide) (by decide) (by decide)).1.trans
      (by decide),
    by decide,
    (addDisableComment_nonempty_consequent "a.js".toList defaultMessage 5 "no-undef".toList
      (commentedElseIfPath " eslint-disable-next-line eqeqeq".toList) false commentedAlternate
      (commentedElseIf " eslint-disable-next-line eqeqeq".toList)
      (parsed "BlockStatement" 2 5
        [("body", .many [commentedReturn " eslint-disable-next-line eqeqeq".toList])])
      ⟨2, none⟩
      [(⟨0, some 0⟩, parsed "Program" 1 10
          [("body", .many [commentedElseIf " eslint-disable-next-line eqeqeq".toList])]),
        (⟨0, none⟩, fileOf 10 [commentedElseIf " eslint-disable-next-line eqeqeq".toList])]
      1 0 [] (commentedReturn " eslint-disable-next-line eqeqeq".toList)
      (by decide) (by decide) (by decide) (by decide) (by decide) (by decide)).1.trans
      (by decide),
    ((addDisableComment_nonempty_consequent "a.js".toList defaultMessage 5 "no-undef".toList
      (commentedElseIfPath " eslint-disable-next-line eqeqeq".toList) false commentedAlternate
      (commentedElseIf " eslint-disable-next-line eqeqeq".toList)
      (parsed "BlockStatement" 2 5
        [("body", .many [commentedReturn " eslint-disable-next-line eqeqeq".toList])])
      ⟨2, none⟩
      [(⟨0, some 0⟩, parsed "Program" 1 10
          [("body", .many [commentedElseIf " eslint-disable-next-line eqeqeq".toList])]),
        (⟨0, none⟩, fileOf 10 [commentedElseIf " eslint-disable-next-line eqeqeq".toList])]
      1 0 [] (commentedReturn " eslint-disable-next-line eqeqeq".toList)
      (by decide) (by decide) (by decide) (by decide) (by decide) (by decide)).2.2.1 []
      ⟨"CommentLine", " eslint-disable-next-line eqeqeq".toList, false, true, some 0⟩
      "eslint-disable-next-line".toList ["eqeqeq".toList] none [] (by decide) (by decide)
      (by decide) (by decide) (by decide) (by intro e he; cases he) (by decide)
      (by decide)).1.trans (by decide),
    by decide, by decide, by decide⟩

/-! ## Merging into a markup comment (C15) -/

theorem expression_of_hole (children : List Node) (hwf : holesHaveExpression children = true)
    (s : Node) (hs : s ∈ children) (hty : s.type = "JSXExpressionContainer") :
    ∃ pos e, s.field? "expression" = some (pos, .one e) := by
  have h := List.all_eq_true.mp hwf s hs
  split at h
  · rename_i pos e he
    exact ⟨pos, e, he⟩
  · simp [hty] at h

theorem tryRewriteJsxLoop_eq (children : List Node) (ruleId : Str)
    (hwf : holesHaveExpression children = true) :
    ∀ k, k ≤ children.length →
      tryRewriteJsxLoop children ruleId k =
        some (jsxMergeResult children ruleId
          (((children.take k).enum.reverse).find? (fun p => !isWhitespaceOnlyText p.2)))
  | 0, _ => rfl
  | k + 1, hk => by
    have hlt : k < children.length := hk
    have hget : children.get? k = some children[k] := by
      rw [List.get?_eq_getElem?, List.getElem?_eq_getElem hlt]
    have htake : ((children.take (k + 1)).enum.reverse) =
        (k, children[k]) :: (children.take k).enum.reverse := by
      rw [List.take_succ, List.getElem?_eq_getElem hlt, List.enum_append]
      simp [List.length_take, Nat.min_eq_left (Nat.le_of_lt hlt)]
    rw [tryRewriteJsxLoop, hget, htake, List.find?_cons]
    dsimp only
    by_cases hws : isWhitespaceOnlyText children[k] = true
    · have hcond : children[k].type = "JSXText" ∧ (trim children[k].value).length = 0 := by
        simpa [isWhitespaceOnlyText] using hws
      rw [if_pos hcond]
      simp only [hws, Bool.not_true]
      exact tryRewriteJsxLoop_eq children ruleId hwf k (Nat.le_of_lt hlt)
    · have hcond : ¬ (children[k].type = "JSXText" ∧ (trim children[k].value).length = 0) := by
        simpa [isWhitespaceOnlyText] using hws
      rw [if_neg hcond]
      have hws' : isWhitespaceOnlyText children[k] = false := by simpa using hws
      simp only [hws', Bool.not_false]
      by_cases hty : children[k].type = "JSXExpressionContainer"
      · rw [if_pos hty]
        obtain ⟨pos, e, he⟩ := expression_of_hole children hwf children[k] (List.getElem_mem _) hty
        rw [he]
        dsimp only
        by_cases hety : e.type = "JSXEmptyExpression"
        · rw [if_pos hety, tryRewriteEslintDisable_fst]
          by_cases hd : endsInDirective e.attrs.comments = true
          · have hh : isDirectiveHole children[k] = true := by
              simp [isDirectiveHole, hty, he, hety, hd]
            simp only [hd, if_true, jsxMergeResult, hh, mergedHole, he]
          · have hh : isDirectiveHole children[k] = false := by
              simp [isDirectiveHole, hty, he, hety, hd]
            simp only [hd, jsxMergeResult, hh]
            rfl
        · rw [if_neg hety]
          have hh : isDirectiveHole children[k] = false := by
            simp [isDirectiveHole, hty, he, hety]
          simp only [jsxMergeResult, hh]
          rfl
      · rw [if_neg hty]
        have hh : isDirectiveHole children[k] = false := by
          unfold isDirectiveHole
          split <;> simp [hty]
        simp only [jsxMergeResult, hh]
        rfl

theorem tryRewriteJsxEslintDisable_eq (children : List Node) (i : Int) (ruleId : Str)
    (hi : i ≤ children.length) (hwf : holesHaveExpression children = true) :
    tryRewriteJsxEslintDisable children i ruleId =
      some (jsxMergeResult children ruleId (nearestBefore children i)) := by
  unfold tryRewriteJsxEslintDisable nearestBefore
  exact tryRewriteJsxLoop_eq children ruleId hwf i.toNat (by omega)

theorem nearestBefore_get? (children : List Node) (i : Int) (k : Nat) (s : Node)
    (h : nearestBefore children i = some (k, s)) :
    children.get? k = some s ∧ (k : Int) < i ∧ isWhitespaceOnlyText s = false := by
  unfold nearestBefore at h
  have hmem := List.mem_of_find?_eq_some h
  have hp := List.find?_some h
  rw [List.mem_reverse] at hmem
  obtain ⟨hlt, hs⟩ := List.mem_enum hmem
  rw [List.length_take] at hlt
  rw [List.getElem_take] at hs
  have hk : k < children.length := by omega
  refine ⟨?_, by omega, by simpa using hp⟩
  rw [List.get?_eq_getElem?, List.getElem?_eq_getElem hk, hs]

theorem find?_nearest (children : List Node) :
    ∀ k, k ≤ children.length →
      (∀ j s, ((children.take k).enum.reverse).find? (fun p => !isWhitespaceOnlyText p.2) =
          some (j, s) →
        ∀ j2 s2, j < j2 → j2 < k → children.get? j2 = some s2 →
          isWhitespaceOnlyText s2 = true) ∧
      (((children.take k).enum.reverse).find? (fun p => !isWhitespaceOnlyText p.2) = none →
        ∀ j2 s2, j2 < k → children.get? j2 = some s2 → isWhitespaceOnlyText s2 = true)
  | 0, _ => ⟨fun j s h => by simp at h, fun _ j2 s2 h => by omega⟩
  | k + 1, hk => by
    have hlt : k < children.length := hk
    have hget : children.get? k = some children[k] := by
      rw [List.get?_eq_getElem?, List.getElem?_eq_getElem hlt]
    have htake : ((children.take (k + 1)).enum.reverse) =
        (k, children[k]) :: (children.take k).enum.reverse := by
      rw [List.take_succ, List.getElem?_eq_getElem hlt, List.enum_append]
      simp [List.length_take, Nat.min_eq_left (Nat.le_of_lt hlt)]
    obtain ⟨ih1, ih2⟩ := find?_nearest children k (Nat.le_of_lt hlt)
    rw [htake, List.find?_cons]
    by_cases hws : isWhitespaceOnlyText children[k] = true
    · simp only [hws, Bool.not_true]
      refine ⟨fun j s h j2 s2 h1 h2 h3 => ?_, fun h j2 s2 h2 h3 => ?_⟩
      · rcases Nat.lt_or_ge j2 k with h4 | h4
        · exact ih1 j s h j2 s2 h1 h4 h3
        · have : j2 = k := by omega
          subst this
          rw [hget] at h3
          cases h3
          exact hws
      · rcases Nat.lt_or_ge j2 k with h4 | h4
        · exact ih2 h j2 s2 h4 h3
        · have : j2 = k := by omega
          subst this
          rw [hget] at h3
          cases h3
          exact hws
    · have hws' : isWhitespaceOnlyText children[k] = false := by simpa using hws
      simp only [hws', Bool.not_false]
      refine ⟨fun j s h j2 s2 h1 h2 h3 => ?_, fun h => by cases h⟩
      simp only [Option.some.injEq, Prod.mk.injEq] at h
      omega

/-- C15.  Let `i` be at most the number of children, and let every expression-hole among them
have an expression.  The call returns `true` exactly when the nearest sibling before the
index `i` that is not a white-space-only text is an expression-hole whose expression is empty
and whose last comment is a directive.  In that case the array it leaves is the array it
received with that one sibling replaced, at its index, by the same hole after
`tryRewriteEslintDisable` has been applied to the comments of its expression: no child is
added, removed or moved.  In every other case, `i ≤ 0` among them, it returns `false` and
leaves the array as it received it.  The nearest such sibling is the one of greatest index
below `i` that is not a white-space-only text. -/
theorem tryRewriteJsxEslintDisable_merges (children : List Node) (i : Int) (ruleId : Str)
    (hi : i ≤ children.length) (hwf : holesHaveExpression children = true) :
    tryRewriteJsxEslintDisable children i ruleId =
      some (match nearestBefore children i with
        | none => (false, children)
        | some (k, s) =>
          if isDirectiveHole s then (true, children.set k (mergedHole s ruleId))
          else (false, children)) ∧
    (∀ k s, nearestBefore children i = some (k, s) →
      children.get? k = some s ∧ (k : Int) < i ∧ isWhitespaceOnlyText s = false ∧
      ∀ (j : Nat) s2, k < j → (j : Int) < i → children.get? j = some s2 →
        isWhitespaceOnlyText s2 = true) ∧
    (nearestBefore children i = none →
      ∀ (j : Nat) s2, (j : Int) < i → children.get? j = some s2 →
        isWhitespaceOnlyText s2 = true) ∧
    (i ≤ 0 → tryRewriteJsxEslintDisable children i ruleId = some (false, children)) := by
  have hk : i.toNat ≤ children.length := by omega
  refine ⟨tryRewriteJsxEslintDisable_eq children i ruleId hi hwf, ?_, ?_, ?_⟩
  · intro k s hn
    obtain ⟨h1, h2, h3⟩ := nearestBefore_get? children i k s hn
    refine ⟨h1, h2, h3, fun j s2 hj1 hj2 hj3 => ?_⟩
    exact (find?_nearest children i.toNat hk).1 k s hn j s2 hj1 (by omega) hj3
  · intro hn j s2 hj1 hj2
    exact (find?_nearest children i.toNat hk).2 hn j s2 (by omega) hj2
  · intro h0
    have : i.toNat = 0 := by omega
    rw [tryRewriteJsxEslintDisable_eq children i ruleId hi hwf]
    simp [nearestBefore, this, jsxMergeResult]

/-- C15, witness: the children of the test that updates an existing comment in markup.  The
hole before index 3 already disables `eqeqeq` and receives `no-undef`. -/
theorem tryRewriteJsxEslintDisable_merges_witness :
    tryRewriteJsxEslintDisable
        [jsxText "\n      ".toList,
          .mk ⟨"JSXExpressionContainer", some ⟨4, 4⟩, none, none, none, none, []⟩
            [("expression", .one (.mk ⟨"JSXEmptyExpression", some ⟨4, 4⟩,
              some [⟨"CommentBlock", " eslint-disable-next-line eqeqeq ".toList, false, false, none⟩],
              none, none, none, []⟩ []))],
          jsxText "\n      ".toList,
          .mk ⟨"JSXElement", some ⟨5, 5⟩, none, none, none, none, []⟩ [],
          jsxText "\n    ".toList] 3 "no-undef".toList =
      some (true, [jsxText "\n      ".toList,
          .mk ⟨"JSXExpressionContainer", some ⟨4, 4⟩, none, none, none, none, []⟩
            [("expression", .one (.mk ⟨"JSXEmptyExpression", some ⟨4, 4⟩,
              some [⟨"CommentBlock", " eslint-disable-next-line eqeqeq, no-undef ".toList,
                false, false, none⟩],
              none, none, none, []⟩ []))],
          jsxText "\n      ".toList,
          .mk ⟨"JSXElement", some ⟨5, 5⟩, none, none, none, none, []⟩ [],
          jsxText "\n    ".toList]) := by
  rw [(tryRewriteJsxEslintDisable_merges _ 3 "no-undef".toList (by decide) (by decide)).1]
  decide


/-! ## The closing tag (C13) -/

theorem addDisableComment_closing (filePath commentText : Str) (targetLine : Nat)
    (ruleId : Str) (path : NodePath) (inline : Bool) (target parent : Node) (step : Step)
    (rest : List (Step × Node)) (pos : Nat) (children : List Node)
    (hasc : ascend targetLine path.value path.up = ⟨target, (step, parent) :: rest⟩)
    (hty : target.type = "JSXClosingElement")
    (hparent : parent.type ≠ "IfStatement")
    (hchildren : parent.field? "children" = some (pos, .many children)) :
    addDisableComment filePath commentText targetLine ruleId path inline =
      (addDisableCommentJsxClosingElement commentText ruleId children).map
        (fun cs => (rebuild (parent.setField pos (.many cs)) rest, [])) := by
  simp only [addDisableComment, hasc, conditionalTail_of_not_if parent step hparent, hty,
    if_true, hchildren]

/-- C13, the behaviour of the code.  Let the ascended target be a closing tag
(`JSXClosingElement`) of an element (`JSXElement`) with the children `children`, every
expression-hole among which has an expression.  When the nearest child before the end of
`children` that is not a white-space-only text is an expression-hole whose expression is
empty and whose last comment is a directive, the hole stays at its index with that comment
rewritten by `tryRewriteEslintDisable`, and no child is added.  Otherwise the children
become the old children, unchanged and in order, followed by one new markup comment with the
comment text ` eslint-disable-next-line r -- M ` and then one text child holding a newline.
In the first case, when the text of the last comment `c` of the hole is a directive
` K r1, ..., rn`, followed by white space or by ` -- E`, that does not list the rule, the
text of `c` becomes ` K r1, ..., rn, r`, followed by ` -- ` and `E` trimmed when there was
an explanation (and by a space for a block comment), in `comments` of the empty expression
and in every slot that lists the same object; the number of children is as before.  Nothing
is reported, and the element is written back in the place of the old one. -/
theorem addDisableComment_closing_tag (filePath commentText : Str) (targetLine : Nat)
    (ruleId : Str) (path : NodePath) (inline : Bool) (target parent : Node) (step : Step)
    (rest : List (Step × Node)) (pos : Nat) (children : List Node)
    (hasc : ascend targetLine path.value path.up = ⟨target, (step, parent) :: rest⟩)
    (hty : target.type = "JSXClosingElement")
    (hparent : parent.type = "JSXElement")
    (hchildren : parent.field? "children" = some (pos, .many children))
    (hwf : holesHaveExpression children = true) :
    addDisableComment filePath commentText targetLine ruleId path inline =
      some (rebuild (parent.setField pos (.many
        (match nearestBefore children children.length with
          | none =>
            children ++ [createJsxComment (nextLineDirective ruleId commentText),
              jsxText "\n".toList]
          | some (k, s) =>
            if isDirectiveHole s then children.set k (mergedHole s ruleId)
            else children ++ [createJsxComment (nextLineDirective ruleId commentText),
              jsxText "\n".toList]))) rest, []) ∧
    (∀ (k : Nat) (s : Node) (epos : Nat) (e : Node) (cs : List Comment) (c : Comment)
      (K : Str) (rs : List Str) (E : Option Str) (pad : Str),
      nearestBefore children children.length = some (k, s) →
      s.type = "JSXExpressionContainer" →
      s.field? "expression" = some (epos, .one e) →
      e.type = "JSXEmptyExpression" →
      e.attrs.comments = some (cs ++ [c]) →
      (K = "eslint-disable-line".toList ∨ K = "eslint-disable-next-line".toList) →
      rs ≠ [] →
      (∀ r ∈ rs, r ≠ [] ∧ ',' ∉ r ∧ (∀ x ∈ r, isWhiteSpace x = false) ∧
        ¬ "--".toList <:+: r) →
      (∀ x ∈ pad, isWhiteSpace x = true ∧ isLineTerminator x = false) →
      (∀ x, E = some x → ∀ y ∈ x, isLineTerminator y = false) →
      c.value = directiveText K rs E ++ pad →
      ruleId ∉ rs →
      addDisableComment filePath commentText targetLine ruleId path inline =
        some (rebuild (parent.setField pos (.many (children.set k
          (s.setField epos (.one (e.setAttrs
            { shareRewritten e.attrs (some { c with
                value := directiveText K (rs ++ [ruleId]) (E.map trim) ++
                  (if c.type = "CommentBlock" then " ".toList else []) }) with
              comments := some (cs ++ [{ c with
                value := directiveText K (rs ++ [ruleId]) (E.map trim) ++
                  (if c.type = "CommentBlock" then " ".toList else []) }]) })))))) rest,
          []) ∧
        (children.set k
          (s.setField epos (.one (e.setAttrs
            { shareRewritten e.attrs (some { c with
                value := directiveText K (rs ++ [ruleId]) (E.map trim) ++
                  (if c.type = "CommentBlock" then " ".toList else []) }) with
              comments := some (cs ++ [{ c with
                value := directiveText K (rs ++ [ruleId]) (E.map trim) ++
                  (if c.type = "CommentBlock" then " ".toList else []) }]) })))).length =
          children.length) ∧
    createJsxComment (nextLineDirective ruleId commentText) =
      .mk ⟨"JSXExpressionContainer", some ⟨1, 1⟩, none, none, none, none, []⟩
        [("expression", .one (.mk ⟨"JSXEmptyExpression", some ⟨1, 1⟩,
          some [⟨"CommentBlock", " eslint-disable-next-line ".toList ++ ruleId ++
            " -- ".toList ++ commentText ++ " ".toList, false, false, some 0⟩], none, none,
          some [⟨"CommentBlock", " eslint-disable-next-line ".toList ++ ruleId ++
            " -- ".toList ++ commentText ++ " ".toList, false, false, some 0⟩], []⟩ []))] := by
  have main : addDisableComment filePath commentText targetLine ruleId path inline =
      some (rebuild (parent.setField pos (.many
        (match nearestBefore children children.length with
          | none =>
            children ++ [createJsxComment (nextLineDirective ruleId commentText),
              jsxText "\n".toList]
          | some (k, s) =>
            if isDirectiveHole s then children.set k (mergedHole s ruleId)
            else children ++ [createJsxComment (nextLineDirective ruleId commentText),
              jsxText "\n".toList]))) rest, []) := by
    rw [addDisableComment_closing filePath commentText targetLine ruleId path inline target
      parent step rest pos children hasc hty (by rw [hparent]; decide) hchildren]
    unfold addDisableCommentJsxClosingElement
    rw [tryRewriteJsxEslintDisable_eq children _ ruleId (le_refl _) hwf]
    cases hn : nearestBefore children children.length with
    | none => rfl
    | some p =>
      obtain ⟨k, s⟩ := p
      by_cases hd : isDirectiveHole s = true
      · simp [jsxMergeResult, hd]
      · simp [jsxMergeResult, hd]
  refine ⟨main, ?_, ?_⟩
  · intro k s epos e cs c K rs E pad hn hsty he hety hcomments hK hrs hr hpad hE hv hnew
    obtain ⟨h1, h2⟩ := merge_of_directiveText cs c K rs E pad ruleId hK hrs
      (fun r h => (hr r h).2) hpad hE hv hnew
    have hdir : endsInDirective e.attrs.comments = true := by
      rw [← tryRewriteEslintDisable_fst e.attrs.comments ruleId, hcomments, h1]
    have hd : isDirectiveHole s = true := by
      simp [isDirectiveHole, hsty, he, hety, hdir]
    refine ⟨?_, by simp⟩
    rw [main, hn]
    simp only [hd, if_true, mergedHole, he, hcomments, h1, h2]
  · simp [createJsxComment, nextLineDirective]

/-- C13, witness and failing input.  In the test that inserts a comment above a closing tag,
the start node for line 5 is the closing tag of the inner element, whose children receive the
markup comment and a newline text.  In the test that updates a comment above a closing tag,
the inner element ends in a markup comment with the text ` eslint-disable-next-line eqeqeq `:
the rule `no-undef` is merged into it, in `comments` and in `innerComments` of the empty
expression, and no child is added.  Had the comment been written without the space after
`/*`, the pattern would accept it all the same, but the rewrite would leave the text
` eqeqeq eqeqeq, no-undef `, which the pattern rejects: the directive is destroyed instead of
merged. -/
theorem addDisableComment_closing_tag_witness :
    firstPathOnLine (fileOf 8 [closingTagParent]) 5 = some closingTagPath ∧
    addDisableComment "a.js".toList defaultMessage 5 "eqeqeq".toList closingTagPath false =
      some (fileOf 8 [parsed "JSXElement" 3 6
        [("openingElement", .one (parsed "JSXOpeningElement" 3 3 [])),
          ("closingElement", .one (parsed "JSXClosingElement" 6 6 [])),
          ("children", .many [parsedText 3 4 "\n      ".toList,
            parsed "JSXElement" 4 5
              [("openingElement", .one (parsed "JSXOpeningElement" 4 4 [])),
                ("closingElement", .one (parsed "JSXClosingElement" 5 5 [])),
                ("children", .many [parsedText 4 5 "\n      ".toList,
                  createJsxComment ("eslint-disable-next-line eqeqeq -- " ++
                    "TODO: Fix this the next time the file is edited.").toList,
                  jsxText "\n".toList])],
            parsed "JSXExpressionContainer" 5 5
              [("expression", .one (parsed "BinaryExpression" 5 5 []))],
            parsedText 5 6 "\n    ".toList])]], []) ∧
    firstPathOnLine (fileOf 9 [commentedTagParent " eslint-disable-next-line eqeqeq ".toList]) 6 =
      some (commentedTagPath " eslint-disable-next-line eqeqeq ".toList) ∧
    addDisableComment "a.js".toList defaultMessage 6 "no-undef".toList
        (commentedTagPath " eslint-disable-next-line eqeqeq ".toList) false =
      some (fileOf 9 [commentedTagParent " eslint-disable-next-line eqeqeq, no-undef ".toList],
        []) ∧
    (eslintDisableRegexp "eslint-disable-next-line eqeqeq".toList).isSome = true ∧
    addDisableComment "a.js".toList defaultMessage 6 "no-undef".toList
        (commentedTagPath "eslint-disable-next-line eqeqeq".toList) false =
      some (fileOf 9 [commentedTagParent " eqeqeq eqeqeq, no-undef ".toList], []) ∧
    eslintDisableRegexp " eqeqeq eqeqeq, no-undef ".toList = none :=
  ⟨by decide,
    (addDisableComment_closing_tag "a.js".toList defaultMessage 5 "eqeqeq".toList
      closingTagPath false (parsed "JSXClosingElement" 5 5 []) closingTagElement ⟨1, none⟩
      [(⟨2, some 1⟩, closingTagParent),
        (⟨0, some 0⟩, parsed "Program" 1 8 [("body", .many [closingTagParent])]),
        (⟨0, none⟩, fileOf 8 [closingTagParent])] 2 [parsedText 4 5 "\n      ".toList]
      (by decide) (by decide) (by decide) (by decide) (by decide)).1.trans (by decide),
    by decide,
    ((addDisableComment_closing_tag "a.js".toList defaultMessage 6 "no-undef".toList
      (commentedTagPath " eslint-disable-next-line eqeqeq ".toList) false
      (parsed "JSXClosingElement" 6 6 [])
      (commentedTagElement " eslint-disable-next-line eqeqeq ".toList) ⟨1, none⟩
      [(⟨2, some 1⟩, commentedTagParent " eslint-disable-next-line eqeqeq ".toList),
        (⟨0, some 0⟩, parsed "Program" 1 9
          [("body", .many [commentedTagParent " eslint-disable-next-line eqeqeq ".toList])]),
        (⟨0, none⟩, fileOf 9 [commentedTagParent " eslint-disable-next-line eqeqeq ".toList])]
      2 [parsedText 4 5 "\n        ".toList,
        commentHole 5 " eslint-disable-next-line eqeqeq ".toList,
        parsedText 5 6 "\n      ".toList]
      (by decide) (by decide) (by decide) (by decide) (by decide)).2.1 1
      (commentHole 5 " eslint-disable-next-line eqeqeq ".toList) 0
      (.mk ⟨"JSXEmptyExpression", some ⟨5, 5⟩,
        some [⟨"CommentBlock", " eslint-disable-next-line eqeqeq ".toList, false, false,
          some 0⟩], none, none,
        some [⟨"CommentBlock", " eslint-disable-next-line eqeqeq ".toList, false, false,
          some 0⟩], []⟩ []) []
      ⟨"CommentBlock", " eslint-disable-next-line eqeqeq ".toList, false, false, some 0⟩
      "eslint-disable-next-line".toList ["eqeqeq".toList] none " ".toList
      (by decide) (by decide) (by decide) (by decide) (by decide) (by decide) (by decide)
      (by decide) (by decide) (by intro x hx; cases hx) (by decide) (by decide)).1.trans
      (by decide),
    by decide, by decide, by decide⟩


/-! ## Attributes and expression-holes (C14) -/

theorem createNormalComment_fields (ruleId commentText : Str) (targetNode : Node)
    (inline : Bool) :
    (createNormalComment ruleId commentText targetNode inline).fields = targetNode.fields := by
  unfold createNormalComment
  dsimp only
  split
  · rfl
  · split <;> rfl

theorem Node.attrs_setChild (parent : Node) (step : Step) (child : Node) :
    (parent.setChild step child).attrs = parent.attrs := by
  unfold Node.setChild
  split <;> rfl

theorem addDisableComment_normal (filePath commentText : Str) (targetLine : Nat)
    (ruleId : Str) (path : NodePath) (inline : Bool) (target parent : Node) (step : Step)
    (rest : List (Step × Node))
    (hasc : ascend targetLine path.value path.up = ⟨target, (step, parent) :: rest⟩)
    (hcase : (target.type = "JSXAttribute" ∧ parent.type = "JSXOpeningElement") ∨
      (parent.type = "JSXExpressionContainer" ∧ target.type ≠ "JSXClosingElement")) :
    addDisableComment filePath commentText targetLine ruleId path inline =
      some (rebuild (createNormalComment ruleId commentText target inline)
        ((step, parent) :: rest), []) := by
  rcases hcase with ⟨h1, h2⟩ | ⟨h1, h2⟩
  · simp only [addDisableComment, hasc,
      conditionalTail_of_not_if parent step (by rw [h2]; decide), h1]
    rw [if_neg (by decide), if_pos trivial]
  · simp only [addDisableComment, hasc,
      conditionalTail_of_not_if parent step (by rw [h1]; decide), h1]
    rw [if_neg h2]
    split <;> rfl

/-- C14, as amended.  Let the ascended target be an attribute (`JSXAttribute`) of an opening
tag, or a node other than a closing tag whose parent is an expression-hole
(`JSXExpressionContainer`).  Then the directive is placed by `createNormalComment` on the
target itself, in the hole case the expression inside the hole: the tree that results
differs from the old one only in the comment lists of the target, the child fields of the
target and the properties of its parent (the hole or the opening tag) are as before, and
nothing is reported.  When neither the leading nor the trailing comments of the target end in
a directive, the new comment is pushed on `comments` of the target: a leading comment
` eslint-disable-next-line r -- M` when `inline` is off, a trailing comment
` eslint-disable-line r -- M` when it is on. -/
theorem addDisableComment_attribute_or_hole (filePath commentText : Str) (targetLine : Nat)
    (ruleId : Str) (path : NodePath) (inline : Bool) (target parent : Node) (step : Step)
    (rest : List (Step × Node))
    (hasc : ascend targetLine path.value path.up = ⟨target, (step, parent) :: rest⟩)
    (hcase : (target.type = "JSXAttribute" ∧ parent.type = "JSXOpeningElement") ∨
      (parent.type = "JSXExpressionContainer" ∧ target.type ≠ "JSXClosingElement")) :
    addDisableComment filePath commentText targetLine ruleId path inline =
      some (rebuild (parent.setChild step (createNormalComment ruleId commentText target inline))
        rest, []) ∧
    (createNormalComment ruleId commentText target inline).fields = target.fields ∧
    (parent.setChild step (createNormalComment ruleId commentText target inline)).attrs =
      parent.attrs ∧
    (endsInDirective target.attrs.leadingComments = false →
      endsInDirective target.attrs.trailingComments = false →
      createNormalComment ruleId commentText target inline =
        target.setAttrs { target.attrs with
          comments := some (target.attrs.comments.getD [] ++
            [if inline then
              ⟨"Line", " eslint-disable-line ".toList ++ ruleId ++ " -- ".toList ++ commentText,
                false, true, none⟩
            else
              ⟨"Line", " eslint-disable-next-line ".toList ++ ruleId ++ " -- ".toList ++
                commentText, true, false, none⟩])
          leadingComments := some (target.attrs.leadingComments.getD []) }) := by
  refine ⟨addDisableComment_normal filePath commentText targetLine ruleId path inline target
    parent step rest hasc hcase, createNormalComment_fields _ _ _ _,
    Node.attrs_setChild _ _ _, fun h1 h2 => ?_⟩
  rw [createNormalComment_of_no_directive target ruleId commentText inline h1 h2]

/-- C14, witness: the test that adds a comment to an attribute, in the default mode.  The
start node for line 4 is the attribute, which receives a leading comment. -/
theorem addDisableComment_attribute_or_hole_witness :
    firstPathOnLine (fileOf 7 [attributeElement]) 4 = some attributePath ∧
    addDisableComment "a.js".toList defaultMessage 4 "eqeqeq".toList attributePath false =
      some (fileOf 7 [parsed "JSXElement" 3 5
        [("openingElement", .one (parsed "JSXOpeningElement" 3 4
          [("name", .one (parsed "JSXIdentifier" 3 3 [])),
            ("attributes", .many [.mk ⟨"JSXAttribute", some ⟨4, 4⟩,
              some [⟨"Line", (" eslint-disable-next-line eqeqeq -- " ++
                "TODO: Fix this the next time the file is edited.").toList, true, false, none⟩],
              some [], none, none, []⟩
              [("name", .one (parsed "JSXIdentifier" 4 4 [])),
                ("value", .one (parsed "JSXExpressionContainer" 4 4
                  [("expression", .one (parsed "ConditionalExpression" 4 4 []))]))]])])),
          ("closingElement", .one (parsed "JSXClosingElement" 5 5 [])),
          ("children", .many [parsedText 4 5 "\n      ".toList])]], []) :=
  ⟨by decide,
    (addDisableComment_attribute_or_hole "a.js".toList defaultMessage 4 "eqeqeq".toList
      attributePath false attributeNode attributeOpeningElement ⟨1, some 0⟩
      [(⟨0, none⟩, attributeElement),
        (⟨0, some 0⟩, parsed "Program" 1 7 [("body", .many [attributeElement])]),
        (⟨0, none⟩, fileOf 7 [attributeElement])]
      (by decide) (Or.inl (by decide))).1.trans (by decide)⟩

/-- C14, counterexample to the claim as stated: the same attribute with the option `inline`.
The new comment is pushed on `comments` of the attribute as a trailing comment of the
same-line form: its flag `leading` is off. -/
theorem addDisableComment_attribute_or_hole_counterexample :
    addDisableComment "a.js".toList defaultMessage 4 "eqeqeq".toList attributePath true =
      some (fileOf 7 [parsed "JSXElement" 3 5
        [("openingElement", .one (parsed "JSXOpeningElement" 3 4
          [("name", .one (parsed "JSXIdentifier" 3 3 [])),
            ("attributes", .many [.mk ⟨"JSXAttribute", some ⟨4, 4⟩,
              some [⟨"Line", (" eslint-disable-line eqeqeq -- " ++
                "TODO: Fix this the next time the file is edited.").toList, false, true, none⟩],
              some [], none, none, []⟩
              [("name", .one (parsed "JSXIdentifier" 4 4 [])),
                ("value", .one (parsed "JSXExpressionContainer" 4 4
                  [("expression", .one (parsed "ConditionalExpression" 4 4 []))]))]])])),
          ("closingElement", .one (parsed "JSXClosingElement" 5 5 [])),
          ("children", .many [parsedText 4 5 "\n      ".toList])]], []) ∧
    (createNormalComment "eqeqeq".toList defaultMessage attributeNode true).attrs.comments =
      some [⟨"Line", (" eslint-disable-line eqeqeq -- " ++
        "TODO: Fix this the next time the file is edited.").toList, false, true, none⟩] := by
  decide


/-! ## The ascent (C17) -/

theorem ascend_spec (targetLine : Nat) : ∀ (up : List (Step × Node)) (value : Node),
    ∃ passed rest, up = passed ++ rest ∧
      ascend targetLine value up = ⟨((passed.getLast?).map Prod.snd).getD value, rest⟩ ∧
      (∀ sp ∈ passed, ∀ loc, sp.2.loc = some loc → loc.startLine = targetLine) ∧
      (rest = [] ∨ ∃ step parent loc more, rest = (step, parent) :: more ∧
        parent.loc = some loc ∧ loc.startLine ≠ targetLine)
  | [], value => ⟨[], [], rfl, rfl, by simp, Or.inl rfl⟩
  | (step, parent) :: more, value => by
    obtain ⟨passed, rest, h1, h2, h3, h4⟩ := ascend_spec targetLine more parent
    have hgo : ascend targetLine parent more =
        ⟨((((step, parent) :: passed).getLast?).map Prod.snd).getD value, rest⟩ := by
      rw [h2]
      cases passed with
      | nil => rfl
      | cons a l =>
        rw [List.getLast?_cons_cons, List.getLast?_eq_getLast (a :: l) (by simp)]
        rfl
    cases hl : parent.loc with
    | none =>
      refine ⟨(step, parent) :: passed, rest, by rw [h1]; rfl, ?_, ?_, h4⟩
      · rw [ascend]; simp only [hl]; exact hgo
      · intro sp hsp loc hloc
        rcases List.mem_cons.mp hsp with h | h
        · subst h; rw [hl] at hloc; cases hloc
        · exact h3 sp h loc hloc
    | some loc =>
      by_cases hline : loc.startLine = targetLine
      · refine ⟨(step, parent) :: passed, rest, by rw [h1]; rfl, ?_, ?_, h4⟩
        · rw [ascend]; simp only [hl, if_pos hline]; exact hgo
        · intro sp hsp loc' hloc
          rcases List.mem_cons.mp hsp with h | h
          · subst h; rw [hl] at hloc; cases hloc; exact hline
          · exact h3 sp h loc' hloc
      · refine ⟨[], (step, parent) :: more, rfl, ?_, by simp, Or.inr ⟨step, parent, loc, more, rfl, hl, hline⟩⟩
        rw [ascend]; simp only [hl, if_neg hline]; rfl

/-- C17.  The ascent from a node `value` with the chain of ancestors `up` ends, for every
finite chain, and returns an ancestor-or-self `t` of the node: the chain splits into the
ancestors `passed` that were climbed and the ancestors `rest` above `t`, and `t` is the last
of `passed`, or the node itself when none was climbed.  Every ancestor climbed, `t` among
them when it is not the node itself, has no span or a span that starts on the line.  The
parent of `t` does not exist or has a span that starts on another line.  That is the exact
stop condition: at every node the loop stops when there is no parent or the parent has a span
whose start line differs from the line, and moves to the parent otherwise, so that the split
with these two properties is the only one. -/
theorem ascend_postcondition (targetLine : Nat) (value : Node) (up : List (Step × Node)) :
    (∃ passed rest, up = passed ++ rest ∧
      ascend targetLine value up = ⟨((passed.getLast?).map Prod.snd).getD value, rest⟩ ∧
      (∀ sp ∈ passed, sp.2.loc = none ∨
        ∃ loc, sp.2.loc = some loc ∧ loc.startLine = targetLine) ∧
      (rest = [] ∨ ∃ step parent loc more, rest = (step, parent) :: more ∧
        parent.loc = some loc ∧ loc.startLine ≠ targetLine)) ∧
    ascend targetLine value [] = ⟨value, []⟩ ∧
    (∀ step parent more,
      ascend targetLine value ((step, parent) :: more) =
        if ∃ loc, parent.loc = some loc ∧ loc.startLine ≠ targetLine then
          ⟨value, (step, parent) :: more⟩
        else ascend targetLine parent more) ∧
    (∀ passed rest, up = passed ++ rest →
      (∀ sp ∈ passed, sp.2.loc = none ∨
        ∃ loc, sp.2.loc = some loc ∧ loc.startLine = targetLine) →
      (rest = [] ∨ ∃ step parent loc more, rest = (step, parent) :: more ∧
        parent.loc = some loc ∧ loc.startLine ≠ targetLine) →
      ascend targetLine value up = ⟨((passed.getLast?).map Prod.snd).getD value, rest⟩) := by
  have hstep : ∀ (v : Node) step parent more,
      ascend targetLine v ((step, parent) :: more) =
        if ∃ loc, parent.loc = some loc ∧ loc.startLine ≠ targetLine then
          ⟨v, (step, parent) :: more⟩
        else ascend targetLine parent more := by
    intro v step parent more
    rw [ascend]
    cases hl : parent.loc with
    | none => simp
    | some loc =>
      by_cases hline : loc.startLine = targetLine
      · simp [hline]
      · simp [hline]
  refine ⟨?_, rfl, hstep value, ?_⟩
  · obtain ⟨passed, rest, h1, h2, h3, h4⟩ := ascend_spec targetLine up value
    refine ⟨passed, rest, h1, h2, fun sp hsp => ?_, h4⟩
    cases hl : sp.2.loc with
    | none => exact Or.inl rfl
    | some loc => exact Or.inr ⟨loc, rfl, h3 sp hsp loc hl⟩
  · intro passed
    induction passed generalizing value up with
    | nil =>
      intro rest hup _ hrest
      subst hup
      rcases hrest with h | ⟨step, parent, loc, more, h, hl, hline⟩
      · subst h; rfl
      · subst h
        rw [hstep, if_pos ⟨loc, hl, hline⟩]
        rfl
    | cons sp passed ih =>
      intro rest hup hpassed hrest
      subst hup
      obtain ⟨step, parent⟩ := sp
      have hcont : ¬ ∃ loc, parent.loc = some loc ∧ loc.startLine ≠ targetLine := by
        rintro ⟨loc, hl, hline⟩
        rcases hpassed (step, parent) (List.mem_cons_self _ _) with h | ⟨loc2, h, h2⟩
        · rw [hl] at h; cases h
        · rw [hl] at h; cases h; exact hline h2
      rw [List.cons_append, hstep, if_neg hcont,
        ih parent (passed ++ rest) rest rfl
          (fun sp hsp => hpassed sp (List.mem_cons_of_mem _ hsp)) hrest]
      cases passed with
      | nil => rfl
      | cons a l =>
        rw [List.getLast?_cons_cons, List.getLast?_eq_getLast (a :: l) (by simp)]
        rfl

/-- C17, witness: in the test that does not split an `if` from the preceding `else`, the
ascent from the test of the alternate for line 4 climbs to the alternate, which starts on
line 4, and stops below the outer statement, which starts on line 2. -/
theorem ascend_postcondition_witness :
    ascend 4 (parsed "BinaryExpression" 4 4 [])
        [(⟨0, none⟩, parsed "IfStatement" 4 6
            [("test", .one (parsed "BinaryExpression" 4 4 [])),
              ("consequent", .one (parsed "BlockStatement" 4 6
                [("body", .many [parsed "ReturnStatement" 5 5 []])]))]),
          (⟨2, none⟩, elseIfStatement)] =
      ⟨parsed "IfStatement" 4 6
        [("test", .one (parsed "BinaryExpression" 4 4 [])),
          ("consequent", .one (parsed "BlockStatement" 4 6
            [("body", .many [parsed "ReturnStatement" 5 5 []])]))],
        [(⟨2, none⟩, elseIfStatement)]⟩ :=
  (ascend_postcondition 4 (parsed "BinaryExpression" 4 4 []) _).2.2.2
    [(⟨0, none⟩, parsed "IfStatement" 4 6
      [("test", .one (parsed "BinaryExpression" 4 4 [])),
        ("consequent", .one (parsed "BlockStatement" 4 6
          [("body", .many [parsed "ReturnStatement" 5 5 []])]))])]
    [(⟨2, none⟩, elseIfStatement)] rfl (by decide) (Or.inr ⟨_, _, _, _, rfl, rfl, by decide⟩)


/-! ## The start node (C18) -/

mutual
/-- The chain of a path found below a node ends with that node and the chain above it. -/
theorem up_node_descendant (up : List (Step × Node)) (n : Node) (p : NodePath)
    (hp : p ∈ Node.descendants up n) : ∃ pre s, p.up = pre ++ (s, n) :: up := by
  match n with
  | .mk a fs =>
    rw [Node.descendants] at hp
    exact up_fields_descendant (.mk a fs) up 0 fs p hp
termination_by structural n
theorem up_fields_descendant (parent : Node) (up : List (Step × Node)) (pos : Nat)
    (fs : List (String × FieldValue)) (p : NodePath)
    (hp : p ∈ fieldsDescendants parent up pos fs) : ∃ pre s, p.up = pre ++ (s, parent) :: up := by
  match fs with
  | [] => simp [fieldsDescendants] at hp
  | (k, v) :: rest =>
    rw [fieldsDescendants, List.mem_append] at hp
    rcases hp with hp | hp
    · exact up_field_descendant parent up pos v p hp
    · exact up_fields_descendant parent up (pos + 1) rest p hp
termination_by structural fs
theorem up_field_descendant (parent : Node) (up : List (Step × Node)) (pos : Nat)
    (v : FieldValue) (p : NodePath)
    (hp : p ∈ FieldValue.descendants parent up pos v) :
    ∃ pre s, p.up = pre ++ (s, parent) :: up := by
  match v with
  | .one c =>
    rw [FieldValue.descendants, List.mem_cons] at hp
    rcases hp with hp | hp
    · exact ⟨[], ⟨pos, none⟩, by rw [hp]; rfl⟩
    · obtain ⟨pre, s, h⟩ := up_node_descendant _ c p hp
      exact ⟨pre ++ [(s, c)], ⟨pos, none⟩, by rw [h]; simp⟩
  | .many cs =>
    rw [FieldValue.descendants] at hp
    exact up_nodes_descendant parent up pos 0 cs p hp
termination_by structural v
theorem up_nodes_descendant (parent : Node) (up : List (Step × Node)) (pos i : Nat)
    (cs : List Node) (p : NodePath)
    (hp : p ∈ nodesDescendants parent up pos i cs) :
    ∃ pre s, p.up = pre ++ (s, parent) :: up := by
  match cs with
  | [] => simp [nodesDescendants] at hp
  | c :: after =>
    rw [nodesDescendants, List.mem_append, List.mem_cons] at hp
    rcases hp with (hp | hp) | hp
    · exact ⟨[], ⟨pos, some i⟩, by rw [hp]; rfl⟩
    · obtain ⟨pre, s, h⟩ := up_node_descendant _ c p hp
      exact ⟨pre ++ [(s, c)], ⟨pos, some i⟩, by rw [h]; simp⟩
    · exact up_nodes_descendant parent up pos (i + 1) after p hp
termination_by structural cs
end

theorem firstPathOnLine_eq (root : Node) (targetLine : Nat) :
    firstPathOnLine root targetLine =
      ((candidates root targetLine).find? (fun p => endsOnLine targetLine p.value)).orElse
        (fun _ => (candidates root targetLine).head?) := by
  have e : firstPathOnLine root targetLine =
      match (candidates root targetLine).find? (fun p => endsOnLine targetLine p.value) with
      | some path => some path
      | none => (candidates root targetLine).head? := rfl
  rw [e]
  cases (candidates root targetLine).find? (fun p => endsOnLine targetLine p.value) <;> rfl

theorem mem_candidates (root : Node) (targetLine : Nat) (p : NodePath) :
    p ∈ candidates root targetLine ↔
      p ∈ Node.descendants [] root ∧
        ∃ loc, p.value.loc = some loc ∧ loc.startLine = targetLine := by
  unfold candidates startsOnLine
  rw [List.mem_filter]
  constructor
  · rintro ⟨h1, h2⟩
    refine ⟨h1, ?_⟩
    cases hl : p.value.loc with
    | none => rw [hl] at h2; cases h2
    | some loc => rw [hl] at h2; exact ⟨loc, rfl, by simpa using h2⟩
  · rintro ⟨h1, loc, h2, h3⟩
    exact ⟨h1, by rw [h2]; simpa using h3⟩

theorem firstPathOnLine_isSome (root : Node) (targetLine : Nat) :
    (firstPathOnLine root targetLine).isSome ↔ candidates root targetLine ≠ [] := by
  rw [firstPathOnLine_eq]
  cases hc : candidates root targetLine with
  | nil => simp
  | cons c cs =>
    cases hf : (c :: cs).find? (fun p => endsOnLine targetLine p.value) <;> simp

/-- C18, as amended.  The candidates for the line `targetLine` are exactly the nodes below
the root that have a span starting on that line, in the order in which the traversal visits
them: the root of the tree is not searched, and a node without span is never a candidate.  The
start node is the first candidate whose span also ends on the line when there is one, the
first candidate otherwise, and there is a start node exactly when there is a candidate. -/
theorem firstPathOnLine_selection (root : Node) (targetLine : Nat) :
    (∀ p, p ∈ candidates root targetLine ↔
      p ∈ Node.descendants [] root ∧
        ∃ loc, p.value.loc = some loc ∧ loc.startLine = targetLine) ∧
    (candidates root targetLine).Sublist (Node.descendants [] root) ∧
    (∀ p ∈ Node.descendants [] root, ∃ above s, p.up = above ++ [(s, root)]) ∧
    (∀ before p after, candidates root targetLine = before ++ p :: after →
      endsOnLine targetLine p.value = true →
      (∀ q ∈ before, endsOnLine targetLine q.value = false) →
      firstPathOnLine root targetLine = some p) ∧
    ((∀ q ∈ candidates root targetLine, endsOnLine targetLine q.value = false) →
      firstPathOnLine root targetLine = (candidates root targetLine).head?) ∧
    ((firstPathOnLine root targetLine).isSome ↔ candidates root targetLine ≠ []) := by
  refine ⟨mem_candidates root targetLine, List.filter_sublist _,
    fun p hp => up_node_descendant [] root p hp, ?_, ?_, firstPathOnLine_isSome root targetLine⟩
  · intro before p after hc hp hq
    rw [firstPathOnLine_eq, hc, List.find?_append]
    have h1 : before.find? (fun p => endsOnLine targetLine p.value) = none := by
      rw [List.find?_eq_none]
      intro q hq'
      simp [hq q hq']
    have h2 : (p :: after).find? (fun p => endsOnLine targetLine p.value) = some p := by
      simp [List.find?_cons, hp]
    rw [h1, h2]
    rfl
  · intro hq
    rw [firstPathOnLine_eq]
    have h1 : (candidates root targetLine).find? (fun p => endsOnLine targetLine p.value) =
        none := by
      rw [List.find?_eq_none]
      intro q hq'
      simp [hq q hq']
    rw [h1]
    rfl

/-- C18, counterexample to the claim as stated: the root of this tree has a span that starts
on line 1, and it is the only node with such a span; the candidate list for line 1 is empty
and there is no start node. -/
theorem firstPathOnLine_selection_counterexample :
    startsOnLine 1 (.mk ⟨"File", some ⟨1, 3⟩, none, none, none, none, []⟩
      [("program", .one (.mk ⟨"Program", some ⟨2, 3⟩, none, none, none, none, []⟩
        [("body", .many [.mk ⟨"ExpressionStatement", some ⟨2, 3⟩, none, none, none, none, []⟩
          []])]))]) = true ∧
    candidates (.mk ⟨"File", some ⟨1, 3⟩, none, none, none, none, []⟩
      [("program", .one (.mk ⟨"Program", some ⟨2, 3⟩, none, none, none, none, []⟩
        [("body", .many [.mk ⟨"ExpressionStatement", some ⟨2, 3⟩, none, none, none, none, []⟩
          []])]))]) 1 = [] ∧
    firstPathOnLine (.mk ⟨"File", some ⟨1, 3⟩, none, none, none, none, []⟩
      [("program", .one (.mk ⟨"Program", some ⟨2, 3⟩, none, none, none, none, []⟩
        [("body", .many [.mk ⟨"ExpressionStatement", some ⟨2, 3⟩, none, none, none, none, []⟩
          []])]))]) 1 = none := by
  decide

/-- C18, witness: the test on a `return` statement of several lines.  On line 8 the statement
and its argument start, and neither ends there: the start node is the first candidate, the
statement. -/
theorem firstPathOnLine_selection_witness :
    firstPathOnLine (fileOf 12 [parsed "ReturnStatement" 8 10
        [("argument", .one (parsed "ObjectExpression" 8 10
          [("properties", .many [parsed "ObjectProperty" 9 9 []])]))]]) 8 =
      some ⟨parsed "ReturnStatement" 8 10
          [("argument", .one (parsed "ObjectExpression" 8 10
            [("properties", .many [parsed "ObjectProperty" 9 9 []])]))],
        [(⟨0, some 0⟩, parsed "Program" 1 12 [("body", .many [parsed "ReturnStatement" 8 10
            [("argument", .one (parsed "ObjectExpression" 8 10
              [("properties", .many [parsed "ObjectProperty" 9 9 []])]))]])]),
          (⟨0, none⟩, fileOf 12 [parsed "ReturnStatement" 8 10
            [("argument", .one (parsed "ObjectExpression" 8 10
              [("properties", .many [parsed "ObjectProperty" 9 9 []])]))]])]⟩ :=
  ((firstPathOnLine_selection _ 8).2.2.2.2.1 (by decide)).trans (by decide)

/-! ## Diagnostics without node (C16) -/

/-- The reports made so far are only extended by the loop. -/
theorem codeModLoop_reports (filePath commentText : Str) (w : Option (List Str))
    (inline : Bool) : ∀ (targets : List Target) (root : Node) (reports : List Report),
    codeModLoop filePath commentText w inline targets root reports =
      (codeModLoop filePath commentText w inline targets root []).map
        (fun r => (r.1, reports ++ r.2))
  | [], root, reports => by simp [codeModLoop]
  | t :: rest, root, reports => by
    have ih := codeModLoop_reports filePath commentText w inline rest
    rw [codeModLoop]
    conv_rhs => rw [codeModLoop]
    by_cases hex : isExcluded w t.ruleId = true
    · rw [if_pos hex, if_pos hex]
      exact ih root reports
    · rw [if_neg hex, if_neg hex]
      cases firstPathOnLine root t.targetLine with
      | none =>
        dsimp only
        rw [ih root (reports ++ _), ih root ([] ++ _)]
        simp [Option.map_map, Function.comp_def]
      | some path =>
        dsimp only
        cases addDisableComment filePath commentText t.targetLine t.ruleId path inline with
        | none => rfl
        | some r =>
          dsimp only
          rw [ih r.1 (reports ++ _), ih r.1 ([] ++ _)]
          simp [Option.map_map, Function.comp_def]

/-- The loop over a concatenation runs the second part from the state left by the first. -/
theorem codeModLoop_append (filePath commentText : Str) (w : Option (List Str))
    (inline : Bool) (post : List Target) :
    ∀ (pre : List Target) (root : Node) (reports : List Report),
    codeModLoop filePath commentText w inline (pre ++ post) root reports =
      (codeModLoop filePath commentText w inline pre root reports).bind
        (fun r => codeModLoop filePath commentText w inline post r.1 r.2)
  | [], root, reports => by simp [codeModLoop]
  | t :: rest, root, reports => by
    have ih := codeModLoop_append filePath commentText w inline post rest
    rw [List.cons_append, codeModLoop]
    conv_rhs => rw [codeModLoop]
    by_cases hex : isExcluded w t.ruleId = true
    · rw [if_pos hex, if_pos hex]
      exact ih root reports
    · rw [if_neg hex, if_neg hex]
      cases firstPathOnLine root t.targetLine with
      | none => exact ih _ _
      | some path =>
        dsimp only
        cases addDisableComment filePath commentText t.targetLine t.ruleId path inline with
        | none => rfl
        | some r => exact ih _ _

theorem firstPathOnLine_eq_none (root : Node) (targetLine : Nat)
    (h : ∀ p ∈ Node.descendants [] root, ∀ loc, p.value.loc = some loc →
      loc.startLine ≠ targetLine) :
    firstPathOnLine root targetLine = none := by
  have hc : candidates root targetLine = [] := by
    rw [List.eq_nil_iff_forall_not_mem]
    intro p hp
    obtain ⟨h1, loc, h2, h3⟩ := (mem_candidates root targetLine p).mp hp
    exact h p h1 loc h2 h3
  rw [firstPathOnLine_eq, hc]
  rfl

/-- C16, as amended.  Let the loop reach, after the targets `pre`, a target `t` that the rule
whitelist does not exclude, with the tree `root1` and the reports `reports1`, and let no node
below the root of `root1` have a span that starts on the line of `t`.  Then `t` leaves the
tree as it is and adds exactly one report, the one that says that no node was found, and the
targets `post` that follow are processed as they are without `t`: from the same tree, to the
same final tree, with the same reports after that one. -/
theorem codeModLoop_skips_line_without_node (filePath commentText : Str)
    (w : Option (List Str)) (inline : Bool) (pre post : List Target) (t : Target)
    (root root1 : Node) (reports reports1 : List Report)
    (hpre : codeModLoop filePath commentText w inline pre root reports = some (root1, reports1))
    (hin : isExcluded w t.ruleId = false)
    (hline : ∀ p ∈ Node.descendants [] root1, ∀ loc, p.value.loc = some loc →
      loc.startLine ≠ t.targetLine) :
    codeModLoop filePath commentText w inline (pre ++ [t]) root reports =
      some (root1, reports1 ++ [.unableToFindNodes t.targetLine filePath t.ruleId]) ∧
    codeModLoop filePath commentText w inline (pre ++ t :: post) root reports =
      (codeModLoop filePath commentText w inline post root1 []).map
        (fun r => (r.1,
          reports1 ++ [.unableToFindNodes t.targetLine filePath t.ruleId] ++ r.2)) ∧
    codeModLoop filePath commentText w inline (pre ++ post) root reports =
      (codeModLoop filePath commentText w inline post root1 []).map
        (fun r => (r.1, reports1 ++ r.2)) := by
  have hstep : ∀ rest, codeModLoop filePath commentText w inline (t :: rest) root1 reports1 =
      codeModLoop filePath commentText w inline rest root1
        (reports1 ++ [.unableToFindNodes t.targetLine filePath t.ruleId]) := by
    intro rest
    rw [codeModLoop, if_neg (by simp [hin]), firstPathOnLine_eq_none root1 t.targetLine hline]
  refine ⟨?_, ?_, ?_⟩
  · rw [codeModLoop_append, hpre, Option.some_bind, hstep]
    rfl
  · rw [codeModLoop_append, hpre, Option.some_bind, hstep, codeModLoop_reports]
  · rw [codeModLoop_append, hpre, Option.some_bind, codeModLoop_reports]

theorem no_candidates (root : Node) (targetLine : Nat) (h : candidates root targetLine = []) :
    ∀ p ∈ Node.descendants [] root, ∀ loc, p.value.loc = some loc →
      loc.startLine ≠ targetLine := by
  intro p hp loc hl hline
  have := (mem_candidates root targetLine p).mpr ⟨hp, loc, hl, hline⟩
  rw [h] at this
  cases this

/-- C16, witness: an `eqeqeq` error on line 7, where no node starts, followed by one on line
2, where a `return` statement stands: the first is reported, the second places its comment, as
it does when it is alone. -/
theorem codeModLoop_skips_line_without_node_witness :
    codeModLoop "a.js".toList defaultMessage none false
        ([] ++ ⟨"eqeqeq".toList, 7⟩ :: [⟨"eqeqeq".toList, 2⟩])
        (fileOf 3 [parsed "ReturnStatement" 2 2 []]) [] =
      some (fileOf 3 [.mk ⟨"ReturnStatement", some ⟨2, 2⟩,
          some [⟨"Line", (" eslint-disable-next-line eqeqeq -- " ++
            "TODO: Fix this the next time the file is edited.").toList, true, false, none⟩],
          some [], none, none, []⟩ []],
        [.unableToFindNodes 7 "a.js".toList "eqeqeq".toList]) :=
  (codeModLoop_skips_line_without_node "a.js".toList defaultMessage none false []
    [⟨"eqeqeq".toList, 2⟩] ⟨"eqeqeq".toList, 7⟩ (fileOf 3 [parsed "ReturnStatement" 2 2 []])
    (fileOf 3 [parsed "ReturnStatement" 2 2 []]) [] [] rfl rfl
    (no_candidates _ 7 (by decide))).2.1.trans (by decide)

/-- C16, counterexample to the claim as stated: with the whitelist `no-undef`, an `eqeqeq`
error on line 7 of a tree in which no node starts on line 7 produces no report. -/
theorem codeModLoop_skips_line_without_node_counterexample :
    candidates (fileOf 3 [parsed "ReturnStatement" 2 2 []]) 7 = [] ∧
    startsOnLine 7 (fileOf 3 [parsed "ReturnStatement" 2 2 []]) = false ∧
    codeMod (some [⟨some [⟨some "eqeqeq".toList, 2, 7⟩]⟩]) "a.js".toList
        (fileOf 3 [parsed "ReturnStatement" 2 2 []]) ⟨none, some "no-undef".toList, false⟩ =
      some (.source (fileOf 3 [parsed "ReturnStatement" 2 2 []]), []) := by
  decide


/-! ## The backward scan (C19) -/

theorem sibling_cases (targetLine : Nat) (s : Node) :
    (isNewlineFreeText s = true ∨ isNodeOnLine targetLine s = true) ∨
      isSpanlessNode s = true ∨ endsLineGroup targetLine s = true := by
  unfold isNewlineFreeText isNodeOnLine isSpanlessNode endsLineGroup startsOnLine
  by_cases h1 : s.type = "JSXText"
  · by_cases h2 : '\n' ∈ s.value <;> simp [h1, h2]
  · cases h3 : s.loc with
    | none => simp [h1]
    | some loc => by_cases h4 : loc.startLine = targetLine <;> simp [h1, h4]

theorem endsLineGroup_exclusive (targetLine : Nat) (s : Node)
    (h : endsLineGroup targetLine s = true) :
    isNewlineFreeText s = false ∧ isNodeOnLine targetLine s = false ∧
      isSpanlessNode s = false := by
  unfold isNewlineFreeText isNodeOnLine isSpanlessNode
  unfold endsLineGroup at h
  simp only [decide_eq_true_eq] at h
  rcases h with ⟨h1, h2⟩ | ⟨h1, h2, h3⟩
  · simp [h1, h2]
  · simp [h1, h2, h3]

theorem isSpanlessNode_exclusive (targetLine : Nat) (s : Node)
    (h : isSpanlessNode s = true) :
    isNewlineFreeText s = false ∧ isNodeOnLine targetLine s = false := by
  unfold isNewlineFreeText isNodeOnLine startsOnLine
  unfold isSpanlessNode at h
  simp only [decide_eq_true_eq] at h
  simp [h.1, h.2]

/-- One turn of the backward scan, by the kind of the sibling that it reads. -/
theorem widenLoop_succ (children : List Node) (targetLine : Nat) (k : Nat) (cur : Int)
    (s : Node) (hs : children.get? k = some s) :
    widenLoop children targetLine (k + 1) cur =
      if isNewlineFreeText s = true ∨ isNodeOnLine targetLine s = true then
        widenLoop children targetLine k k
      else if isSpanlessNode s = true then widenLoop children targetLine k cur
      else cur := by
  rw [widenLoop, hs]
  dsimp only
  unfold isNewlineFreeText isNodeOnLine isSpanlessNode startsOnLine
  by_cases h1 : s.type = "JSXText"
  · by_cases h2 : '\n' ∈ s.value <;> simp [h1, h2]
  · cases h3 : s.loc with
    | none => simp [h1]
    | some loc => by_cases h4 : loc.startLine = targetLine <;> simp [h1, h4]

theorem widenLoop_spec (children : List Node) (targetLine : Nat) :
    ∀ (k cur : Nat), k ≤ cur → k ≤ children.length →
      ∃ i : Nat, widenLoop children targetLine k (cur : Int) = (i : Int) ∧ i ≤ cur ∧
        (i = cur ∨ (i < k ∧ ∃ s, children.get? i = some s ∧
          (isNewlineFreeText s = true ∨ isNodeOnLine targetLine s = true))) ∧
        (∀ j, i ≤ j → j < k → ∃ s, children.get? j = some s ∧
          (isNewlineFreeText s = true ∨ isNodeOnLine targetLine s = true ∨
            isSpanlessNode s = true)) ∧
        (1 ≤ i → i - 1 < k → ∃ s, children.get? (i - 1) = some s ∧
          (isSpanlessNode s = true ∨ endsLineGroup targetLine s = true))
  | 0, cur, _, _ => ⟨cur, rfl, le_refl _, Or.inl rfl, fun j _ h => by omega, fun _ h => by omega⟩
  | k + 1, cur, hk, hlen => by
    have hlt : k < children.length := hlen
    have hget : children.get? k = some children[k] := by
      rw [List.get?_eq_getElem?, List.getElem?_eq_getElem hlt]
    rw [widenLoop_succ children targetLine k cur children[k] hget]
    by_cases hmark : isNewlineFreeText children[k] = true ∨
        isNodeOnLine targetLine children[k] = true
    · rw [if_pos hmark]
      obtain ⟨i, h0, h1, h2, h3, h4⟩ :=
        widenLoop_spec children targetLine k k (le_refl _) (Nat.le_of_lt hlt)
      refine ⟨i, h0, by omega, ?_, ?_, ?_⟩
      · rcases h2 with h2 | ⟨h2, h2'⟩
        · rcases Nat.eq_or_lt_of_le hk with hc | hc
          · right
            subst h2
            exact ⟨by omega, children[i], hget, hmark⟩
          · right
            subst h2
            exact ⟨by omega, children[i], hget, hmark⟩
        · exact Or.inr ⟨by omega, h2'⟩
      · intro j hj1 hj2
        rcases Nat.lt_or_ge j k with hj | hj
        · exact h3 j hj1 hj
        · have : j = k := by omega
          subst this
          refine ⟨children[j], hget, ?_⟩
          rcases hmark with h | h
          · exact Or.inl h
          · exact Or.inr (Or.inl h)
      · intro hi1 hi2
        exact h4 hi1 (by omega)
    · rw [if_neg hmark]
      by_cases hskip : isSpanlessNode children[k] = true
      · rw [if_pos hskip]
        obtain ⟨i, h0, h1, h2, h3, h4⟩ :=
          widenLoop_spec children targetLine k cur (by omega) (Nat.le_of_lt hlt)
        refine ⟨i, h0, h1, ?_, ?_, ?_⟩
        · rcases h2 with h2 | ⟨h2, h2'⟩
          · exact Or.inl h2
          · exact Or.inr ⟨by omega, h2'⟩
        · intro j hj1 hj2
          rcases Nat.lt_or_ge j k with hj | hj
          · exact h3 j hj1 hj
          · have : j = k := by omega
            subst this
            exact ⟨children[j], hget, Or.inr (Or.inr hskip)⟩
        · intro hi1 hi2
          rcases Nat.lt_or_ge (i - 1) k with hj | hj
          · exact h4 hi1 hj
          · have : i - 1 = k := by omega
            rw [this]
            exact ⟨children[k], hget, Or.inl hskip⟩
      · rw [if_neg hskip]
        have hend : endsLineGroup targetLine children[k] = true := by
          rcases sibling_cases targetLine children[k] with h | h | h
          · exact absurd h hmark
          · exact absurd h hskip
          · exact h
        refine ⟨cur, rfl, le_refl _, Or.inl rfl, fun j hj1 hj2 => by omega, ?_⟩
        intro hi1 hi2
        have : cur - 1 = k := by omega
        rw [this]
        exact ⟨children[k], hget, Or.inr hend⟩

/-- C19.  Let `t` be an index of the children list, the position of the target, or its
length.  The insertion index `i` that the backward scan computes from `t` for the line
`targetLine` satisfies `0 ≤ i ≤ t`.  Every sibling at a position from `i` to `t - 1` is a text
fragment without newline, a sibling other than a text whose span starts on the line, or a
sibling other than a text without span.  The sibling at position `i` is the one at `t` (the
target itself), a text fragment without newline, or a sibling whose span starts on the line.
A text fragment that holds a newline and a sibling whose span starts on another line, when
they lie before `t`, lie before `i` as well: the scan does not move the index past them.  The
sibling before `i`, when there is one, is such a fragment or sibling, or has no span. -/
theorem widen_stays_on_line (children : List Node) (targetLine : Nat) (t : Nat)
    (ht : t ≤ children.length) :
    ∃ i : Nat, widen children targetLine (t : Int) = (i : Int) ∧ i ≤ t ∧
      (∀ j, i ≤ j → j < t → ∃ s, children.get? j = some s ∧
        (isNewlineFreeText s = true ∨ isNodeOnLine targetLine s = true ∨
          isSpanlessNode s = true)) ∧
      (i = t ∨ ∃ s, children.get? i = some s ∧
        (isNewlineFreeText s = true ∨ isNodeOnLine targetLine s = true)) ∧
      (∀ j s, j < t → children.get? j = some s → endsLineGroup targetLine s = true → j < i) ∧
      (1 ≤ i → ∃ s, children.get? (i - 1) = some s ∧
        (isSpanlessNode s = true ∨ endsLineGroup targetLine s = true)) := by
  obtain ⟨i, h0, h1, h2, h3, h4⟩ := widenLoop_spec children targetLine t t (le_refl _) ht
  refine ⟨i, by simpa [widen] using h0, h1, h3, ?_, ?_, fun hi => h4 hi (by omega)⟩
  · rcases h2 with h2 | ⟨-, h2⟩
    · exact Or.inl h2
    · exact Or.inr h2
  · intro j s hj hs hend
    by_contra hji
    obtain ⟨s2, hs2, hkind⟩ := h3 j (by omega) hj
    rw [hs] at hs2
    cases hs2
    obtain ⟨e1, e2, e3⟩ := endsLineGroup_exclusive targetLine s hend
    rw [e1, e2, e3] at hkind
    simp at hkind

/-- C19, witness: the children of the test on lines that hold several nodes.  The scan from
the target at index 3 passes over a text of the same line and an element that starts on the
same line, and stops at the text that holds the newline: the insertion index is 1. -/
theorem widen_stays_on_line_witness :
    widen [jsxText "\n      ".toList,
        .mk ⟨"JSXElement", some ⟨4, 4⟩, none, none, none, none, []⟩ [],
        jsxText " ".toList,
        .mk ⟨"JSXElement", some ⟨4, 4⟩, none, none, none, none, []⟩ [],
        jsxText "\n    ".toList] 4 (3 : Nat) = (1 : Nat) := by
  obtain ⟨i, h0, h1, -, -, h5, h6⟩ := widen_stays_on_line [jsxText "\n      ".toList,
        .mk ⟨"JSXElement", some ⟨4, 4⟩, none, none, none, none, []⟩ [],
        jsxText " ".toList,
        .mk ⟨"JSXElement", some ⟨4, 4⟩, none, none, none, none, []⟩ [],
        jsxText "\n    ".toList] 4 3 (by decide)
  have hpos : 0 < i := h5 0 _ (by decide) rfl (by decide)
  rcases (show i = 1 ∨ i = 2 ∨ i = 3 by omega) with h | h | h
  · subst h; exact h0
  · subst h
    obtain ⟨s, hs, hk⟩ := h6 (by omega)
    simp only [List.get?_cons_succ, List.get?_cons_zero, Option.some.injEq] at hs
    subst hs
    revert hk
    decide
  · subst h
    obtain ⟨s, hs, hk⟩ := h6 (by omega)
    simp only [List.get?_cons_succ, List.get?_cons_zero, Option.some.injEq] at hs
    subst hs
    revert hk
    decide

/-! ## The split of the previous sibling (C20) -/

theorem lastIndexOfAux_append (c : Char) (b : Str) :
    ∀ a : Str, c ∉ a → lastIndexOfAux c (a ++ c :: b) = (b.length : Int)
  | [], _ => by simp [lastIndexOfAux]
  | x :: a, h => by
    have hx : x ≠ c := fun e => h (by simp [e])
    have ha : c ∉ a := fun e => h (by simp [e])
    rw [List.cons_append, lastIndexOfAux, if_neg hx]
    exact lastIndexOfAux_append c b a ha

theorem lastIndexOf_append (c : Char) (before run : Str) (h : c ∉ run) :
    lastIndexOf (before ++ c :: run) c = (before.length : Int) := by
  unfold lastIndexOf
  rw [List.reverse_append, List.reverse_cons, List.append_assoc, List.singleton_append,
    lastIndexOfAux_append c before.reverse run.reverse (by simpa using h), List.length_reverse]

theorem getAt_pred {α : Type} (xs : List α) (i : Nat) (hi : 1 ≤ i) :
    getAt xs ((i : Int) - 1) = xs.get? (i - 1) := by
  unfold getAt
  rw [if_neg (by omega)]
  congr 1
  omega

theorem setAt_pred {α : Type} (xs : List α) (i : Nat) (hi : 1 ≤ i) (x : α) :
    setAt xs ((i : Int) - 1) x = xs.set (i - 1) x := by
  unfold setAt
  rw [if_neg (by omega)]
  congr 1
  omega

theorem splice_insert {α : Type} (xs : List α) (i : Nat) (hi : i ≤ xs.length)
    (items : List α) : splice xs (i : Int) 0 items = xs.take i ++ items ++ xs.drop i := by
  unfold splice relativeStart
  rw [if_neg (by omega), Int.toNat_ofNat, Nat.min_eq_left hi]
  rfl

theorem take_set_succ {α : Type} (xs : List α) (k : Nat) (x : α) (h : k < xs.length) :
    (xs.set k x).take (k + 1) = xs.take k ++ [x] ∧ (xs.set k x).drop (k + 1) = xs.drop (k + 1) := by
  rw [List.set_eq_take_cons_drop x h]
  have hl : (xs.take k ++ [x]).length = k + 1 := by
    rw [List.length_append, List.length_take, Nat.min_eq_left (Nat.le_of_lt h)]
    rfl
  have e : xs.take k ++ x :: xs.drop (k + 1) = (xs.take k ++ [x]) ++ xs.drop (k + 1) := by simp
  rw [e]
  exact ⟨List.take_left' hl, List.drop_left' hl⟩

theorem splitPreviousSibling_of_run (children : List Node) (k : Nat) (previous : Node)
    (before run : Str)
    (hprev : children.get? k = some previous)
    (hty : previous.type = "JSXText")
    (hval : previous.value = before ++ '\n' :: run)
    (hrun : '\n' ∉ run) (hne : run ≠ []) (hws : ∀ c ∈ run, isWhiteSpace c = true) :
    splitPreviousSibling children ((k + 1 : Nat) : Int) =
      (children.take k ++
        [previous.setAttrs { previous.attrs with value := before },
          jsxText ('\n' :: run)] ++ children.drop (k + 1), ((k + 1 : Nat) : Int) + 1) := by
  have hlen : k < children.length := by
    by_contra h
    rw [List.get?_eq_none.mpr (by omega)] at hprev
    cases hprev
  have hlast := lastIndexOf_append '\n' before run hrun
  rw [← hval] at hlast
  have htrim : trim run = [] := by
    have := trim_pad run [] [] hws (by simp)
    simpa [trim, trimStart, trimEnd] using this
  unfold splitPreviousSibling
  rw [getAt_pred children (k + 1) (by omega), Nat.add_sub_cancel, hprev]
  dsimp only
  rw [if_pos hty, hlast]
  have hcond : (before.length : Int) ≠ (previous.value.length : Int) - 1 ∧
      (trim (substr previous.value ((before.length : Int) + 1) none)).length = 0 := by
    constructor
    · rw [hval]
      have : 0 < run.length := List.length_pos.mpr hne
      simp only [List.length_append, List.length_cons]
      push_cast
      omega
    · have e : ((before.length : Int) + 1) = ((before.length + 1 : Nat) : Int) := by
        push_cast; rfl
      rw [e, substr_nat_none, hval]
      simp [htrim]
  rw [if_pos hcond]
  have e1 : substr previous.value 0 (some (before.length : Int)) = before := by
    have := substr_zero_some previous.value before.length 0
    simp only [Nat.cast_zero, sub_zero, Nat.sub_zero] at this
    rw [this, hval]
    simp
  have e2 : substr previous.value (before.length : Int) none = '\n' :: run := by
    rw [substr_nat_none, hval]
    simp
  rw [e1, e2, setAt_pred children (k + 1) (by omega), Nat.add_sub_cancel,
    splice_insert _ (k + 1) (by rw [List.length_set]; omega)]
  obtain ⟨h1, h2⟩ := take_set_succ children k
    (previous.setAttrs { previous.attrs with value := before }) hlen
  rw [h1, h2]
  simp

/-- C20, as amended.  Let the markup-children strategy reach, after the segmentation and the
backward scan, the insertion index `k + 1`, let no directive be found before that index, and
let the sibling at `k`, immediately before the insertion index, be a text whose value is
`before`, a newline, and a run `run` that is non-empty, white space only and without
newline.  Then that text is cut at its last newline: the sibling keeps `before`, and the
newline with the run after it goes to a new text sibling, which is placed immediately BEFORE
the new markup comment.  The children become the siblings before `k`, the shortened text, the
new text, the new comment, a text holding a newline, and the siblings from `k + 1` on; the
values of the two pieces concatenate to the value of the old text. -/
theorem addDisableCommentJsxChildren_keeps_indentation (commentText : Str) (targetLine : Nat)
    (ruleId : Str) (children : List Node) (childrenPos : Nat) (step : Step) (k : Nat)
    (previous : Node) (before run : Str)
    (hidx : widen (segmentChildren children) targetLine
      (indexOfTarget children childrenPos step) = ((k + 1 : Nat) : Int))
    (hwf : holesHaveExpression (segmentChildren children) = true)
    (hnomerge : ∀ j s, nearestBefore (segmentChildren children) ((k + 1 : Nat) : Int) =
      some (j, s) → isDirectiveHole s = false)
    (hprev : (segmentChildren children).get? k = some previous)
    (hty : previous.type = "JSXText")
    (hval : previous.value = before ++ '\n' :: run)
    (hrun : '\n' ∉ run) (hne : run ≠ []) (hws : ∀ c ∈ run, isWhiteSpace c = true) :
    addDisableCommentJsxChildren commentText targetLine ruleId children childrenPos step =
      some ((segmentChildren children).take k ++
        [previous.setAttrs { previous.attrs with value := before },
          jsxText ('\n' :: run),
          createJsxComment (nextLineDirective ruleId commentText),
          jsxText "\n".toList] ++ (segmentChildren children).drop (k + 1)) ∧
    (previous.setAttrs { previous.attrs with value := before }).value ++
      (jsxText ('\n' :: run)).value = previous.value := by
  have hlen : k < (segmentChildren children).length := by
    by_contra h
    rw [List.get?_eq_none.mpr (by omega)] at hprev
    cases hprev
  constructor
  · unfold addDisableCommentJsxChildren
    simp only [hidx]
    rw [tryRewriteJsxEslintDisable_eq _ _ ruleId (by exact_mod_cast hlen) hwf]
    have hres : jsxMergeResult (segmentChildren children) ruleId
        (nearestBefore (segmentChildren children) ((k + 1 : Nat) : Int)) =
        (false, segmentChildren children) := by
      cases hn : nearestBefore (segmentChildren children) ((k + 1 : Nat) : Int) with
      | none => rfl
      | some p =>
        obtain ⟨j, s⟩ := p
        simp [jsxMergeResult, hnomerge j s hn]
    rw [hres]
    dsimp only
    rw [splitPreviousSibling_of_run _ k previous before run hprev hty hval hrun hne hws]
    dsimp only
    have e : ((k + 1 : Nat) : Int) + 1 = ((k + 2 : Nat) : Int) := by push_cast; ring
    have hl : ((segmentChildren children).take k ++
        [previous.setAttrs { previous.attrs with value := before },
          jsxText ('\n' :: run)]).length = k + 2 := by
      rw [List.length_append, List.length_take, Nat.min_eq_left (Nat.le_of_lt hlen)]
      rfl
    rw [e, splice_insert _ (k + 2) (by rw [List.length_append, hl]; omega),
      List.take_left' hl, List.drop_left' hl]
    simp
  · rw [hval]
    rfl

/-- C20, counterexample to the claim as stated: the children of the test that inserts a new
comment in markup, an indentation text, the target and a text holding a newline.  The text
that receives the indentation run is the sibling before the new comment, at index 1, and no
text after the comment holds a space. -/
theorem addDisableCommentJsxChildren_keeps_indentation_counterexample :
    addDisableCommentJsxChildren defaultMessage 4 "eqeqeq".toList
        [parsedText 3 4 "\n      ".toList, parsed "JSXElement" 4 4 [],
          parsedText 4 5 "\n".toList] 2 ⟨2, some 1⟩ =
      some [parsedText 3 4 [], jsxText "\n      ".toList,
        createJsxComment (nextLineDirective "eqeqeq".toList defaultMessage),
        jsxText "\n".toList, parsed "JSXElement" 4 4 [], parsedText 4 5 "\n".toList] ∧
    ∀ s ∈ [jsxText "\n".toList, parsed "JSXElement" 4 4 [], parsedText 4 5 "\n".toList],
      ' ' ∉ s.value := by
  decide

/-- C20, witness: an indentation text, the target on line 3 and a text holding a newline.
The indentation text is cut: it keeps the empty string, and the newline with the two spaces
stands in a new text before the comment. -/
theorem addDisableCommentJsxChildren_keeps_indentation_witness :
    addDisableCommentJsxChildren defaultMessage 3 "no-undef".toList
        [parsedText 2 3 "\n  ".toList, parsed "JSXElement" 3 3 [],
          parsedText 3 4 "\n".toList] 2 ⟨2, some 1⟩ =
      some [parsedText 2 3 [], jsxText "\n  ".toList,
        createJsxComment (nextLineDirective "no-undef".toList defaultMessage),
        jsxText "\n".toList, parsed "JSXElement" 3 3 [], parsedText 3 4 "\n".toList] :=
  (addDisableCommentJsxChildren_keeps_indentation defaultMessage 3 "no-undef".toList
    [parsedText 2 3 "\n  ".toList, parsed "JSXElement" 3 3 [], parsedText 3 4 "\n".toList]
    2 ⟨2, some 1⟩ 0 (parsedText 2 3 "\n  ".toList) [] "  ".toList
    (by decide) (by decide)
    (fun j s h => by
      have hn : nearestBefore (segmentChildren [parsedText 2 3 "\n  ".toList,
          parsed "JSXElement" 3 3 [], parsedText 3 4 "\n".toList]) ((0 + 1 : Nat) : Int) =
          none := by decide
      rw [hn] at h
      cases h)
    (by decide) (by decide) (by decide) (by decide) (by decide) (by decide)).1.trans
    (by decide)

/-! ## The insertion among markup children (C21) -/

/-- The two outcomes of the split of the previous sibling: nothing changes, or the text at
the index before the insertion index is cut at `lastIndexOf` of the newline. -/
theorem splitPreviousSibling_cases (cs : List Node) (i : Int) :
    splitPreviousSibling cs i = (cs, i) ∨
      ∃ (k : Nat) (previous : Node), i = ((k + 1 : Nat) : Int) ∧ cs.get? k = some previous ∧
        previous.type = "JSXText" ∧
        splitPreviousSibling cs i =
          (cs.take k ++
            [previous.setAttrs { previous.attrs with
                value := substr previous.value 0 (some (lastIndexOf previous.value '\n')) },
              jsxText (substr previous.value (lastIndexOf previous.value '\n') none)] ++
            cs.drop (k + 1), i + 1) := by
  by_cases hi : i < 1
  · left
    unfold splitPreviousSibling getAt
    rw [if_pos (by omega)]
  · obtain ⟨k, hk⟩ : ∃ k : Nat, i = ((k + 1 : Nat) : Int) := ⟨(i - 1).toNat, by omega⟩
    subst hk
    unfold splitPreviousSibling
    rw [getAt_pred cs (k + 1) (by omega), Nat.add_sub_cancel]
    cases hp : cs.get? k with
    | none => exact Or.inl rfl
    | some previous =>
      dsimp only
      by_cases hty : previous.type = "JSXText"
      · rw [if_pos hty]
        split
        · right
          have hlen : k < cs.length := by
            by_contra h
            rw [List.get?_eq_none.mpr (by omega)] at hp
            cases hp
          refine ⟨k, previous, rfl, hp, hty, ?_⟩
          rw [setAt_pred cs (k + 1) (by omega), Nat.add_sub_cancel,
            splice_insert _ (k + 1) (by rw [List.length_set]; omega)]
          obtain ⟨h1, h2⟩ := take_set_succ cs k
            (previous.setAttrs { previous.attrs with
              value := substr previous.value 0 (some (lastIndexOf previous.value '\n')) }) hlen
          rw [h1, h2]
          simp
        · exact Or.inl rfl
      · rw [if_neg hty]
        exact Or.inl rfl

theorem splice_zero {α : Type} (xs : List α) (i : Int) (items : List α) :
    splice xs i 0 items =
      xs.take (relativeStart xs.length i) ++ items ++ xs.drop (relativeStart xs.length i) :=
  rfl

/-- C21, the behaviour of the code.  Let `cs` be the children after the segmentation, let `i`
be the insertion index that the backward scan leaves, at most the length of `cs`, and let no
directive be merged.  Then the children become one of two lists.  Either the previous
sibling is not split, and the new markup comment and the text holding a newline are spliced
into `cs` at the position that `splice` derives from `i`: the position `i` itself when
`0 ≤ i`, and the position counted from the end, `length + i`, when `i` is negative.  Or the
sibling before `i` is a text that is cut in two, and the children are the siblings before it,
its two pieces, the comment, the newline text and the siblings from `i` on.  In both cases
the siblings of `cs` keep their order and, the cut text apart, are the same; with the index
`-1` that `indexOf` gives for a target that is not among the children, the new nodes stand
before the last sibling. -/
theorem addDisableCommentJsxChildren_splices (commentText : Str) (targetLine : Nat)
    (ruleId : Str) (children : List Node) (childrenPos : Nat) (step : Step) (i : Int)
    (hidx : widen (segmentChildren children) targetLine
      (indexOfTarget children childrenPos step) = i)
    (hi : i ≤ (segmentChildren children).length)
    (hwf : holesHaveExpression (segmentChildren children) = true)
    (hnomerge : ∀ j s, nearestBefore (segmentChildren children) i = some (j, s) →
      isDirectiveHole s = false) :
    ((splitPreviousSibling (segmentChildren children) i = (segmentChildren children, i) ∧
        addDisableCommentJsxChildren commentText targetLine ruleId children childrenPos step =
          some ((segmentChildren children).take
              (relativeStart (segmentChildren children).length i) ++
            [createJsxComment (nextLineDirective ruleId commentText), jsxText "\n".toList] ++
            (segmentChildren children).drop
              (relativeStart (segmentChildren children).length i))) ∨
      ∃ (k : Nat) (previous : Node), i = ((k + 1 : Nat) : Int) ∧
        (segmentChildren children).get? k = some previous ∧ previous.type = "JSXText" ∧
        addDisableCommentJsxChildren commentText targetLine ruleId children childrenPos step =
          some ((segmentChildren children).take k ++
            [previous.setAttrs { previous.attrs with
                value := substr previous.value 0 (some (lastIndexOf previous.value '\n')) },
              jsxText (substr previous.value (lastIndexOf previous.value '\n') none),
              createJsxComment (nextLineDirective ruleId commentText),
              jsxText "\n".toList] ++
            (segmentChildren children).drop (k + 1))) ∧
    (0 ≤ i → relativeStart (segmentChildren children).length i = i.toNat) ∧
    (i < 0 → relativeStart (segmentChildren children).length i =
      ((segmentChildren children).length + i).toNat) := by
  have hres : jsxMergeResult (segmentChildren children) ruleId
      (nearestBefore (segmentChildren children) i) = (false, segmentChildren children) := by
    cases hn : nearestBefore (segmentChildren children) i with
    | none => rfl
    | some p =>
      obtain ⟨j, s⟩ := p
      simp [jsxMergeResult, hnomerge j s hn]
  have hrun : addDisableCommentJsxChildren commentText targetLine ruleId children childrenPos
      step = some (splice (splitPreviousSibling (segmentChildren children) i).1
        (splitPreviousSibling (segmentChildren children) i).2 0
        [createJsxComment (nextLineDirective ruleId commentText), jsxText "\n".toList]) := by
    unfold addDisableCommentJsxChildren
    simp only [hidx]
    rw [tryRewriteJsxEslintDisable_eq _ _ ruleId hi hwf, hres]
  refine ⟨?_, fun h0 => ?_, fun h0 => ?_⟩
  · rcases splitPreviousSibling_cases (segmentChildren children) i with h | ⟨k, previous, hk, hp, hty, h⟩
    · left
      refine ⟨h, ?_⟩
      rw [hrun, h]
      rfl
    · right
      refine ⟨k, previous, hk, hp, hty, ?_⟩
      have hlen : k < (segmentChildren children).length := by
        by_contra hc
        rw [List.get?_eq_none.mpr (by omega)] at hp
        cases hp
      rw [hrun, h]
      dsimp only
      have e : i + 1 = ((k + 2 : Nat) : Int) := by rw [hk]; push_cast; ring
      have hl : ((segmentChildren children).take k ++
          [previous.setAttrs { previous.attrs with
              value := substr previous.value 0 (some (lastIndexOf previous.value '\n')) },
            jsxText (substr previous.value (lastIndexOf previous.value '\n') none)]).length =
          k + 2 := by
        rw [List.length_append, List.length_take, Nat.min_eq_left (Nat.le_of_lt hlen)]
        rfl
      rw [e, splice_insert _ (k + 2) (by rw [List.length_append, hl]; omega),
        List.take_left' hl, List.drop_left' hl]
      simp
  · unfold relativeStart
    rw [if_neg (by omega), Nat.min_eq_left (by omega)]
  · unfold relativeStart
    rw [if_pos h0]

/-- C21, failing input: an element whose only child is a text that starts on line 2, the
line of the diagnostic.  The text is the target; the segmentation loop replaces it by two
fragments, `indexOf` does not find it, and the insertion index is `-1`: the comment and the
newline text are spliced before the last fragment, after the text of the line they should
precede.  The whole transform on the file of that element gives the same children. -/
theorem addDisableCommentJsxChildren_splices_witness :
    indexOfTarget [parsedText 2 3 "text ' more\n".toList] 2 ⟨2, some 0⟩ = -1 ∧
    addDisableCommentJsxChildren defaultMessage 2 "react/no-unescaped-entities".toList
        [parsedText 2 3 "text ' more\n".toList] 2 ⟨2, some 0⟩ =
      some [jsxText "text ' more".toList,
        createJsxComment (nextLineDirective "react/no-unescaped-entities".toList
          defaultMessage),
        jsxText "\n".toList, jsxText "\n".toList] ∧
    codeMod (some [⟨some [⟨some "react/no-unescaped-entities".toList, 2, 2⟩]⟩]) "a.js".toList
        (fileOf 4 [textTargetElement]) ⟨none, none, false⟩ =
      some (.source (fileOf 4 [parsed "JSXElement" 1 3
        [("openingElement", .one (parsed "JSXOpeningElement" 1 2
          [("name", .one (parsed "JSXIdentifier" 1 1 []))])),
          ("closingElement", .one (parsed "JSXClosingElement" 3 3 [])),
          ("children", .many [jsxText "text ' more".toList,
            createJsxComment (nextLineDirective "react/no-unescaped-entities".toList
              defaultMessage),
            jsxText "\n".toList, jsxText "\n".toList])]]), []) := by
  refine ⟨by decide, ?_, by decide⟩
  have hn : ∀ j s, nearestBefore (segmentChildren [parsedText 2 3 "text ' more\n".toList])
      (-1) = some (j, s) → isDirectiveHole s = false := by
    intro j s h
    have hnone : nearestBefore (segmentChildren [parsedText 2 3 "text ' more\n".toList])
        (-1) = none := by decide
    rw [hnone] at h
    cases h
  rcases (addDisableCommentJsxChildren_splices defaultMessage 2
    "react/no-unescaped-entities".toList [parsedText 2 3 "text ' more\n".toList] 2
    ⟨2, some 0⟩ (-1) (by decide) (by decide) (by decide) hn).1 with ⟨-, h⟩ | ⟨k, -, hk, -⟩
  · exact h.trans (by decide)
  · omega

/-! ## The keyword of a rewritten directive (C22) -/

theorem directiveForm_of_keyword (K rest : Str)
    (hK : K = "eslint-disable-line".toList ∨ K = "eslint-disable-next-line".toList)
    (hrest : rest = [] ∨ ∃ g, rest = ' ' :: g) :
    directiveForm (' ' :: (K ++ rest)) = some K := by
  have hre := regexp_of_keyword K rest hK
  have hform : ∀ tail : Str,
      (if "eslint-disable-next-line".toList.isPrefixOf (trimStart ([' '] ++ K ++ tail)) then
        some "eslint-disable-next-line".toList
      else some "eslint-disable-line".toList) = some K := by
    intro tail
    have ht : trimStart ([' '] ++ K ++ tail) = K ++ tail := by
      rcases hK with h | h <;> subst h <;> rfl
    rw [ht]
    rcases hK with h | h
    · subst h
      rw [if_neg]
      exact fun hc => by
        have : "eslint-disable-next-line".toList.isPrefixOf
            ("eslint-disable-line".toList ++ tail) = false := rfl
        rw [this] at hc
        cases hc
    · subst h
      rw [if_pos]
      exact List.isPrefixOf_iff_prefix.mpr (List.prefix_append _ _)
  unfold directiveForm
  rw [show ' ' :: (K ++ rest) = [' '] ++ K ++ rest from by simp, hre]
  rcases hrest with h | ⟨g, h⟩
  · subst h
    simp only [matchAfterKeyword]
    have := hform []
    simpa using this
  · subst h
    simp only [matchAfterKeyword, show isWhiteSpace ' ' = true from by decide, if_true]
    have := hform ([' '] ++ g.takeWhile (fun x => !isLineTerminator x))
    simpa using this

theorem disable_of_one_space (K rest : Str) (m : RegExpMatch)
    (hK : K = "eslint-disable-line".toList ∨ K = "eslint-disable-next-line".toList)
    (hrest : rest = [] ∨ ∃ g, rest = ' ' :: g)
    (hm : eslintDisableRegexp (' ' :: (K ++ rest)) = some m) : disable m = K := by
  have hno : ' ' ∉ K := by
    rcases hK with h | h <;> subst h <;> decide
  have hre := regexp_of_keyword K rest hK
  rw [show ' ' :: (K ++ rest) = [' '] ++ K ++ rest from by simp, hre] at hm
  rcases hrest with h | ⟨g, h⟩
  · subst h
    simp only [matchAfterKeyword, Option.some.injEq] at hm
    subst hm
    have h1 := split_char_append ' ' [] K (by simp)
    rw [split_char_none ' ' K hno] at h1
    simp only [disable, split, show " ".toList = [' '] from rfl]
    rw [show [' '] ++ K = [] ++ ' ' :: K from rfl, h1]
    rfl
  · subst h
    simp only [matchAfterKeyword, show isWhiteSpace ' ' = true from by decide, if_true,
      Option.some.injEq] at hm
    subst hm
    have := disable_of_keyword K (g.takeWhile (fun x => !isLineTerminator x)) hK
    simp only [disable, show " ".toList = [' '] from rfl, this, Option.getD_some]

/-- C22, the behaviour of the code.  The keyword that the rewrite puts into the text is the
second of the pieces that the spaces separate in the matched text.  When the comment text
starts with exactly one space before the keyword, and the keyword is followed by a space or
ends the text, that piece is the keyword: the rewritten text is accepted by the pattern, with
the same keyword.  With no white space before the keyword the piece is the first rule, with
two spaces it is empty, and with a tab it is the first rule again: the rewritten text is not
accepted by the pattern any more. -/
theorem tryRewriteEslintDisable_keyword_form :
    (∀ (cs : List Comment) (c : Comment) (K rest ruleId : Str),
      (K = "eslint-disable-line".toList ∨ K = "eslint-disable-next-line".toList) →
      c.value = ' ' :: (K ++ rest) → (rest = [] ∨ ∃ g, rest = ' ' :: g) →
      ∃ m, eslintDisableRegexp c.value = some m ∧ directiveForm c.value = some K ∧
        (ruleId ∉ disabledRules m →
          ∃ v, tryRewriteEslintDisable (some (cs ++ [c])) ruleId =
              (true, some (cs ++ [{ c with value := v }])) ∧
            directiveForm v = some K)) ∧
    (directiveForm "eslint-disable-line eqeqeq".toList = some "eslint-disable-line".toList ∧
      tryRewriteEslintDisable
          (some [⟨"CommentLine", "eslint-disable-line eqeqeq".toList, false, true, none⟩])
          "no-undef".toList =
        (true, some [⟨"CommentLine", " eqeqeq eqeqeq, no-undef".toList, false, true, none⟩]) ∧
      directiveForm " eqeqeq eqeqeq, no-undef".toList = none) ∧
    (directiveForm "  eslint-disable-next-line eqeqeq".toList =
        some "eslint-disable-next-line".toList ∧
      tryRewriteEslintDisable
          (some [⟨"CommentLine", "  eslint-disable-next-line eqeqeq".toList, true, false, none⟩])
          "no-undef".toList =
        (true, some [⟨"CommentLine", "  eqeqeq, no-undef".toList, true, false, none⟩]) ∧
      directiveForm "  eqeqeq, no-undef".toList = none) ∧
    (directiveForm "\teslint-disable-line eqeqeq".toList = some "eslint-disable-line".toList ∧
      tryRewriteEslintDisable
          (some [⟨"CommentLine", "\teslint-disable-line eqeqeq".toList, false, true, none⟩])
          "no-undef".toList =
        (true, some [⟨"CommentLine", " eqeqeq eqeqeq, no-undef".toList, false, true, none⟩])) ∧
    (directiveForm "eslint-disable-next-line".toList = some "eslint-disable-next-line".toList ∧
      tryRewriteEslintDisable
          (some [⟨"CommentLine", "eslint-disable-next-line".toList, true, false, none⟩])
          "no-undef".toList =
        (true, some [⟨"CommentLine", " undefined , no-undef".toList, true, false, none⟩])) := by
  refine ⟨?_, by decide, by decide, by decide, by decide⟩
  intro cs c K rest ruleId hK hv hrest
  have hform := directiveForm_of_keyword K rest hK hrest
  rw [← hv] at hform
  cases hm : eslintDisableRegexp c.value with
  | none =>
    rw [directiveForm, hm] at hform
    cases hform
  | some m =>
    refine ⟨m, rfl, hform, fun hnew => ?_⟩
    have hdis : disable m = K := disable_of_one_space K rest m hK hrest (by rw [← hv]; exact hm)
    have hcond : ¬ ((disabledRules m).length = 0 ∨ ruleId ∈ disabledRules m) := by
      simp only [not_or]
      exact ⟨disabledRules_length_ne_zero m, hnew⟩
    refine ⟨rewrittenValue c m ruleId, ?_, ?_⟩
    · rw [tryRewriteEslintDisable_of_match cs c m ruleId hm, if_neg hcond]
    · unfold rewrittenValue
      rw [hdis]
      have e : ∀ tail : Str, " ".toList ++ K ++ " ".toList ++ join ", ".toList (disabledRules m) ++
          ", ".toList ++ ruleId ++ explanationSuffix m ++ tail =
          ' ' :: (K ++ ' ' :: (join ", ".toList (disabledRules m) ++
            ", ".toList ++ ruleId ++ explanationSuffix m ++ tail)) := by
        intro tail
        simp
      by_cases hb : c.type = "CommentBlock"
      · simp only [hb, if_true]
        rw [e " ".toList]
        exact directiveForm_of_keyword K _ hK (Or.inr ⟨_, rfl⟩)
      · simp only [hb, if_false]
        have := e []
        rw [List.append_nil] at this
        rw [this]
        exact directiveForm_of_keyword K _ hK (Or.inr ⟨_, rfl⟩)

/-- C22, failing input: the comment `//eslint-disable-line eqeqeq`, written without a space,
on a statement that also violates `no-undef`.  The directive is accepted by the pattern and
comes back as ` eqeqeq eqeqeq, no-undef`, which is no directive.  The same comment written
with one space keeps its keyword. -/
theorem tryRewriteEslintDisable_keyword_form_witness :
    (tryRewriteEslintDisable
        (some [⟨"CommentLine", "eslint-disable-line eqeqeq".toList, false, true, none⟩])
        "no-undef".toList =
      (true, some [⟨"CommentLine", " eqeqeq eqeqeq, no-undef".toList, false, true, none⟩]) ∧
      eslintDisableRegexp " eqeqeq eqeqeq, no-undef".toList = none) ∧
    ∃ m, eslintDisableRegexp " eslint-disable-line eqeqeq".toList = some m ∧
      directiveForm " eslint-disable-line eqeqeq".toList = some "eslint-disable-line".toList ∧
      ("no-undef".toList ∉ disabledRules m →
        ∃ v, tryRewriteEslintDisable (some ([] ++
              [⟨"CommentLine", " eslint-disable-line eqeqeq".toList, false, true, none⟩]))
              "no-undef".toList =
            (true, some ([] ++ [⟨"CommentLine", v, false, true, none⟩])) ∧
          directiveForm v = some "eslint-disable-line".toList) :=
  ⟨by decide,
    tryRewriteEslintDisable_keyword_form.1 []
      ⟨"CommentLine", " eslint-disable-line eqeqeq".toList, false, true, none⟩
      "eslint-disable-line".toList " eqeqeq".toList "no-undef".toList (Or.inl rfl) rfl
      (Or.inr ⟨_, rfl⟩)⟩

/-! ## A directive without rules (C23) -/

/-- The match and the locals of `tryRewriteEslintDisable` on a directive text that names no
rule: ` K`, or ` K -- E`. -/
theorem locals_of_bare_directive (K : Str) (E : Option Str)
    (hK : K = "eslint-disable-line".toList ∨ K = "eslint-disable-next-line".toList)
    (hE : ∀ e, E = some e → ∀ x ∈ e, isLineTerminator x = false) :
    ∃ m, eslintDisableRegexp (" ".toList ++ K ++ (E.elim [] fun e => " -- ".toList ++ e)) =
        some m ∧
      disabledRules m = [[]] ∧ disable m = K ∧
      explanationSuffix m = (E.elim [] fun e => " -- ".toList ++ trim e) := by
  have hno : ' ' ∉ K := by
    rcases hK with h | h <;> subst h <;> decide
  cases E with
  | none =>
    refine ⟨⟨[' '] ++ K, [], []⟩, ?_, rfl, ?_, rfl⟩
    · have := regexp_of_keyword K [] hK
      simpa [matchAfterKeyword] using this
    · have h1 := split_char_append ' ' [] K (by simp)
      rw [split_char_none ' ' K hno] at h1
      simp only [disable, split, show " ".toList = [' '] from rfl]
      rw [show [' '] ++ K = [] ++ ' ' :: K from rfl, h1]
      rfl
  | some e =>
    have he := hE e rfl
    have hg : (['-', '-', ' '] ++ e).takeWhile (fun x => !isLineTerminator x) =
        ['-', '-', ' '] ++ e :=
      takeWhile_all _ (fun x hx => by
        simp only [List.mem_append, List.mem_cons, List.mem_singleton, List.not_mem_nil,
          or_false] at hx
        rcases hx with (h | h | h) | h
        · subst h; decide
        · subst h; decide
        · subst h; decide
        · simp [he x h])
    have hsplit : splitAux ['-', '-'] 0 (['-', '-', ' '] ++ e) =
        [] :: splitAux ['-', '-'] 0 (' ' :: e) := by
      have := splitAux_sep ['-', '-'] (' ' :: e) (by simp)
      simpa using this
    refine ⟨⟨[' '] ++ K ++ [' '] ++ (['-', '-', ' '] ++ e), [' '], ['-', '-', ' '] ++ e⟩,
      ?_, ?_, ?_, ?_⟩
    · have := regexp_of_keyword K (' ' :: (['-', '-', ' '] ++ e)) hK
      simp only [matchAfterKeyword, show isWhiteSpace ' ' = true from by decide, if_true, hg]
        at this
      simpa using this
    · simp only [disabledRules, split, show "--".toList = ['-', '-'] from rfl, hsplit,
        List.headD_cons]
      rfl
    · have := disable_of_keyword K (['-', '-', ' '] ++ e) hK
      simp only [disable, show " ".toList = [' '] from rfl, this, Option.getD_some]
    · have hne := splitAux_ne_nil ['-', '-'] (' ' :: e) 0
      have hj := join_split ['-', '-'] (' ' :: e) (by simp)
      unfold split at hj
      simp only [explanationSuffix, explanationParts, split, show "--".toList = ['-', '-'] from rfl,
        hsplit, List.tail_cons, hj]
      rw [if_pos (by simpa [List.length_eq_zero] using hne)]
      have := trim_append_ws_left [' '] e (by decide)
      simp only [List.singleton_append] at this
      rw [this]
      rfl

/-- C23, the behaviour of the code.  Let the last comment be a directive that names no rule:
its text is ` K` for one of the two keywords, optionally followed by ` -- E` with an
explanation `E` without line terminator.  Its list of disabled rules is then not empty, it
holds the empty string, so the test for an empty list never succeeds; for every non-empty
`ruleId` the call returns `true` and rewrites the text to ` K , ruleId`, followed by ` -- ` and
`E` trimmed when there was an explanation, and by a space in a block comment. -/
theorem tryRewriteEslintDisable_without_rules (cs : List Comment) (c : Comment) (K : Str)
    (E : Option Str) (ruleId : Str)
    (hK : K = "eslint-disable-line".toList ∨ K = "eslint-disable-next-line".toList)
    (hE : ∀ e, E = some e → ∀ x ∈ e, isLineTerminator x = false)
    (hv : c.value = " ".toList ++ K ++ (E.elim [] fun e => " -- ".toList ++ e))
    (hr : ruleId ≠ []) :
    tryRewriteEslintDisable (some (cs ++ [c])) ruleId =
      (true, some (cs ++ [{ c with
        value := " ".toList ++ K ++ " , ".toList ++ ruleId ++
          (E.elim [] fun e => " -- ".toList ++ trim e) ++
          (if c.type = "CommentBlock" then " ".toList else []) }])) ∧
    (∀ m : RegExpMatch, (disabledRules m).length ≠ 0) := by
  refine ⟨?_, disabledRules_length_ne_zero⟩
  obtain ⟨m, hm, hrules, hdis, hsuf⟩ := locals_of_bare_directive K E hK hE
  rw [← hv] at hm
  have hcond : ¬ ((disabledRules m).length = 0 ∨ ruleId ∈ disabledRules m) := by
    rw [hrules]
    simp only [List.length_singleton, List.mem_singleton, not_or]
    exact ⟨by decide, hr⟩
  rw [tryRewriteEslintDisable_of_match cs c m ruleId hm, if_neg hcond]
  simp only [rewrittenValue, hdis, hsuf, hrules, join]
  by_cases hb : c.type = "CommentBlock" <;> simp [hb]

/-- C23, failing input: the line comment ` eslint-disable-next-line`, which disables every
rule, becomes ` eslint-disable-next-line , eqeqeq`; with an explanation, the comment
` eslint-disable-line -- legacy` becomes ` eslint-disable-line , eqeqeq -- legacy`. -/
theorem tryRewriteEslintDisable_without_rules_witness :
    tryRewriteEslintDisable
        (some ([] ++ [⟨"CommentLine", " ".toList ++ "eslint-disable-next-line".toList ++ [],
          true, false, none⟩])) "eqeqeq".toList =
      (true, some [⟨"CommentLine", " eslint-disable-next-line , eqeqeq".toList,
        true, false, none⟩]) ∧
    tryRewriteEslintDisable
        (some [⟨"CommentLine", " eslint-disable-line -- legacy".toList, false, true, none⟩])
        "eqeqeq".toList =
      (true, some [⟨"CommentLine", " eslint-disable-line , eqeqeq -- legacy".toList,
        false, true, none⟩]) :=
  ⟨(tryRewriteEslintDisable_without_rules [] _ "eslint-disable-next-line".toList none
      "eqeqeq".toList (Or.inr rfl) (by simp) rfl (by decide)).1.trans (by decide),
    by decide⟩

/-! ## Segmenting again (C24) -/

theorem mem_consHead (x : Char) (l : Str) :
    ∀ ls : List Str, l ∈ consHead x ls → (∃ l2, l = x :: l2 ∧ (l2 ∈ ls ∨ (ls = [] ∧ l2 = []))) ∨
      l ∈ ls
  | [], h => by
    simp only [consHead, List.mem_singleton] at h
    exact Or.inl ⟨[], h, Or.inr ⟨rfl, rfl⟩⟩
  | a :: rest, h => by
    simp only [consHead, List.mem_cons] at h
    rcases h with h | h
    · exact Or.inl ⟨a, h, Or.inl (by simp)⟩
    · exact Or.inr (by simp [h])

/-- The pieces between the occurrences of a character do not hold that character. -/
theorem not_mem_of_mem_split (c : Char) :
    ∀ (s l : Str), l ∈ splitAux [c] 0 s → c ∉ l
  | [], l, h => by
    simp only [splitAux, List.mem_singleton] at h
    subst h
    simp
  | x :: xs, l, h => by
    rw [splitAux_cons_zero] at h
    by_cases hx : x = c
    · subst hx
      have hp : [x].isPrefixOf (x :: xs) = true := by simp [List.isPrefixOf]
      rw [if_pos hp] at h
      simp only [List.length_singleton, Nat.sub_self, List.mem_cons] at h
      rcases h with h | h
      · subst h; simp
      · exact not_mem_of_mem_split x xs l h
    · have hp : ¬ ([c].isPrefixOf (x :: xs) = true) := by
        simp [List.isPrefixOf, Ne.symm hx]
      rw [if_neg hp] at h
      rcases mem_consHead x l _ h with ⟨l2, hl, hl2⟩ | h
      · subst hl
        rcases hl2 with hl2 | ⟨-, hl2⟩
        · have := not_mem_of_mem_split c xs l2 hl2
          simp [Ne.symm hx, this]
        · subst hl2
          simp [Ne.symm hx]
      · exact not_mem_of_mem_split c xs l h

theorem mem_of_mem_trimEnd (l : Str) (c : Char) (h : c ∈ trimEnd l) : c ∈ l := by
  have := trimEnd_append_drop l
  rw [← this]
  exact List.mem_append_left _ h

theorem mem_of_mem_trimStart (l : Str) (c : Char) (h : c ∈ trimStart l) : c ∈ l := by
  have := take_append_trimStart l
  rw [← this]
  exact List.mem_append_right _ h

/-- A fragment pushed for a line is the newline or holds characters of the line only. -/
theorem mem_segmentLine (linesLength : Nat) (line : Str) (lineIndex : Nat) (f : Str)
    (hf : f ∈ segmentLine linesLength line lineIndex) :
    f = ['\n'] ∨ ∀ c ∈ f, c ∈ line := by
  unfold segmentLine at hf
  simp only [List.mem_append] at hf
  rcases hf with hf | hf
  · right
    have htake : ∀ (n : Int) c, c ∈ substr (trimEnd line) 0 (some n) → c ∈ line := by
      intro n c hc
      unfold substr at hc
      exact mem_of_mem_trimEnd line c (List.mem_of_mem_drop (List.mem_of_mem_take hc))
    have hdrop : ∀ (n : Int) c, c ∈ substr line n none → c ∈ line := by
      intro n c hc
      unfold substr at hc
      exact List.mem_of_mem_drop hc
    split at hf
    · split at hf
      · split at hf
        · simp only [List.mem_singleton] at hf
          subst hf
          exact fun c hc => hc
        · simp only [List.mem_append, List.mem_singleton] at hf
          rcases hf with (hf | hf) | hf
          · split at hf
            · simp only [List.mem_singleton] at hf
              subst hf
              exact htake _
            · cases hf
          · subst hf
            exact fun c hc => mem_of_mem_trimEnd line c (mem_of_mem_trimStart _ c hc)
          · split at hf
            · simp only [List.mem_singleton] at hf
              subst hf
              exact hdrop _
            · cases hf
      · split at hf
        · simp only [List.mem_singleton] at hf
          subst hf
          exact fun c hc => hc
        · simp only [List.mem_cons, List.mem_singleton, List.not_mem_nil, or_false] at hf
          rcases hf with hf | hf
          · subst hf
            exact mem_of_mem_trimEnd line
          · subst hf
            exact hdrop _
    · cases hf
  · left
    split at hf
    · simpa using hf
    · cases hf

theorem mem_segmentLines (linesLength : Nat) (f : Str) :
    ∀ (lines : List Str) (lineIndex : Nat), f ∈ segmentLines linesLength lineIndex lines →
      f = ['\n'] ∨ ∃ line ∈ lines, ∀ c ∈ f, c ∈ line
  | [], _, h => by simp [segmentLines] at h
  | line :: rest, i, h => by
    rw [segmentLines, List.mem_append] at h
    rcases h with h | h
    · rcases mem_segmentLine linesLength line i f h with h | h
      · exact Or.inl h
      · exact Or.inr ⟨line, by simp, h⟩
    · rcases mem_segmentLines linesLength f rest (i + 1) h with h | ⟨l, hl, h⟩
      · exact Or.inl h
      · exact Or.inr ⟨l, by simp [hl], h⟩

/-- A fragment of a text value is the newline or holds no newline. -/
theorem mem_segments (value f : Str) (hf : f ∈ segments value) : f = ['\n'] ∨ '\n' ∉ f := by
  rcases mem_segmentLines _ f _ 0 hf with h | ⟨line, hl, h⟩
  · exact Or.inl h
  · exact Or.inr (fun hc => not_mem_of_mem_split '\n' value line hl (h _ hc))

theorem exists_not_ws_of_trim (f : Str) (h : trim f ≠ []) :
    ∃ c ∈ f, isWhiteSpace c = false := by
  have hs : trimStart f ≠ [] := by
    intro hs
    apply h
    unfold trim
    rw [hs]
    rfl
  obtain ⟨x, xs, hx⟩ := List.exists_cons_of_ne_nil hs
  refine ⟨x, mem_of_mem_trimStart f x (by rw [hx]; simp), ?_⟩
  have := List.head_dropWhile_not isWhiteSpace f hs
  unfold trimStart at hx
  simp only [hx, List.head_cons] at this
  simpa using this

/-- The fragments of a text without newline that holds a character other than white space:
they concatenate to the text, and the text is its own single fragment when it neither starts
nor ends with white space. -/
theorem segments_of_content (f : Str) (hnl : '\n' ∉ f) (hc : trim f ≠ []) :
    (segments f).flatten = f ∧ (trimStart f = f → trimEnd f = f → segments f = [f]) := by
  obtain ⟨c, hcf, hcws⟩ := exists_not_ws_of_trim f hc
  have hte : trimEnd f ≠ [] := trimEnd_ne_nil_of_mem f c hcf hcws
  have hsplit : split f "\n".toList = [f] := split_char_none '\n' f hnl
  constructor
  · rw [segments_flatten, hsplit]
    simp [join, hte]
  · intro h1 h2
    have hlen : (trimEnd f).length ≠ 0 := by
      rw [h2]
      intro h0
      exact hte (by rw [h2]; exact List.length_eq_zero.mp h0)
    unfold segments
    rw [hsplit]
    simp only [List.length_singleton, segmentLines, List.append_nil]
    unfold segmentLine
    simp only [h2, h1]
    rw [h2] at hlen
    simp [hlen]

theorem segmentLoop_eq (k : Nat) : ∀ (children : List Node), k ≤ children.length →
    segmentLoop k children = (children.take k).flatMap segmentSibling ++ children.drop k := by
  induction k with
  | zero => intro children _; simp [segmentLoop]
  | succ k ih =>
    intro children hk
    have hlt : k < children.length := hk
    have hget : children.get? k = some children[k] := by
      rw [List.get?_eq_getElem?, List.getElem?_eq_getElem hlt]
    have htake : children.take (k + 1) = children.take k ++ [children[k]] := by
      rw [List.take_succ, List.getElem?_eq_getElem hlt]
      rfl
    have hdrop : children.drop k = children[k] :: children.drop (k + 1) :=
      List.drop_eq_getElem_cons hlt
    rw [segmentLoop, hget]
    dsimp only
    by_cases hseg : isSegmented children[k] = true
    · rw [if_pos hseg]
      have hsp : splice children (k : Int) 1 ((segments children[k].value).map jsxText) =
          children.take k ++ (segments children[k].value).map jsxText ++
            children.drop (k + 1) := by
        unfold splice relativeStart
        rw [if_neg (by omega), Int.toNat_ofNat, Nat.min_eq_left (Nat.le_of_lt hlt)]
      have hl : (children.take k).length = k := by
        rw [List.length_take, Nat.min_eq_left (Nat.le_of_lt hlt)]
      rw [hsp, ih _ (by simp only [List.length_append, hl]; omega)]
      rw [List.append_assoc, List.take_left' hl, List.drop_left' hl, htake, List.flatMap_append]
      simp [segmentSibling, hseg]
    · rw [if_neg hseg, ih children (Nat.le_of_lt hlt), htake, List.flatMap_append, hdrop]
      simp [segmentSibling, hseg]

/-- The segmentation loop replaces every sibling on its own. -/
theorem segmentChildren_eq (children : List Node) :
    segmentChildren children = children.flatMap segmentSibling := by
  unfold segmentChildren
  rw [segmentLoop_eq _ _ (le_refl _)]
  simp

theorem isSegmented_jsxText (f : Str) (hnl : '\n' ∉ f) : isSegmented (jsxText f) = true := by
  unfold isSegmented jsxText bareNode
  simp only [Node.type, Node.value, Node.attrs, decide_eq_true_eq]
  refine ⟨trivial, fun h => hnl ?_⟩
  cases f with
  | nil => simp at h
  | cons x xs =>
    simp only [List.head?_cons, Option.some.injEq] at h
    rw [h.1]
    simp

theorem value_segmentSibling (s : Node)
    (h : isSegmented s = true → '\n' ∉ s.value ∧ trim s.value ≠ []) :
    ((segmentSibling s).map Node.value).flatten = s.value := by
  unfold segmentSibling
  by_cases hs : isSegmented s = true
  · rw [if_pos hs, map_value_jsxText]
    exact (segments_of_content s.value (h hs).1 (h hs).2).1
  · rw [if_neg hs]
    simp

theorem value_segmentChildren :
    ∀ cs : List Node, (∀ s ∈ cs, isSegmented s = true → '\n' ∉ s.value ∧ trim s.value ≠ []) →
      ((segmentChildren cs).map Node.value).flatten = (cs.map Node.value).flatten := by
  intro cs
  rw [segmentChildren_eq]
  induction cs with
  | nil => intro _; rfl
  | cons s rest ih =>
    intro h
    rw [List.flatMap_cons, List.map_append, List.flatten_append,
      value_segmentSibling s (h s (List.mem_cons_self _ _)),
      ih (fun x hx => h x (List.mem_cons_of_mem _ hx))]
    simp

/-- C24, as amended.  Every fragment that the segmenter produces for a text value is the
newline or holds no newline.  When such a fragment is met again as a text sibling, the
newline is left in place, and a fragment that holds a character other than white space is
replaced by fragments that concatenate to exactly itself, and by itself alone when it neither
starts nor ends with white space.  The loop replaces each sibling on its own, so that
segmenting again a children list none of whose fragments is white space only leaves the
concatenation of the text values unchanged. -/
theorem resegmentation_keeps_content (value : Str) :
    (∀ f ∈ segments value, f = ['\n'] ∨ '\n' ∉ f) ∧
    segmentSibling (jsxText ['\n']) = [jsxText ['\n']] ∧
    (∀ f : Str, '\n' ∉ f → trim f ≠ [] →
      segmentSibling (jsxText f) = (segments f).map jsxText ∧
      (segments f).flatten = f ∧
      (trimStart f = f → trimEnd f = f → segmentSibling (jsxText f) = [jsxText f])) ∧
    (∀ cs : List Node, segmentChildren cs = cs.flatMap segmentSibling) ∧
    (∀ cs : List Node,
      (∀ s ∈ cs, isSegmented s = true → ∀ f ∈ segments s.value, f = ['\n'] ∨ trim f ≠ []) →
      ((segmentChildren (segmentChildren cs)).map Node.value).flatten =
        ((segmentChildren cs).map Node.value).flatten) := by
  refine ⟨mem_segments value, by decide, ?_, segmentChildren_eq, ?_⟩
  · intro f hnl hc
    have hseg := isSegmented_jsxText f hnl
    have hcontent := segments_of_content f hnl hc
    have hs : segmentSibling (jsxText f) = (segments f).map jsxText := by
      unfold segmentSibling
      rw [if_pos hseg]
      rfl
    refine ⟨hs, hcontent.1, fun h1 h2 => ?_⟩
    rw [hs, hcontent.2 h1 h2]
    rfl
  · intro cs h
    apply value_segmentChildren
    intro s2 hs2 hseg2
    rw [segmentChildren_eq, List.mem_flatMap] at hs2
    obtain ⟨s, hs, hmem⟩ := hs2
    unfold segmentSibling at hmem
    by_cases hseg : isSegmented s = true
    · rw [if_pos hseg, List.mem_map] at hmem
      obtain ⟨f, hf, hfe⟩ := hmem
      subst hfe
      rcases mem_segments s.value f hf with hnl | hnl
      · subst hnl
        revert hseg2
        decide
      · refine ⟨hnl, ?_⟩
        rcases h s hs hseg f hf with h1 | h1
        · subst h1
          simp at hnl
        · exact h1
    · rw [if_neg hseg, List.mem_singleton] at hmem
      subst hmem
      exact absurd hseg2 hseg

/-- C24, witness: the text of the test on trailing text of the previous line.  Its fragments
are a newline, the line ` Some text` with its indentation of six spaces and a newline again;
the content fragment `Some text`, which has no white space at its ends, is its own only
fragment. -/
theorem resegmentation_keeps_content_witness :
    segments "\n      Some text\n      ".toList =
      ["\n".toList, "      Some text".toList, "\n".toList] ∧
    segmentSibling (jsxText "Some text".toList) = [jsxText "Some text".toList] :=
  ⟨by decide,
    ((resegmentation_keeps_content []).2.2.1 "Some text".toList (by decide) (by decide)).2.2
      (by decide) (by decide)⟩

/-- C24, counterexample to the claim as stated: the text made of a newline, two spaces and
`a` has the fragment of the two spaces and `a`.  Met again as a text sibling, that fragment is
replaced by two fragments, the two spaces and `a`: the list of text values changes from the
first segmentation to the second. -/
theorem resegmentation_keeps_content_counterexample :
    "  a".toList ∈ segments "\n  a".toList ∧
    segmentChildren [jsxText "  a".toList] = [jsxText "  ".toList, jsxText "a".toList] ∧
    (segmentChildren [parsedText 1 2 "\n  a".toList]).map Node.value =
      ["\n".toList, "  a".toList] ∧
    (segmentChildren (segmentChildren [parsedText 1 2 "\n  a".toList])).map Node.value =
      ["\n".toList, "  ".toList, "a".toList] := by
  decide

/-! ## The last comment alone (C25) -/

/-- C25.  The boolean that the call returns and the text that it writes are those of the call
on the list of the last comment alone: the comments before the last one come back as they
were, and only the text of the last one can change (its type and flags stay).  The call
returns `true` exactly when the directive pattern accepts the last comment: a directive that
stands earlier in the list is not looked at, so the call returns `false`, and changes nothing,
whenever the last comment is not a directive, as it does on an empty or absent list. -/
theorem tryRewriteEslintDisable_last_only (cs : List Comment) (c : Comment) (ruleId : Str) :
    tryRewriteEslintDisable (some (cs ++ [c])) ruleId =
      ((tryRewriteEslintDisable (some [c]) ruleId).1,
        (tryRewriteEslintDisable (some [c]) ruleId).2.map (fun l => cs ++ l)) ∧
    (∃ value, (tryRewriteEslintDisable (some [c]) ruleId).2 = some [{ c with value := value }]) ∧
    (tryRewriteEslintDisable (some (cs ++ [c])) ruleId).1 =
      (eslintDisableRegexp c.value).isSome ∧
    (eslintDisableRegexp c.value = none →
      tryRewriteEslintDisable (some (cs ++ [c])) ruleId = (false, some (cs ++ [c]))) ∧
    tryRewriteEslintDisable (some []) ruleId = (false, some []) ∧
    tryRewriteEslintDisable none ruleId = (false, none) := by
  have main : tryRewriteEslintDisable (some (cs ++ [c])) ruleId =
        ((tryRewriteEslintDisable (some [c]) ruleId).1,
          (tryRewriteEslintDisable (some [c]) ruleId).2.map (fun l => cs ++ l)) ∧
      (∃ value,
        (tryRewriteEslintDisable (some [c]) ruleId).2 = some [{ c with value := value }]) ∧
      (tryRewriteEslintDisable (some (cs ++ [c])) ruleId).1 =
        (eslintDisableRegexp c.value).isSome ∧
      (eslintDisableRegexp c.value = none →
        tryRewriteEslintDisable (some (cs ++ [c])) ruleId = (false, some (cs ++ [c]))) := by
    cases hm : eslintDisableRegexp c.value with
    | none =>
      have h1 := tryRewriteEslintDisable_of_no_match cs c ruleId hm
      have h2 := tryRewriteEslintDisable_of_no_match [] c ruleId hm
      rw [List.nil_append] at h2
      rw [h1, h2]
      exact ⟨rfl, ⟨c.value, rfl⟩, rfl, fun _ => rfl⟩
    | some m =>
      have h1 := tryRewriteEslintDisable_of_match cs c m ruleId hm
      have h2 := tryRewriteEslintDisable_of_match [] c m ruleId hm
      rw [List.nil_append] at h2
      rw [h1, h2]
      by_cases hc : (disabledRules m).length = 0 ∨ ruleId ∈ disabledRules m
      · rw [if_pos hc, if_pos hc]
        exact ⟨rfl, ⟨c.value, rfl⟩, rfl, fun h => by cases h⟩
      · rw [if_neg hc, if_neg hc]
        exact ⟨rfl, ⟨_, rfl⟩, rfl, fun h => by cases h⟩
  exact ⟨main.1, main.2.1, main.2.2.1, main.2.2.2, rfl, rfl⟩

/-- C25, witness: a directive followed by an ordinary comment.  The call returns `false` and
leaves both comments as they are, although the first one disables a rule. -/
theorem tryRewriteEslintDisable_last_only_witness :
    tryRewriteEslintDisable
        (some ([⟨"CommentLine", " eslint-disable-next-line eqeqeq".toList, true, false, none⟩] ++
          [⟨"CommentLine", " compare loosely".toList, true, false, none⟩])) "no-undef".toList =
      (false, some ([⟨"CommentLine", " eslint-disable-next-line eqeqeq".toList, true, false, none⟩] ++
        [⟨"CommentLine", " compare loosely".toList, true, false, none⟩])) :=
  (tryRewriteEslintDisable_last_only _ _ "no-undef".toList).2.2.2.1 (by decide)

end SuppressEslintErrors
